import Mathlib

/-!
The aggressive-inline pass of squishy (`src/AggressiveInline.cpp`).

A shallow embedding of the pass and the properties proved about it.

Conventions of the embedding.
* A pointer (`Function *`, `Instruction *`, `GlobalVariable *`) is a natural
  number; `0` is the null pointer.
* A `std::set<T *>` is the list of its members in ascending pointer order.
* A fatal error (`report_fatal_error`) is an explicit outcome carrying the
  message and the state of the module at the moment the error is raised.
* Where the source goes through a pointer to a destroyed object, or fails an
  assertion or a checked cast, the outcome is `undefined`.
* A constant is written as the tree of its operands; constants are uniqued, so
  two operands that are the same tree are one object, and a change of that
  object (`handleOperandChange`) is a change for every operand that holds it.
* The call graph, the library-routine table, the forced inliner and the
  dead-code pass belong to the compiler library the pass is linked against;
  they are parameters of the embedding.
-/

set_option autoImplicit false

namespace Squishy

/-! ## Call graph and `getCalledFunctions` -/

/-- A node of the call graph: the function it stands for (`getFunction()`,
`0` when the node has no function) and its call records, each naming the
called node by its index in the graph. -/
structure CallGraphNode where
  F : Nat
  CalledFunctions : List Nat
deriving DecidableEq, Repr

/-- The call graph: its nodes, and the map from function pointers to the node
registered for them. -/
structure CallGraph where
  nodes : List CallGraphNode
  FunctionMap : List (Nat × Nat)
deriving DecidableEq, Repr

/-- `CallGraphNode::getFunction` of the node with index `n`. -/
def CallGraph.getFunction (cg : CallGraph) (n : Nat) : Nat :=
  match cg.nodes[n]? with
  | some node => node.F
  | none => 0

/-- The call records of node `n` (`node->begin()` to `node->end()`); a node
that was inserted on demand has none. -/
def CallGraph.calledNodes (cg : CallGraph) (n : Nat) : List Nat :=
  match cg.nodes[n]? with
  | some node => node.CalledFunctions
  | none => []

/-- `CallGraph::getOrInsertFunction`: the node registered for `f`; when there is
none a fresh node without call records is made, which is the index one past the
listed nodes. -/
def CallGraph.getOrInsertFunction (cg : CallGraph) (f : Nat) : Nat :=
  match cg.FunctionMap.lookup f with
  | some n => n
  | none => cg.nodes.length

/-- The functions of the nodes called by node `n`, in record order
(`it->second->getFunction()` for each record). -/
def CallGraph.calledFunctionsOf (cg : CallGraph) (n : Nat) : List Nat :=
  (cg.calledNodes n).map cg.getFunction

/-- `std::set<T *>::insert`. -/
def setInsert (x : Nat) : List Nat → List Nat
  | [] => [x]
  | y :: ys =>
    if x < y then x :: y :: ys
    else if x = y then y :: ys
    else y :: setInsert x ys

/-- The `std::transform` of lines 34-38: every called function is inserted in
the set. -/
def directCallees (cg : CallGraph) (node : Nat) : List Nat :=
  (cg.calledFunctionsOf node).foldl (fun s f => setInsert f s) []

/-- The `for` loop of lines 47-54 over the call records of `topNode`: a called
function that is not in the set yet is inserted and pushed on the vector. The
vector is kept with its back at the head of the list. -/
def visitCallees : List Nat → List Nat × List Nat → List Nat × List Nat
  | [], st => st
  | calledFunction :: rest, (calledFunctions, calledFunctionsVector) =>
    if calledFunction ∈ calledFunctions then
      visitCallees rest (calledFunctions, calledFunctionsVector)
    else
      visitCallees rest
        (setInsert calledFunction calledFunctions, calledFunction :: calledFunctionsVector)

/-- The `while` loop of lines 42-55, run for at most `fuel` iterations; `none`
when the vector is not empty after `fuel` iterations. -/
def getCalledFunctionsLoop (cg : CallGraph) :
    Nat → List Nat → List Nat → Option (List Nat)
  | _, calledFunctions, [] => some calledFunctions
  | 0, _, _ :: _ => none
  | fuel + 1, calledFunctions, top :: calledFunctionsVector =>
    let topNode := cg.getOrInsertFunction top
    let st := visitCallees (cg.calledFunctionsOf topNode) (calledFunctions, calledFunctionsVector)
    getCalledFunctionsLoop cg fuel st.1 st.2

/-- `getCalledFunctions` with an explicit iteration budget. -/
def getCalledFunctionsFuel (cg : CallGraph) (fuel : Nat) (node : Nat) : Option (List Nat) :=
  let calledFunctions := directCallees cg node
  getCalledFunctionsLoop cg fuel calledFunctions calledFunctions.reverse

/-- `AggressiveInline::getCalledFunctions`. The budget of one iteration per node
of the graph, and one more for the null pointer, is never used up
(`getCalledFunctionsFuel_isSome`). -/
def getCalledFunctions (cg : CallGraph) (node : Nat) : List Nat :=
  (getCalledFunctionsFuel cg (cg.nodes.length + 1) node).getD []

/-- A path of one or more call edges between nodes of the graph. -/
inductive CallPath (cg : CallGraph) (n : Nat) : Nat → Prop
  | edge {m : Nat} : m ∈ cg.calledNodes n → CallPath cg n m
  | step {m k : Nat} : CallPath cg n m → k ∈ cg.calledNodes m → CallPath cg n k

/-- One call edge between function pointers, as the traversal follows it: `g`
is the function of a node called by the node registered for `f`. -/
def CallGraph.calls (cg : CallGraph) (f g : Nat) : Prop :=
  g ∈ cg.calledFunctionsOf (cg.getOrInsertFunction f)

/-- What the loop maintains: the set holds the seed, holds only functions the
seed leads to, and the callees of every member that is no longer on the vector
are members too. -/
structure LoopInv (cg : CallGraph) (seed s v : List Nat) : Prop where
  seed_sub : ∀ x ∈ seed, x ∈ s
  sound : ∀ y ∈ s, ∃ x ∈ seed, Relation.ReflTransGen cg.calls x y
  closed : ∀ x ∈ s, x ∉ v → ∀ y, cg.calls x y → y ∈ s
  vec_sub : ∀ x ∈ v, x ∈ s
  sorted : s.Sorted (· < ·)

/-- A graph shaped as the compiler library builds it for a module with the
functions `f` (pointer 1), which calls an undefined function, and `g`
(pointer 2): node 0 is the node registered for the null pointer, which calls
every externally visible function; node 3 stands for the unknown callee, has no
function either and is not registered. -/
def externalGraph : CallGraph :=
  { nodes := [⟨0, [1, 2]⟩, ⟨1, [3]⟩, ⟨2, []⟩, ⟨0, []⟩],
    FunctionMap := [(0, 0), (1, 1), (2, 2)] }

/-- A graph in which every node is registered for its function: `f` (1) calls
`g` (2) and itself, `g` calls `h` (3). -/
def plainGraph : CallGraph :=
  { nodes := [⟨1, [1, 0]⟩, ⟨2, [2]⟩, ⟨3, []⟩],
    FunctionMap := [(1, 0), (2, 1), (3, 2)] }

/-! ## The module: constants, instructions, functions, globals -/

/-- A constant (`llvm::Constant`), as far as the pass tells constants apart.
A constant is written as the tree of its operands; constants are uniqued, so
two operands that are the same tree are the same constant. Types are left
out. -/
inductive Constant where
  /-- `ConstantAggregate`: a struct, array or vector constant -/
  | aggregate (elems : List Constant)
  /-- `ConstantExpr` -/
  | expr (opcode : Nat) (ops : List Constant)
  /-- `GlobalVariable` -/
  | globalVariable (g : Nat)
  /-- `Function` -/
  | function (f : Nat)
  /-- `ConstantInt` -/
  | int (width value : Nat)
  /-- `UndefValue` -/
  | undef
  /-- `PoisonValue` -/
  | poison
  /-- any other constant (zero initialiser, constant data, null, ...) -/
  | data (n : Nat)
deriving Repr

mutual
/-- Structural equality test of constants. -/
def Constant.beq : Constant → Constant → Bool
  | .aggregate xs, .aggregate ys => Constant.beqList xs ys
  | .expr o xs, .expr p ys => o == p && Constant.beqList xs ys
  | .globalVariable g, .globalVariable h => g == h
  | .function f, .function g => f == g
  | .int w v, .int x y => w == x && v == y
  | .undef, .undef => true
  | .poison, .poison => true
  | .data n, .data m => n == m
  | _, _ => false
/-- Structural equality test of lists of constants. -/
def Constant.beqList : List Constant → List Constant → Bool
  | [], [] => true
  | x :: xs, y :: ys => Constant.beq x y && Constant.beqList xs ys
  | _, _ => false
end

mutual
theorem Constant.beq_iff (a b : Constant) : Constant.beq a b = true ↔ a = b := by
  cases a <;> cases b <;> simp [Constant.beq]
  case aggregate.aggregate xs ys => exact Constant.beqList_iff xs ys
  case expr.expr o xs p ys =>
    intro _
    exact Constant.beqList_iff xs ys
theorem Constant.beqList_iff (xs ys : List Constant) :
    Constant.beqList xs ys = true ↔ xs = ys := by
  cases xs <;> cases ys <;> simp [Constant.beqList]
  case cons.cons x xs y ys =>
    rw [Constant.beq_iff x y, Constant.beqList_iff xs ys]
end

instance : DecidableEq Constant := fun a b => decidable_of_iff _ (Constant.beq_iff a b)

/-- An operand (`llvm::Value`). -/
inductive Value where
  | constant (c : Constant)
  /-- the result of the instruction with this pointer -/
  | instruction (id : Nat)
  | argument (n : Nat)
deriving Repr, DecidableEq

/-- An instruction, with its pointer `id`. -/
inductive Instruction where
  | alloca (id : Nat) (allocatedType addrSpace align : Nat) (name : String)
  | store (id : Nat) (value pointer : Value)
  | getelementptr (id : Nat) (inBounds : Bool) (pointer : Value) (indices : List Value)
  | call (id : Nat) (calledOperand : Value) (args : List Value)
  | other (id : Nat) (opcode : Nat) (operands : List Value)
deriving Repr, DecidableEq

/-- The pointer of an instruction. -/
def Instruction.id : Instruction → Nat
  | .alloca id _ _ _ _ => id
  | .store id _ _ => id
  | .getelementptr id _ _ _ => id
  | .call id _ _ => id
  | .other id _ _ => id

/-- The operands of an instruction, in order. -/
def Instruction.operands : Instruction → List Value
  | .alloca _ _ _ _ _ => []
  | .store _ value pointer => [value, pointer]
  | .getelementptr _ _ pointer indices => pointer :: indices
  | .call _ calledOperand args => calledOperand :: args
  | .other _ _ operands => operands

/-- The instruction with `change` applied to every operand. -/
def Instruction.mapOperands (change : Value → Value) : Instruction → Instruction
  | .alloca id ty addrSpace align name => .alloca id ty addrSpace align name
  | .store id value pointer => .store id (change value) (change pointer)
  | .getelementptr id inBounds pointer indices =>
    .getelementptr id inBounds (change pointer) (indices.map change)
  | .call id calledOperand args => .call id (change calledOperand) (args.map change)
  | .other id opcode operands => .other id opcode (operands.map change)

/-- A function: its pointer `id`, its name, the three inlining attributes and
its basic blocks, each the list of its instructions. -/
structure Function where
  id : Nat
  name : String
  NoInline : Bool
  OptimizeNone : Bool
  AlwaysInline : Bool
  blocks : List (List Instruction)
deriving Repr, DecidableEq

/-- A user of a global variable, as `getGlobalUser` tells users apart. -/
inductive User where
  /-- `isa<Function>(user)` -/
  | function (f : Nat)
  /-- `isa<Instruction>(user)`; `parent` is `getParent()->getParent()` -/
  | instruction (id : Nat) (parent : Nat)
  /-- any other user: a constant expression, an aggregate, ... -/
  | constant (c : Constant)
deriving Repr, DecidableEq

/-- A global variable: its pointer `id`, name, value type, address space,
alignment (`getAlign()`, which may be unset), initialiser and use list. -/
structure GlobalVariable where
  id : Nat
  name : String
  valueType : Nat
  addressSpace : Nat
  align : Option Nat
  initializer : Option Constant
  users : List User
deriving Repr, DecidableEq

/-- The module: its functions and global variables, in module order. -/
structure Module where
  functions : List Function
  globals : List GlobalVariable
deriving Repr, DecidableEq

/-- The names of the functions of the module with pointer `f`. -/
def Module.getName (m : Module) (f : Nat) : String :=
  match m.functions.find? (fun fn => fn.id == f) with
  | some fn => fn.name
  | none => ""

/-- How an operation of the pass ends: normally, or in `report_fatal_error`
with a message; the module is given as it is at that moment. -/
inductive Outcome where
  | ok (module : Module)
  | fatal (message : String) (module : Module)
  /-- the source uses an object that has been destroyed, or fails an assertion
  or a checked cast: it has no defined result -/
  | undefined
deriving Repr, DecidableEq

/-- The parts of the compiler library the pass relies on. -/
structure Library where
  /-- `TargetLibraryInfo::getLibFunc` on a name: is it a library routine? -/
  getLibFunc : String → Bool
  /-- `AlwaysInlinerPass(false).run` -/
  AlwaysInlinerPass : Module → Module
  /-- `GlobalDCEPass().run` -/
  GlobalDCEPass : Module → Module
  /-- `verifyModule`: true when the module is broken -/
  verifyModule : Module → Bool

/-! ## `std::priority_queue`

The worklist of `inlineFunctions` is a `std::priority_queue` over a
`std::vector`, that is `std::push_heap` and `std::pop_heap` on the vector. They
are written out here as the standard library implements them (libstdc++,
`bits/stl_heap.h`); the comparator of the pass is not a strict weak ordering, so
what the queue does is what these algorithms do.

```
__push_heap(first, holeIndex, topIndex, value, comp):
  parent = (holeIndex - 1) / 2
  while (holeIndex > topIndex && comp(first[parent], value))
    first[holeIndex] = first[parent]; holeIndex = parent; parent = (holeIndex - 1) / 2
  first[holeIndex] = value

__adjust_heap(first, holeIndex, len, value, comp):
  topIndex = holeIndex; secondChild = holeIndex
  while (secondChild < (len - 1) / 2)
    secondChild = 2 * (secondChild + 1)
    if (comp(first[secondChild], first[secondChild - 1])) secondChild--
    first[holeIndex] = first[secondChild]; holeIndex = secondChild
  if ((len & 1) == 0 && secondChild == (len - 2) / 2)
    secondChild = 2 * (secondChild + 1)
    first[holeIndex] = first[secondChild - 1]; holeIndex = secondChild - 1
  __push_heap(first, holeIndex, topIndex, value, comp)
```
-/

/-- The loop of `__push_heap`. The first argument bounds the number of
iterations; the hole index, which every iteration at least halves, is such a
bound, and with it the loop condition is false whenever the bound is used up
(`pushHeapLoop_fuel`). -/
def pushHeapLoop (comp : Nat → Nat → Bool) (topIndex value : Nat) :
    Nat → List Nat → Nat → List Nat
  | 0, first, holeIndex => first.set holeIndex value
  | fuel + 1, first, holeIndex =>
    let parent := (holeIndex - 1) / 2
    if holeIndex > topIndex && comp (first.getD parent 0) value then
      pushHeapLoop comp topIndex value fuel (first.set holeIndex (first.getD parent 0)) parent
    else
      first.set holeIndex value

/-- `std::__push_heap`. -/
def pushHeapAt (comp : Nat → Nat → Bool) (first : List Nat) (holeIndex topIndex value : Nat) :
    List Nat :=
  pushHeapLoop comp topIndex value holeIndex first holeIndex

/-- `std::push_heap` on the whole vector: the value in the last slot is sifted
up. -/
def pushHeap (comp : Nat → Nat → Bool) (c : List Nat) : List Nat :=
  pushHeapAt comp c (c.length - 1) 0 (c.getD (c.length - 1) 0)

/-- The `while` loop of `__adjust_heap`; `secondChild` equals `holeIndex` at the
head of every iteration, so one index is kept. Returns the vector and the hole
index. The first argument bounds the number of iterations; every iteration
moves the hole down, so the length of the range is enough
(`adjustHeapLoop_fuel`). -/
def adjustHeapLoop (comp : Nat → Nat → Bool) (len : Nat) :
    Nat → List Nat → Nat → List Nat × Nat
  | 0, first, holeIndex => (first, holeIndex)
  | fuel + 1, first, holeIndex =>
    if holeIndex < (len - 1) / 2 then
      let secondChild := 2 * (holeIndex + 1)
      let secondChild :=
        if comp (first.getD secondChild 0) (first.getD (secondChild - 1) 0) then secondChild - 1
        else secondChild
      adjustHeapLoop comp len fuel (first.set holeIndex (first.getD secondChild 0)) secondChild
    else
      (first, holeIndex)

/-- The first part of `std::__adjust_heap`: the hole is moved down to a leaf, by
the `while` loop and then the `if` for a last node with one child. The lengths
are signed in the source, so for `len = 0` the test
`secondChild == (len - 2) / 2` fails there; hence `2 ≤ len`. -/
def adjustHeapDescend (comp : Nat → Nat → Bool) (first : List Nat) (holeIndex len : Nat) :
    List Nat × Nat :=
  let st := adjustHeapLoop comp len len first holeIndex
  if len % 2 = 0 ∧ 2 ≤ len ∧ st.2 = (len - 2) / 2 then
    let secondChild := 2 * (st.2 + 1)
    (st.1.set st.2 (st.1.getD (secondChild - 1) 0), secondChild - 1)
  else st

/-- `std::__adjust_heap`: the hole is moved down to a leaf, then the value is
sifted up from there by `__push_heap`. -/
def adjustHeap (comp : Nat → Nat → Bool) (first : List Nat) (holeIndex len value : Nat) :
    List Nat :=
  let topIndex := holeIndex
  let st := adjustHeapDescend comp first holeIndex len
  pushHeapAt comp st.1 st.2 topIndex value

/-- `std::pop_heap` on the whole vector: when it has more than one element the
last and the first are exchanged through `__adjust_heap` on the shorter range. -/
def popHeap (comp : Nat → Nat → Bool) (c : List Nat) : List Nat :=
  if c.length > 1 then
    let last := c.length - 1
    let value := c.getD last 0
    adjustHeap comp (c.set last (c.getD 0 0)) 0 last value
  else c

/-- `priority_queue::push`: `push_back`, then `push_heap`. -/
def priorityQueuePush (comp : Nat → Nat → Bool) (c : List Nat) (x : Nat) : List Nat :=
  pushHeap comp (c ++ [x])

/-- `priority_queue::pop`: `pop_heap`, then `pop_back`. -/
def priorityQueuePop (comp : Nat → Nat → Bool) (c : List Nat) : List Nat :=
  (popHeap comp c).dropLast

/-- `priority_queue::top`: the front of the vector. -/
def priorityQueueTop (c : List Nat) : Nat := c.getD 0 0

/-! ## `inlineFunctions` -/

/-- The state of the pass object: the module and the call graph built from it
when the object was made. -/
structure AggressiveInline where
  module : Module
  call_graph : CallGraph
deriving Repr, DecidableEq

/-- The comparator `callsSortKey` of lines 62-70. -/
def callsSortKey (ai : AggressiveInline) (f g : Nat) : Bool :=
  let fnode := ai.call_graph.getOrInsertFunction f
  let gnode := ai.call_graph.getOrInsertFunction g
  decide ((getCalledFunctions ai.call_graph fnode).length >
      (getCalledFunctions ai.call_graph gnode).length) ||
    ai.module.getName g != "main"

/-- Lines 89-91: `removeFnAttr(NoInline)`, `removeFnAttr(OptimizeNone)`,
`addFnAttr(AlwaysInline)`. -/
def makeInlinable (f : Function) : Function :=
  { f with NoInline := false, OptimizeNone := false, AlwaysInline := true }

/-- Apply `change` to the function with pointer `f`. -/
def Module.updateFunction (m : Module) (f : Nat) (change : Function → Function) : Module :=
  { m with functions := m.functions.map (fun fn => if fn.id = f then change fn else fn) }

/-- The variables of the scheduling loop. -/
structure Schedule where
  worklist : List Nat
  shouldBeRemoved : List Nat
  module : Module
deriving Repr, DecidableEq

/-- Lines 76-78: every function of the module is pushed on the worklist. -/
def fillWorklist (comp : Nat → Nat → Bool) (m : Module) : List Nat :=
  m.functions.foldl (fun worklist f => priorityQueuePush comp worklist f.id) []

/-- One iteration of the loop of lines 82-92: the top of the worklist is put in
the removal set, popped, and made inlinable. -/
def scheduleStep (comp : Nat → Nat → Bool) (st : Schedule) : Schedule :=
  let f := priorityQueueTop st.worklist
  { worklist := priorityQueuePop comp st.worklist,
    shouldBeRemoved := setInsert f st.shouldBeRemoved,
    module := st.module.updateFunction f makeInlinable }

/-- The `while (worklist.size() > 1)` loop of lines 82-92, for at most `fuel`
iterations. Every iteration takes one function off the worklist, so the size of
the worklist is a bound (`scheduleLoop_worklist_length`). -/
def scheduleLoop (comp : Nat → Nat → Bool) : Nat → Schedule → Schedule
  | 0, st => st
  | fuel + 1, st =>
    if st.worklist.length > 1 then scheduleLoop comp fuel (scheduleStep comp st)
    else st

/-- Lines 72-92: the worklist is filled and emptied down to one function. -/
def schedule (ai : AggressiveInline) : Schedule :=
  let comp := callsSortKey ai
  let worklist := fillWorklist comp ai.module
  scheduleLoop comp worklist.length
    { worklist := worklist, shouldBeRemoved := [], module := ai.module }

/-- Lines 96-104: the first function of the removal set, in set order, whose
name the library table knows. -/
def findLibraryFunction (lib : Library) (m : Module) : List Nat → Option String
  | [] => none
  | f :: rest =>
    if lib.getLibFunc (m.getName f) then some (m.getName f)
    else findLibraryFunction lib m rest

mutual
/-- `replaceAllUsesWith` of function `f` by poison, inside a constant. -/
def Constant.replaceFunction (f : Nat) : Constant → Constant
  | .aggregate elems => .aggregate (Constant.replaceFunctionList f elems)
  | .expr opcode ops => .expr opcode (Constant.replaceFunctionList f ops)
  | .function g => if g = f then .poison else .function g
  | c => c
/-- `Constant.replaceFunction` on every constant of a list. -/
def Constant.replaceFunctionList (f : Nat) : List Constant → List Constant
  | [] => []
  | c :: cs => Constant.replaceFunction f c :: Constant.replaceFunctionList f cs
end

/-- `replaceAllUsesWith` of function `f` by poison, in an operand. -/
def Value.replaceFunction (f : Nat) : Value → Value
  | .constant c => .constant (c.replaceFunction f)
  | v => v

/-- `replaceAllUsesWith` of function `f` by poison, in the operands of an
instruction. -/
def Instruction.replaceFunction (f : Nat) (i : Instruction) : Instruction :=
  i.mapOperands (Value.replaceFunction f)

/-- What is left of a use list once function `f` is gone: `f` and its
instructions are no users any more, and a constant user has `f` replaced. -/
def User.withoutFunction (f : Nat) : List User → List User
  | [] => []
  | .function g :: us =>
    if g = f then User.withoutFunction f us else .function g :: User.withoutFunction f us
  | .instruction id parent :: us =>
    if parent = f then User.withoutFunction f us
    else .instruction id parent :: User.withoutFunction f us
  | .constant c :: us => .constant (c.replaceFunction f) :: User.withoutFunction f us

/-- The pointers of the functions of the module, in module order. -/
def Module.functionIds (m : Module) : List Nat := m.functions.map (·.id)

/-- Lines 114-115 for a function `f` of the module:
`f->replaceAllUsesWith(PoisonValue::get(f->getType()))`, then
`f->eraseFromParent()`. -/
def Module.eraseFunction (m : Module) (f : Nat) : Module :=
  { functions :=
      (m.functions.filter (fun fn => fn.id != f)).map (fun fn =>
        { fn with blocks := fn.blocks.map (fun bb => bb.map (Instruction.replaceFunction f)) }),
    globals :=
      m.globals.map (fun g =>
        { g with initializer := g.initializer.map (Constant.replaceFunction f),
                 users := User.withoutFunction f g.users }) }

/-- The loop of lines 112-116 over the removal set. The set holds the pointers
taken before the forced inliner ran; a function that is no longer in the module
has been destroyed, lines 113-115 then go through a dangling pointer, and the
loop has no defined result (`none`). -/
def eraseFunctions : List Nat → Module → Option Module
  | [], m => some m
  | f :: rest, m =>
    if f ∈ m.functionIds then eraseFunctions rest (m.eraseFunction f) else none

/-- Lines 108-116: the forced inliner runs, then every function of the removal
set, in set order, has its uses replaced by poison and is erased. -/
def eraseScheduled (lib : Library) (st : Schedule) : Option Module :=
  eraseFunctions st.shouldBeRemoved (lib.AlwaysInlinerPass st.module)

/-- Lines 94-119, after the scheduling loop: the library check; then the forced
inliner, the erasure of the removal set and the dead-code pass. -/
def inlineScheduled (lib : Library) (st : Schedule) : Outcome :=
  match findLibraryFunction lib st.module st.shouldBeRemoved with
  | some name => .fatal ("Function " ++ name ++ " is not available") st.module
  | none =>
    match eraseScheduled lib st with
    | some m => .ok (lib.GlobalDCEPass m)
    | none => .undefined

/-- `AggressiveInline::inlineFunctions`. -/
def inlineFunctions (lib : Library) (ai : AggressiveInline) : Outcome :=
  inlineScheduled lib (schedule ai)

/-- A module of two functions, `f` (pointer 1) first and `main` (pointer 2)
second, with its call graph: `f` calls itself, `main` calls nothing; node 0 is
the node registered for the null pointer, which calls both. -/
def selfCallModule : AggressiveInline :=
  { module :=
      { functions :=
          [⟨1, "f", false, false, false, [[.call 10 (.constant (.function 1)) []]]⟩,
           ⟨2, "main", false, false, false, [[]]⟩],
        globals := [] },
    call_graph :=
      { nodes := [⟨0, [1, 2]⟩, ⟨1, [1]⟩, ⟨2, []⟩],
        FunctionMap := [(0, 0), (1, 1), (2, 2)] } }

/-- A library that knows the routine `printf` and whose passes leave the module
as it is. -/
def plainLibrary : Library :=
  { getLibFunc := fun name => name == "printf",
    AlwaysInlinerPass := fun m => m,
    GlobalDCEPass := fun m => m,
    verifyModule := fun _ => false }

/-- A module of `main` (pointer 3) and two helpers it reaches: `main` calls
`helper` (pointer 1), which calls `leaf` (pointer 2). -/
def helpersModule : AggressiveInline :=
  { module :=
      { functions :=
          [⟨1, "helper", true, true, false, [[.call 10 (.constant (.function 2)) []]]⟩,
           ⟨2, "leaf", true, false, false, [[]]⟩,
           ⟨3, "main", true, true, false, [[.call 11 (.constant (.function 1)) []]]⟩],
        globals := [] },
    call_graph :=
      { nodes := [⟨0, [1, 2, 3]⟩, ⟨1, [2]⟩, ⟨2, []⟩, ⟨3, [1]⟩],
        FunctionMap := [(0, 0), (1, 1), (2, 2), (3, 3)] } }

/-- The fixture `test/check_lib_shouldfail.c` as a module: `_strcpy` (pointer 1),
`_strlen` (2), `_copier` (3), `main` (4) and the declaration of `printf` (5), and
the two string constants (6, 7) that `main` passes on. In the call graph, node
`i` is the node of function `i`; node 0 is the node registered for the null
pointer, which calls every externally visible function; node 6 stands for the
unknown callees of the declared `printf` and is not registered. -/
def fixture : AggressiveInline :=
  { module :=
      { functions :=
          [⟨1, "_strcpy", true, true, false, [[.other 10 0 [], .other 11 1 []]]⟩,
           ⟨2, "_strlen", true, true, false, [[.other 20 0 [], .other 21 1 []]]⟩,
           ⟨3, "_copier", true, true, false,
             [[.call 30 (.constant (.function 1)) [.argument 0, .argument 1],
               .call 31 (.constant (.function 2)) [.argument 0],
               .other 32 1 [.instruction 31]]]⟩,
           ⟨4, "main", true, true, false,
             [[.alloca 40 0 0 16 "a",
               .call 41 (.constant (.function 3))
                 [.instruction 40, .constant (.globalVariable 6)],
               .call 42 (.constant (.function 5))
                 [.constant (.globalVariable 7), .instruction 40],
               .other 43 1 [.instruction 41]]]⟩,
           ⟨5, "printf", false, false, false, []⟩],
        globals :=
          [⟨6, ".str", 1, 0, some 1, some (.data 0), [.instruction 41 4]⟩,
           ⟨7, ".str.1", 2, 0, some 1, some (.data 1), [.instruction 42 4]⟩] },
    call_graph :=
      { nodes := [⟨0, [1, 2, 3, 4, 5]⟩, ⟨1, []⟩, ⟨2, []⟩, ⟨3, [1, 2]⟩, ⟨4, [3, 5]⟩,
                  ⟨5, [6]⟩, ⟨0, []⟩],
        FunctionMap := [(0, 0), (1, 1), (2, 2), (3, 3), (4, 4), (5, 5)] } }

/-! ## `getGlobalUser` -/

deriving instance DecidableEq for Except

/-- The function a user belongs to, as lines 161-168 find it: the function
itself, the parent function of an instruction, and the null pointer for any
other user. -/
def User.fuser : User → Nat
  | .function f => f
  | .instruction _ parent => parent
  | .constant _ => 0

/-- The loop of lines 160-180 over the use list; `rv` is the variable of that
name. -/
def getGlobalUserLoop (name : String) : List User → Nat → Except String Nat
  | [], rv => .ok rv
  | user :: rest, rv =>
    let fuser := user.fuser
    if fuser ≠ 0 ∧ rv ≠ 0 ∧ fuser ≠ rv then
      .error ("Global variable " ++ name ++ " must be used by only one function")
    else
      getGlobalUserLoop name rest fuser

/-- `AggressiveInline::getGlobalUser`. -/
def getGlobalUser (g : GlobalVariable) : Except String Nat :=
  getGlobalUserLoop g.name g.users 0

/-! ## `disaggregateVars` and `extractValuesFromStore`

Constants are uniqued: an aggregate constant is one object, however many
operands hold it, and `handleOperandChange` (lines 215-218) changes that object
for every user at once. A constant of the model is the tree of its operands, and
two operands that are the same tree are the same object. What
`handleOperandChange` has done since `extractValuesFromStore` was called is kept
as the list `changed`: for each aggregate changed, named by the tree it was at
the call, the operands that undef has replaced. `Constant.current` reads a
constant through that list. -/

/-- The entry block under construction, the pointer the next new instruction
gets, and the aggregates changed by `handleOperandChange`, each with the
operands replaced. -/
structure Emit where
  block : List Instruction
  next : Nat
  changed : List (Constant × List Constant)
deriving Repr, DecidableEq

/-- Lines 203-209 as list surgery: `gep` is inserted after the instruction
`after_instr`, and `store` before the node that follows `gep`; when nothing
follows, `store` has no place in the block. -/
def emitAfter (after_instr : Nat) (gep store : Instruction) : List Instruction → List Instruction
  | [] => []
  | i :: rest =>
    if i.id = after_instr then
      match rest with
      | [] => [i, gep]
      | next :: rest => i :: gep :: store :: next :: rest
    else i :: emitAfter after_instr gep store rest

/-- The test of lines 200-202: a constant expression, or a global variable of
the tracked set. -/
def isDisaggregated (vars : List Nat) : Constant → Bool
  | .expr _ _ => true
  | .globalVariable g => vars.contains g
  | _ => false

/-- `SmallSetVector::insert`. -/
def setVectorInsert {α : Type} [DecidableEq α] (x : α) (s : List α) : List α :=
  if x ∈ s then s else s ++ [x]

/-- The operands of the aggregate `a` that undef has replaced; none when the
aggregate has not been changed. -/
def operandsChanged (changed : List (Constant × List Constant)) (a : Constant) :
    List Constant :=
  match changed.find? (fun p => Constant.beq p.1 a) with
  | some p => p.2
  | none => []

/-- Lines 215-218 for the aggregate `a`: every operand of `a` that is in
`vars_to_undef` becomes undef, for all the users of `a`. -/
def handleOperandChanges (a : Constant) (vars_to_undef : List Constant) (st : Emit) : Emit :=
  if vars_to_undef = [] then st
  else { st with changed := st.changed ++ [(a, vars_to_undef)] }

mutual
/-- The constant as it is after the changes `changed`: an operand that undef
has replaced is undef, any other operand is read in the same way. -/
def Constant.current (changed : List (Constant × List Constant)) : Constant → Constant
  | .aggregate elems =>
    .aggregate (Constant.currentList changed (operandsChanged changed (.aggregate elems)) elems)
  | .expr opcode ops => .expr opcode (Constant.currentList changed [] ops)
  | c => c
/-- The operands of a constant after the changes, `replaced` being the operands
of that constant that undef has replaced. -/
def Constant.currentList (changed : List (Constant × List Constant))
    (replaced : List Constant) : List Constant → List Constant
  | [] => []
  | c :: rest =>
    (if c ∈ replaced then Constant.undef else Constant.current changed c) ::
      Constant.currentList changed replaced rest
end

/-- An operand of an instruction after the changes `changed`. -/
def Value.current (changed : List (Constant × List Constant)) : Value → Value
  | .constant c => .constant (c.current changed)
  | v => v

mutual
/-- The body of the loop of lines 192-213 for one element of the aggregate at
hand, with its index already pushed on `val_idx`; `constant` is the element as
it was at the call of `extractValuesFromStore`, and `replaced` the operands of
the aggregate at hand that undef has replaced, so that the element read at line
192 is undef when `constant` is one of them. For an aggregate element this is
the recursive call, with its own `vars_to_undef`, lines 215-218 included. -/
def disaggregateElement (after_instr : Nat) (val : Value) (vars : List Nat)
    (val_idx : List Value) (replaced : List Constant) :
    Constant → Emit → List Constant → Emit × List Constant
  | .aggregate inner, st, vars_to_undef =>
    let r := disaggregateLoop after_instr val vars val_idx
      (operandsChanged st.changed (.aggregate inner)) 0 inner st []
    (handleOperandChanges (.aggregate inner) r.2 r.1, vars_to_undef)
  | constant, st, vars_to_undef =>
    if constant ∈ replaced then (st, vars_to_undef)
    else if isDisaggregated vars constant then
      let gep_instr := Instruction.getelementptr st.next true val val_idx
      let store := Instruction.store (st.next + 1) (.constant constant) (.instruction st.next)
      ({ st with block := emitAfter after_instr gep_instr store st.block, next := st.next + 2 },
        setVectorInsert constant vars_to_undef)
    else (st, vars_to_undef)
/-- The loop of lines 192-213 from element `i` on. -/
def disaggregateLoop (after_instr : Nat) (val : Value) (vars : List Nat)
    (val_idx : List Value) (replaced : List Constant) :
    Nat → List Constant → Emit → List Constant → Emit × List Constant
  | _, [], st, vars_to_undef => (st, vars_to_undef)
  | i, constant :: rest, st, vars_to_undef =>
    let r := disaggregateElement after_instr val vars
      (val_idx ++ [.constant (.int 32 i)]) replaced constant st vars_to_undef
    disaggregateLoop after_instr val vars val_idx replaced (i + 1) rest r.1 r.2
end

/-- `AggressiveInline::disaggregateVars` on the aggregate with elements
`elems`. -/
def disaggregateVars (after_instr : Nat) (val : Value) (val_idx : List Value)
    (elems : List Constant) (vars : List Nat) (st : Emit) : Emit :=
  (disaggregateElement after_instr val vars val_idx [] (.aggregate elems) st []).1

/-- `AggressiveInline::extractValuesFromStore` on the store with pointer `inst`
of the block. The instructions of the block have the constants they hold as
these are after the changes; `changed` is given back for the other users of the
constants. -/
def extractValuesFromStore (inst : Nat) (vars : List Nat) (st : Emit) : Emit :=
  match st.block.find? (fun i => i.id = inst) with
  | some (.store _ (.constant (.aggregate elems)) pointer) =>
    let r := disaggregateVars inst pointer [.constant (.int 32 0)] elems vars st
    { r with block := r.block.map (Instruction.mapOperands (Value.current r.changed)) }
  | _ => st

/-! ## `inlineGlobalsIntoFunction` and `inlineGlobalVars` -/

/-- Insertion of `new` before the instruction `pos` of the block (the
`InsertBefore` argument of the instruction constructors). -/
def insertBefore (pos : Nat) (new : Instruction) : List Instruction → List Instruction
  | [] => []
  | i :: rest =>
    if i.id = pos then new :: i :: rest else i :: insertBefore pos new rest

/-- `SmallMapVector::operator[]` followed by an assignment. -/
def mapVectorSet (key value : Nat) : List (Nat × Nat) → List (Nat × Nat)
  | [] => [(key, value)]
  | (k, v) :: rest =>
    if k = key then (k, value) :: rest else (k, v) :: mapVectorSet key value rest

/-- The variables of the first loop of `inlineGlobalsIntoFunction`: the entry
block, the pointer of the next new instruction, `insertion_point`,
`global_to_instruction`, and the global variables of the module; and `changed`,
the changes of constants that the calls of `extractValuesFromStore` have made,
one list for each call, for the users of these constants outside the entry
block. -/
structure GlobalsState where
  entry : List Instruction
  next : Nat
  insertion_point : Nat
  global_to_instruction : List (Nat × Nat)
  globals : List GlobalVariable
  changed : List (List (Constant × List Constant))
deriving Repr, DecidableEq

/-- The global variable with its initialiser as it is after the changes. -/
def GlobalVariable.current (changed : List (Constant × List Constant))
    (gv : GlobalVariable) : GlobalVariable :=
  { gv with initializer := gv.initializer.map (Constant.current changed) }

/-- Apply `change` to the global variable with pointer `g`. -/
def updateGlobal (g : Nat) (change : GlobalVariable → GlobalVariable) :
    List GlobalVariable → List GlobalVariable :=
  List.map (fun gv => if gv.id = g then change gv else gv)

/-- The body of the loop of lines 242-259 for the global `g`; `vars` is the set
`globals`. The constants that `extractValuesFromStore` changes are changed for
the initialisers of the other globals too. -/
def allocateGlobal (vars : List Nat) (st : GlobalsState) (g : Nat) : GlobalsState :=
  match st.globals.find? (fun gv => gv.id = g) with
  | none => st
  | some gv =>
    let alloc_global_space_instr :=
      Instruction.alloca st.next gv.valueType gv.addressSpace (gv.align.getD 1) gv.name
    let entry := insertBefore st.insertion_point alloc_global_space_instr st.entry
    let globals := updateGlobal g (fun gv => { gv with name := "" }) st.globals
    let global_to_instruction := mapVectorSet g st.next st.global_to_instruction
    match gv.initializer with
    | none =>
      { entry := entry, next := st.next + 1, insertion_point := st.insertion_point,
        global_to_instruction := global_to_instruction, globals := globals,
        changed := st.changed }
    | some global_init =>
      let store_global_init :=
        Instruction.store (st.next + 1) (.constant global_init) (.instruction st.next)
      let entry := insertBefore st.insertion_point store_global_init entry
      let globals := updateGlobal g (fun gv => { gv with initializer := none }) globals
      let em := extractValuesFromStore (st.next + 1) vars ⟨entry, st.next + 2, []⟩
      { entry := em.block, next := em.next, insertion_point := st.next + 1,
        global_to_instruction := global_to_instruction,
        globals := globals.map (GlobalVariable.current em.changed),
        changed := st.changed ++ [em.changed] }

/-- `ConstantExpr::getAsInstruction`: the instruction with pointer `id` that
computes the expression. -/
def getAsInstruction (id : Nat) : Constant → Instruction
  | .expr opcode ops => .other id opcode (ops.map Value.constant)
  | _ => .other id 0 []

/-- The uses, among the operands of `i`, of constant expressions that have the
global `g` as an operand: one entry for each use, in operand order. These are
all the constant-expression users of `g` that `i` reaches when the uses of `g`
are ones the source can convert (`Module.usesConvertible`); with any other use
the source fails at line 134 or 147, and `convertGlobalsDefined` is false. -/
def constantExprUses (g : Nat) (i : Instruction) : List Constant :=
  i.operands.filterMap (fun v =>
    match v with
    | .constant (.expr opcode ops) =>
      if Constant.globalVariable g ∈ ops then some (.expr opcode ops) else none
    | _ => none)

/-- Lines 146-150 for the uses `users` by the instruction `i`: for each use a new
instruction is made, placed before `i`, and put in `i` for the expression. -/
def materializeUses : List Constant → Instruction → Nat → List Instruction × Instruction × Nat
  | [], i, next => ([], i, next)
  | user :: rest, i, next =>
    let new_user := getAsInstruction next user
    let i := i.mapOperands (fun v => if v = .constant user then .instruction next else v)
    let r := materializeUses rest i (next + 1)
    (new_user :: r.1, r.2.1, r.2.2)

/-- `makeAllConstantUsesInstructions` in one block. The use lists are walked in
block and operand order. -/
def materializeBlock (g : Nat) : List Instruction → Nat → List Instruction × Nat
  | [], next => ([], next)
  | i :: rest, next =>
    let r := materializeUses (constantExprUses g i) i next
    let r2 := materializeBlock g rest r.2.2
    (r.1 ++ r.2.1 :: r2.1, r2.2)

/-- `makeAllConstantUsesInstructions` in the blocks of a function. -/
def materializeBlocks (g : Nat) : List (List Instruction) → Nat → List (List Instruction) × Nat
  | [], next => ([], next)
  | bb :: rest, next =>
    let r := materializeBlock g bb next
    let r2 := materializeBlocks g rest r.2
    (r.1 :: r2.1, r2.2)

/-- `makeAllConstantUsesInstructions` in the functions of the module. -/
def materializeFunctions (g : Nat) : List Function → Nat → List Function × Nat
  | [], next => ([], next)
  | fn :: rest, next =>
    let r := materializeBlocks g fn.blocks next
    let r2 := materializeFunctions g rest r.2
    ({ fn with blocks := r.1 } :: r2.1, r2.2)

/-- `AggressiveInline::makeAllConstantUsesInstructions` for the global `g`. -/
def makeAllConstantUsesInstructions (g : Nat) (m : Module) (next : Nat) : Module × Nat :=
  let r := materializeFunctions g m.functions next
  ({ m with functions := r.1 }, r.2)

/-- `replaceAllUsesWith` of the global `g` by the instruction `alloc`, in an
operand of an instruction. After `makeAllConstantUsesInstructions` the users of
`g` are instructions, when the uses of `g` are ones the source can convert
(`Module.usesConvertible`). -/
def Value.replaceGlobal (g alloc : Nat) : Value → Value
  | .constant (.globalVariable h) =>
    if h = g then .instruction alloc else .constant (.globalVariable h)
  | v => v

/-- Line 263: `replaceAllUsesWith` of the global `g` by the instruction
`alloc`. -/
def Module.replaceGlobal (m : Module) (g alloc : Nat) : Module :=
  { m with functions := m.functions.map (fun fn =>
      { fn with blocks := fn.blocks.map (fun bb =>
          bb.map (Instruction.mapOperands (Value.replaceGlobal g alloc))) }) }

/-- Line 264: `eraseFromParent` of the global `g`. -/
def Module.eraseGlobal (m : Module) (g : Nat) : Module :=
  { m with globals := m.globals.filter (fun gv => gv.id != g) }

/-- The body of the loop of lines 261-265, for a global whose uses the source
can convert (`Module.usesConvertible`); for any other global the source has no
defined result, see `convertGlobalsDefined`. -/
def convertGlobal (st : Module × Nat) (p : Nat × Nat) : Module × Nat :=
  let r := makeAllConstantUsesInstructions p.1 st.1 st.2
  ((r.1.replaceGlobal p.1 p.2).eraseGlobal p.1, r.2)

/-- The entry block of the function with pointer `f`. -/
def Module.entryBlock (m : Module) (f : Nat) : Option (List Instruction) :=
  match m.functions.find? (fun fn => fn.id = f) with
  | some fn => fn.blocks.head?
  | none => none

/-- Put `entry` in the place of the entry block of the function `f`. -/
def Module.setEntryBlock (m : Module) (f : Nat) (entry : List Instruction) : Module :=
  { m with functions := m.functions.map (fun fn =>
      if fn.id = f then { fn with blocks := entry :: fn.blocks.tail } else fn) }

/-- The first loop of `inlineGlobalsIntoFunction`, lines 237-259, on the entry
block `entry`, whose first instruction is the first insertion point. -/
def allocateGlobals (globals : List Nat) (entry : List Instruction) (entry_insertion : Nat)
    (gvs : List GlobalVariable) (next : Nat) : GlobalsState :=
  globals.foldl (allocateGlobal globals)
    { entry := entry, next := next, insertion_point := entry_insertion,
      global_to_instruction := [], globals := gvs, changed := [] }

/-- An operand after the changes of constants of several calls of
`extractValuesFromStore`, in the order of the calls. -/
def Value.currentAll (changes : List (List (Constant × List Constant))) (v : Value) : Value :=
  changes.foldl (fun v changed => Value.current changed v) v

/-- The module with every operand as it is after the changes of constants. -/
def Module.current (changes : List (List (Constant × List Constant))) (m : Module) : Module :=
  { m with functions := m.functions.map (fun fn =>
      { fn with blocks := fn.blocks.map (fun bb =>
          bb.map (Instruction.mapOperands (Value.currentAll changes))) }) }

/-- The module after the first loop of `inlineGlobalsIntoFunction` on the
function `f`: the entry block and the globals as the loop leaves them, and the
other instructions with their constants as they then are. -/
def GlobalsState.module (st : GlobalsState) (f : Nat) (m : Module) : Module :=
  { ((m.current st.changed).setEntryBlock f st.entry) with globals := st.globals }

/-- `AggressiveInline::inlineGlobalsIntoFunction`, when the call returns (see
`inlineGlobalsIntoFunctionReturns`); `next` is the pointer of the next new
instruction. -/
def inlineGlobalsIntoFunction (globals : List Nat) (f : Nat) (m : Module) (next : Nat) :
    Module × Nat :=
  match m.entryBlock f with
  | some (entry_insertion :: rest) =>
    let st := allocateGlobals globals (entry_insertion :: rest) entry_insertion.id m.globals next
    st.global_to_instruction.foldl convertGlobal (st.module f m, st.next)
  | _ => (m, next)

mutual
/-- The constant is the global `g`, or has it among its operands, at any
depth. -/
def Constant.mentions (g : Nat) : Constant → Bool
  | .aggregate elems => Constant.mentionsList g elems
  | .expr _ ops => Constant.mentionsList g ops
  | .globalVariable h => h == g
  | _ => false
/-- One of the constants mentions the global `g`. -/
def Constant.mentionsList (g : Nat) : List Constant → Bool
  | [] => false
  | c :: cs => Constant.mentions g c || Constant.mentionsList g cs
end

/-- The operand is the global `g` or a constant that mentions it. -/
def Value.mentions (g : Nat) : Value → Bool
  | .constant c => c.mentions g
  | _ => false

/-- The global `g` has a use somewhere in the module: in an operand of an
instruction or in the initialiser of a global. -/
def Module.mentions (m : Module) (g : Nat) : Bool :=
  m.functions.any (fun fn => fn.blocks.any (fun bb => bb.any (fun i =>
    i.operands.any (Value.mentions g)))) ||
  m.globals.any (fun gv => match gv.initializer with
    | some c => c.mentions g
    | none => false)

/-- The uses of the global `g` through the operand of an instruction are ones
that lines 262-263 can convert: the operand is `g` itself, or a constant
expression that has `g` as an operand, once, and does not mention it otherwise,
or it does not mention `g` at all. -/
def Value.convertible (g : Nat) : Value → Bool
  | .constant (.globalVariable _) => true
  | .constant (.expr _ ops) =>
    decide (ops.count (.globalVariable g) ≤ 1) &&
      ops.all (fun c => Constant.beq c (.globalVariable g) || !c.mentions g)
  | .constant c => !c.mentions g
  | _ => true

/-- Lines 262-263 have a defined result for the global `g`: every user of `g` is
an instruction or a constant expression (the assertion of line 134), every user
of such a constant expression is an instruction (the cast of line 147), and no
constant expression uses `g` twice (it would be destroyed at line 153 and
visited again). A use of `g` in an aggregate, in a constant expression inside
another constant, or in the initialiser of a global is not of this kind. The
order of the use lists is not modelled: a use that the source can or cannot
convert depending on that order counts as one it cannot. -/
def Module.usesConvertible (m : Module) (g : Nat) : Bool :=
  m.functions.all (fun fn => fn.blocks.all (fun bb => bb.all (fun i =>
    i.operands.all (Value.convertible g)))) &&
  m.globals.all (fun gv => match gv.initializer with
    | some c => !c.mentions g
    | none => true)

/-- The loop of lines 261-265 has a defined result from the state `st` on. -/
def convertGlobalsDefined : List (Nat × Nat) → Module × Nat → Bool
  | [], _ => true
  | p :: rest, st => st.1.usesConvertible p.1 && convertGlobalsDefined rest (convertGlobal st p)

/-- The call `inlineGlobalsIntoFunction(globals, f)` returns: `f` has an entry
block with a first instruction (lines 237-238), and the second loop has a
defined result. -/
def inlineGlobalsIntoFunctionReturns (globals : List Nat) (f : Nat) (m : Module) (next : Nat) :
    Bool :=
  match m.entryBlock f with
  | some (entry_insertion :: rest) =>
    let st := allocateGlobals globals (entry_insertion :: rest) entry_insertion.id m.globals next
    convertGlobalsDefined st.global_to_instruction (st.module f m, st.next)
  | _ => false

/-- `globals_for_functions[f].insert(&g)` of line 284. -/
def groupInsert (f g : Nat) : List (Nat × List Nat) → List (Nat × List Nat)
  | [] => [(f, [g])]
  | (k, gs) :: rest =>
    if k = f then (k, setVectorInsert g gs) :: rest else (k, gs) :: groupInsert f g rest

/-- The loop of lines 275-285: the owner of every global is found and the
globals are grouped by owner; the first global without owner, or with a fatal
`getGlobalUser`, ends it. -/
def collectOwners : List GlobalVariable → List (Nat × List Nat) →
    Except String (List (Nat × List Nat))
  | [], globals_for_functions => .ok globals_for_functions
  | g :: rest, globals_for_functions =>
    match getGlobalUser g with
    | .error msg => .error msg
    | .ok f =>
      if f = 0 then .error ("Global variable " ++ g.name ++ " has no function user")
      else collectOwners rest (groupInsert f g.id globals_for_functions)

/-- A pointer above every instruction of a block. -/
def freshAbove (bb : List Instruction) : Nat :=
  bb.foldl (fun n i => max n (i.id + 1)) 0

/-- A pointer that no instruction of the module has: where new instructions get
theirs from. -/
def Module.freshPointer (m : Module) : Nat :=
  m.functions.foldl (fun n fn => fn.blocks.foldl (fun n bb => max n (freshAbove bb)) n) 0

/-- The loop of lines 287-289, as long as the calls return. -/
def inlineGroups : List (Nat × List Nat) → Module × Nat → Option (Module × Nat)
  | [], st => some st
  | p :: rest, st =>
    if inlineGlobalsIntoFunctionReturns p.2 p.1 st.1 st.2 then
      inlineGroups rest (inlineGlobalsIntoFunction p.2 p.1 st.1 st.2)
    else none

/-- `AggressiveInline::inlineGlobalVars`. -/
def inlineGlobalVars (m : Module) : Outcome :=
  match collectOwners m.globals [] with
  | .error msg => .fatal msg m
  | .ok globals_for_functions =>
    match inlineGroups globals_for_functions (m, m.freshPointer) with
    | some st => .ok st.1
    | none => .undefined

/-! ## `removeUndefCalls` and `run` -/

/-- Lines 297-299: a call instruction is inserted in the set `call_instrs`. -/
def collectCall (call_instrs : List Nat) : Instruction → List Nat
  | .call id _ _ => setInsert id call_instrs
  | _ => call_instrs

/-- The call instructions of a block, inserted in the set `call_instrs`. -/
def collectCalls (bb : List Instruction) (call_instrs : List Nat) : List Nat :=
  bb.foldl collectCall call_instrs

/-- Lines 293-302: the set of the call instructions of the module. -/
def Module.callInstrs (m : Module) : List Nat :=
  m.functions.foldl (fun s fn => fn.blocks.foldl (fun s bb => collectCalls bb s) s) []

/-- The instruction with pointer `id`. -/
def Module.findInstruction (m : Module) (id : Nat) : Option Instruction :=
  (m.functions.flatMap (fun fn => fn.blocks.flatten)).find? (fun i => i.id = id)

/-- `eraseFromParent` of the instruction with pointer `id`. -/
def Module.eraseInstruction (m : Module) (id : Nat) : Module :=
  { m with functions := m.functions.map (fun fn =>
      { fn with blocks := fn.blocks.map (fun bb => bb.filter (fun i => i.id != id)) }) }

/-- The body of the loop of lines 303-307. -/
def removeIfPoison (m : Module) (possible_poison_call : Nat) : Module :=
  match m.findInstruction possible_poison_call with
  | some (.call _ (.constant .poison) _) => m.eraseInstruction possible_poison_call
  | _ => m

/-- `AggressiveInline::removeUndefCalls`. -/
def removeUndefCalls (m : Module) : Module :=
  m.callInstrs.foldl removeIfPoison m

/-- `AggressiveInline::run`. -/
def run (lib : Library) (ai : AggressiveInline) : Outcome :=
  match inlineFunctions lib ai with
  | .fatal msg m => .fatal msg m
  | .undefined => .undefined
  | .ok m =>
    match inlineGlobalVars m with
    | .fatal msg m => .fatal msg m
    | .undefined => .undefined
    | .ok m =>
      let m := removeUndefCalls m
      if lib.verifyModule m then
        .fatal ("Module is not valid! Something went terribly wrong.\n" ++
          "Do not use the inline keyword in your input!\n") m
      else .ok m

/-- A global variable used by an instruction of function 1 and by a constant
expression, which comes last in its use list. -/
def ownedGlobal : GlobalVariable :=
  ⟨9, "g", 0, 0, none, none,
    [.instruction 10 1, .constant (.expr 0 [.globalVariable 9, .int 32 0])]⟩

/-- The users of `sharedGlobal` with the two instructions next to each
other. -/
def sharedGlobalAdjacent : GlobalVariable :=
  ⟨9, "g", 0, 0, none, none,
    [.instruction 10 1, .instruction 20 2, .constant (.expr 0 [.globalVariable 9, .int 32 0])]⟩

/-- The users of `ownedGlobal` with the constant expression first. -/
def ownedGlobalReversed : GlobalVariable :=
  ⟨9, "g", 0, 0, none, none,
    [.constant (.expr 0 [.globalVariable 9, .int 32 0]), .instruction 10 1]⟩

/-- A module with one function using the one global `ownedGlobal`. -/
def ownedGlobalModule : Module :=
  { functions := [⟨1, "f", false, false, false,
      [[.other 10 0 [.constant (.globalVariable 9)], .other 11 1 []]]⟩],
    globals := [ownedGlobal] }

/-- A call whose called operand is the poison value. -/
def Instruction.isPoisonCall : Instruction → Bool
  | .call _ (.constant .poison) _ => true
  | _ => false

/-- The instructions of the module, in module order. -/
def Module.instructions (m : Module) : List Instruction :=
  m.functions.flatMap (fun fn => fn.blocks.flatten)

/-- The module with every block cut down to the instructions that satisfy
`keep`, in their order. -/
def Module.filterInstructions (keep : Instruction → Bool) (m : Module) : Module :=
  { m with functions := m.functions.map (fun fn =>
      { fn with blocks := fn.blocks.map (fun bb => bb.filter keep) }) }

/-- A module after an erasure: `main` (pointer 1) calls poison twice and the
function 3 once; the function 2 calls poison from its second block. -/
def sweptModule : Module :=
  { functions :=
      [⟨1, "main", false, false, false,
         [[.call 10 (.constant .poison) [], .other 11 0 [.instruction 10],
           .call 12 (.constant (.function 3)) [.constant .poison],
           .call 13 (.constant .poison) [.argument 0], .other 14 1 []]]⟩,
       ⟨2, "other", false, false, false,
         [[.other 20 2 []], [.call 21 (.constant .poison) [], .other 22 1 []]]⟩],
    globals := [] }

/-- The index operand `ConstantInt::get(Int32Ty, i)`. -/
def indexValue (i : Nat) : Value := .constant (.int 32 i)

mutual
/-- The walk of `disaggregateElement` without the block: the elements for which
a pair is emitted, each with its element path, in the order of the walk; with
them the changes of constants and `vars_to_undef` as the walk leaves them. -/
def emittedLeaves (vars : List Nat) (path : List Nat) (replaced : List Constant) :
    Constant → List (Constant × List Constant) → List Constant →
      List (List Nat × Constant) × List (Constant × List Constant) × List Constant
  | .aggregate inner, changed, vars_to_undef =>
    let r := emittedLeavesList vars path (operandsChanged changed (.aggregate inner)) 0 inner
      changed []
    (r.1, if r.2.2 = [] then r.2.1 else r.2.1 ++ [(.aggregate inner, r.2.2)], vars_to_undef)
  | constant, changed, vars_to_undef =>
    if constant ∈ replaced then ([], changed, vars_to_undef)
    else if isDisaggregated vars constant then
      ([(path, constant)], changed, setVectorInsert constant vars_to_undef)
    else ([], changed, vars_to_undef)
/-- The walk of `disaggregateLoop` without the block, from element `i` on. -/
def emittedLeavesList (vars : List Nat) (path : List Nat) (replaced : List Constant) :
    Nat → List Constant → List (Constant × List Constant) → List Constant →
      List (List Nat × Constant) × List (Constant × List Constant) × List Constant
  | _, [], changed, vars_to_undef => ([], changed, vars_to_undef)
  | i, c :: rest, changed, vars_to_undef =>
    let r := emittedLeaves vars (path ++ [i]) replaced c changed vars_to_undef
    let r2 := emittedLeavesList vars path replaced (i + 1) rest r.2.1 r.2.2
    (r.1 ++ r2.1, r2.2.1, r2.2.2)
end

/-- The address computation and the store for one leaf: the address is computed
from `val` with the index list `0, i1, ..., ik` of the leaf, by the instruction
with pointer `id`, and the next instruction stores the leaf there. -/
def leafPair (val : Value) (id : Nat) (leaf : List Nat × Constant) : List Instruction :=
  [.getelementptr id true val ((0 :: leaf.1).map indexValue),
   .store (id + 1) (.constant leaf.2) (.instruction id)]

/-- The pairs of the leaves as they come to stand in the block, the new
pointers being handed out from `id` on in the order of the leaves: the pair of
a later leaf stands before the pair of an earlier one. -/
def emittedPairs (val : Value) : Nat → List (List Nat × Constant) → List Instruction
  | _, [] => []
  | id, leaf :: rest => emittedPairs val (id + 2) rest ++ leafPair val id leaf

/-- A stack allocation. -/
def Instruction.isAlloca : Instruction → Bool
  | .alloca _ _ _ _ _ => true
  | _ => false

/-- The allocation that line 243 makes for the global `g` of the module, with
pointer `id`: the value type and address space of `g`, the alignment of `g` or 1
when `g` has none (`getAlign().valueOrOne()`), and, by `takeName`, the name of
`g`. -/
def Module.allocaFor (m : Module) (g id : Nat) : Instruction :=
  match m.globals.find? (fun gv => gv.id = g) with
  | some gv => .alloca id gv.valueType gv.addressSpace (gv.align.getD 1) gv.name
  | none => .alloca id 0 0 1 ""

/-- The store that line 252 makes for the global `p.1` with the allocation
`p.2`, with the value as it is later: a store of a constant to the allocation,
with the pointer after that of the allocation; an initialiser that is a global
variable is stored as it is. -/
def IsInitializerStore (m : Module) (p : Nat × Nat) (i : Instruction) : Prop :=
  ∃ c', i = .store (p.2 + 1) (.constant c') (.instruction p.2) ∧
    ∀ g, (m.globals.find? (fun gv => gv.id = p.1)).bind (fun gv => gv.initializer) =
      some (.globalVariable g) → c' = .globalVariable g

/-- What the first loop of `inlineGlobalsIntoFunction` keeps, after the globals
`done` have got the allocations `ids`: the entry block is the new allocations,
then `chunk` (the initialiser stores and what disaggregation added), then the
block as it was, with its constants as they are now; `chunk` holds the
initialiser stores, that of a later global before that of an earlier one;
`insertion_point` is the first instruction after the new allocations; the new
pointers are in use, above those of the block as it was and below `next`; a global that has not had its turn is as
it was, with its initialiser as it is now. -/
structure AllocInv (m : Module) (orig : List Instruction) (done ids : List Nat)
    (chunk : List Instruction) (st : GlobalsState) : Prop where
  entry : st.entry = (done.zip ids).map (fun p => m.allocaFor p.1 p.2) ++
    (chunk ++ orig.map (Instruction.mapOperands (Value.currentAll st.changed)))
  length : ids.length = done.length
  map : st.global_to_instruction = done.zip ids
  ids_lt : ∀ a ∈ ids, a < st.next
  ids_sorted : ids.Sorted (· < ·)
  chunk_lt : ∀ i ∈ chunk, i.id < st.next
  chunk_alloca : ∀ i ∈ chunk, i.isAlloca = false
  chunk_new : ∀ i ∈ chunk, ∀ o ∈ orig, o.id < i.id
  orig_lt : ∀ i ∈ orig, i.id < st.next
  point : (chunk ++ orig.map (Instruction.mapOperands (Value.currentAll st.changed))).head?.map
    Instruction.id = some st.insertion_point
  ids_ne : ∀ a ∈ ids, ∀ i ∈ chunk ++ orig, i.id ≠ a
  globals : ∀ g, g ∉ done →
    st.globals.find? (fun gv => gv.id = g) =
      (m.globals.find? (fun gv => gv.id = g)).map (fun gv =>
        { gv with initializer := gv.initializer.map (fun c =>
            st.changed.foldl (fun c changed => c.current changed) c) })
  global_ids : st.globals.map (·.id) = m.globals.map (·.id)
  stores : List.SublistForall₂ (IsInitializerStore m)
    ((done.zip ids).filter (fun p =>
      ((m.globals.find? (fun gv => gv.id = p.1)).bind (fun gv => gv.initializer)).isSome)).reverse
    chunk

/-- Lines 262-263 in one block: the constant-expression uses of `g` are made
instructions, new pointers being taken from `next` on, and `g` is replaced by
the allocation `alloc`. -/
def convertBlock (g alloc : Nat) (bb : List Instruction) (next : Nat) : List Instruction :=
  (materializeBlock g bb next).1.map (Instruction.mapOperands (Value.replaceGlobal g alloc))

/-- A module with one function and three globals it owns: `g1` (pointer 8), with
alignment 8 and an aggregate initialiser that refers to `g2`; `g2` (pointer 9)
and `g3` (pointer 7), without alignment; `g2` is also used through a constant
expression, twice by one instruction. -/
def globalsModule : Module :=
  { functions := [⟨1, "f", false, false, false,
      [[.other 10 5 [.constant (.globalVariable 8)],
        .other 11 6 [.constant (.expr 3 [.globalVariable 9, .int 32 1]),
          .constant (.expr 3 [.globalVariable 9, .int 32 1]), .constant (.globalVariable 7)],
        .other 12 1 []]]⟩],
    globals :=
      [⟨8, "g1", 100, 0, some 8, some (.aggregate [.globalVariable 9, .int 32 5]),
         [.instruction 10 1]⟩,
       ⟨9, "g2", 101, 0, none, some (.int 32 7), [.instruction 11 1]⟩,
       ⟨7, "g3", 101, 0, none, none, [.instruction 11 1]⟩] }

/-! ## Iterations, leaf positions and the layout of the entry block -/

/-- A module of two functions and two globals: `a` (pointer 8) is used by
function 1 only; `g` (`sharedGlobalAdjacent`, pointer 9) is used by
instructions of the functions 1 and 2. -/
def sharedGlobalModule : Module :=
  { functions :=
      [⟨1, "f", false, false, false,
         [[.other 10 0 [.constant (.globalVariable 9)],
           .other 11 0 [.constant (.globalVariable 8)], .other 12 1 []]]⟩,
       ⟨2, "h", false, false, false,
         [[.other 20 0 [.constant (.globalVariable 9)], .other 21 1 []]]⟩],
    globals :=
      [⟨8, "a", 0, 0, some 4, some (.int 32 1), [.instruction 11 1]⟩, sharedGlobalAdjacent] }

/-- The `while` loop of lines 42-55 as `getCalledFunctionsLoop`, with the
functions it takes off the vector (`top`) recorded, one for each iteration, in
the order of the iterations. -/
def getCalledFunctionsTrace (cg : CallGraph) :
    Nat → List Nat → List Nat → Option (List Nat × List Nat)
  | _, calledFunctions, [] => some (calledFunctions, [])
  | 0, _, _ :: _ => none
  | fuel + 1, calledFunctions, top :: calledFunctionsVector =>
    let topNode := cg.getOrInsertFunction top
    let st := visitCallees (cg.calledFunctionsOf topNode) (calledFunctions, calledFunctionsVector)
    (getCalledFunctionsTrace cg fuel st.1 st.2).map (fun r => (r.1, top :: r.2))

/-- The iterations of the loop of `getCalledFunctions` on `node`: the set
returned and the function taken off the vector in each iteration. -/
def getCalledFunctionsIterations (cg : CallGraph) (node : Nat) : Option (List Nat × List Nat) :=
  let calledFunctions := directCallees cg node
  getCalledFunctionsTrace cg (cg.nodes.length + 1) calledFunctions calledFunctions.reverse

/-- The functions of the graph: the function pointers, other than the null
pointer, that its nodes stand for. -/
def CallGraph.functions (cg : CallGraph) : List Nat :=
  ((cg.nodes.map (·.F)).filter (fun f => f != 0)).dedup

/-- A graph with a self-call and a cycle: `f` (1) calls itself and `g` (2), `g`
calls `h` (3), `h` calls `f`. -/
def cyclicGraph : CallGraph :=
  { nodes := [⟨1, [0, 1]⟩, ⟨2, [2]⟩, ⟨3, [0]⟩],
    FunctionMap := [(1, 0), (2, 1), (3, 2)] }

mutual
/-- The element of the constant `c` at the element path `path`: `c` itself for
the empty path, and for `i :: path` the element at `path` of the `i`-th element
of the aggregate `c`. -/
def Constant.elementAt : Constant → List Nat → Option Constant
  | .aggregate elems, i :: path => Constant.elementAtList elems i path
  | .aggregate elems, [] => some (.aggregate elems)
  | .expr opcode ops, path => if path = [] then some (.expr opcode ops) else none
  | .globalVariable g, path => if path = [] then some (.globalVariable g) else none
  | .function f, path => if path = [] then some (.function f) else none
  | .int w v, path => if path = [] then some (.int w v) else none
  | .undef, path => if path = [] then some .undef else none
  | .poison, path => if path = [] then some .poison else none
  | .data d, path => if path = [] then some (.data d) else none
/-- The element at `path` of the `i`-th constant of a list. -/
def Constant.elementAtList : List Constant → Nat → List Nat → Option Constant
  | [], _, _ => none
  | c :: rest, i, path =>
    if i = 0 then Constant.elementAt c path else Constant.elementAtList rest (i - 1) path
end

/-- The instruction `i'` is the instruction `i` after the second loop of
`inlineGlobalsIntoFunction` over the globals and allocations `L`: the same
pointer and kind, with the operands changed; an operand that is the result of
an instruction or an integer constant is as it was, and an operand that is a
global of `L` is the allocation of that global. -/
def Instruction.ConvertedBy (L : List (Nat × Nat)) (i i' : Instruction) : Prop :=
  ∃ F : Value → Value, i' = i.mapOperands F ∧ (∀ x, F (.instruction x) = .instruction x) ∧
    (∀ w v, F (.constant (.int w v)) = .constant (.int w v)) ∧
    ∀ h, F (.constant (.globalVariable h)) =
      match L.lookup h with
      | some a => .instruction a
      | none => .constant (.globalVariable h)

/-- The initialiser of the global `g` of the module, when it has one. -/
def Module.initializerOf (m : Module) (g : Nat) : Option Constant :=
  (m.globals.find? (fun gv => gv.id = g)).bind (fun gv => gv.initializer)

/-- A module with one function and two globals it owns, both with an
initialiser: `g1` (pointer 8) first, `g2` (pointer 9) second. -/
def initializedGlobalsModule : Module :=
  { functions := [⟨1, "f", false, false, false,
      [[.other 10 5 [.constant (.globalVariable 8)],
        .other 11 6 [.constant (.globalVariable 9)],
        .other 12 1 []]]⟩],
    globals :=
      [⟨8, "g1", 100, 0, some 4, some (.int 32 1), [.instruction 10 1]⟩,
       ⟨9, "g2", 100, 0, some 4, some (.int 32 2), [.instruction 11 1]⟩] }

/-- An aggregate in which the element `{@7, 5}` occurs twice; the two elements
are one constant. -/
def repeatedAggregate : List Constant :=
  [.aggregate [.globalVariable 7, .int 32 5], .aggregate [.globalVariable 7, .int 32 5]]

/-- A module with the one function `main` and two globals it owns: `table`
(pointer 8), an array of two equal structures that hold the address of `buf`
(pointer 7), and `buf`. An instruction of `main` is the last user of each. -/
def repeatedElementModule : Module :=
  { functions := [⟨1, "main", false, false, false,
      [[.other 10 5 [.constant (.globalVariable 8)],
        .other 11 6 [.constant (.globalVariable 7)],
        .other 12 1 []]]⟩],
    globals :=
      [⟨8, "table", 100, 0, some 8, some (.aggregate repeatedAggregate), [.instruction 10 1]⟩,
       ⟨7, "buf", 101, 0, some 1, none,
         [.constant (.aggregate [.globalVariable 7, .int 32 5]), .instruction 11 1]⟩] }

/-- The pass object for `repeatedElementModule`: in the call graph, node 1 is
the node of `main`, which calls nothing, and node 0 the node registered for the
null pointer, which calls `main`. -/
def repeatedElementProgram : AggressiveInline :=
  { module := repeatedElementModule,
    call_graph := { nodes := [⟨0, [1]⟩, ⟨1, []⟩], FunctionMap := [(0, 0), (1, 1)] } }

theorem mem_setInsert (x y : Nat) (s : List Nat) :
    y ∈ setInsert x s ↔ y = x ∨ y ∈ s := by
  induction s with
  | nil => simp [setInsert]
  | cons z zs ih =>
    unfold setInsert
    split_ifs with h1 h2
    · simp
    · subst h2; simp
    · simp only [List.mem_cons, ih]; tauto

theorem setInsert_sorted (x : Nat) (s : List Nat) (hs : s.Sorted (· < ·)) :
    (setInsert x s).Sorted (· < ·) := by
  induction s with
  | nil => simp [setInsert]
  | cons z zs ih =>
    unfold setInsert
    split_ifs with h1 h2
    · refine List.sorted_cons.2 ⟨?_, hs⟩
      intro b hb
      rcases List.mem_cons.1 hb with rfl | hb
      · exact h1
      · exact lt_trans h1 (List.rel_of_sorted_cons hs b hb)
    · exact hs
    · refine List.sorted_cons.2 ⟨?_, ih (List.sorted_cons.1 hs).2⟩
      intro b hb
      rcases (mem_setInsert x b zs).1 hb with rfl | hb
      · omega
      · exact List.rel_of_sorted_cons hs b hb

theorem setInsert_length_of_not_mem (x : Nat) (s : List Nat) (hx : x ∉ s) :
    (setInsert x s).length = s.length + 1 := by
  induction s with
  | nil => simp [setInsert]
  | cons z zs ih =>
    unfold setInsert
    have hz : x ≠ z := fun h => hx (by simp [h])
    have hzs : x ∉ zs := fun h => hx (by simp [h])
    split_ifs with h1
    · simp
    · simp [ih hzs]

theorem mem_foldl_setInsert (l : List Nat) (s : List Nat) (y : Nat) :
    y ∈ l.foldl (fun s f => setInsert f s) s ↔ y ∈ s ∨ y ∈ l := by
  induction l generalizing s with
  | nil => simp
  | cons a l ih =>
    simp only [List.foldl_cons, ih, mem_setInsert, List.mem_cons]; tauto

theorem foldl_setInsert_sorted (l : List Nat) (s : List Nat) (hs : s.Sorted (· < ·)) :
    (l.foldl (fun s f => setInsert f s) s).Sorted (· < ·) := by
  induction l generalizing s with
  | nil => simpa using hs
  | cons a l ih => exact ih _ (setInsert_sorted a s hs)

theorem mem_directCallees (cg : CallGraph) (n y : Nat) :
    y ∈ directCallees cg n ↔ y ∈ cg.calledFunctionsOf n := by
  simp [directCallees, mem_foldl_setInsert]

theorem directCallees_sorted (cg : CallGraph) (n : Nat) :
    (directCallees cg n).Sorted (· < ·) :=
  foldl_setInsert_sorted _ _ List.sorted_nil

theorem visitCallees_fst_mem (cs s v : List Nat) (y : Nat) :
    y ∈ (visitCallees cs (s, v)).1 ↔ y ∈ s ∨ y ∈ cs := by
  induction cs generalizing s v with
  | nil => simp [visitCallees]
  | cons c cs ih =>
    unfold visitCallees
    split_ifs with h
    · rw [ih]; simp only [List.mem_cons]
      constructor
      · rintro (h1 | h1) <;> tauto
      · rintro (h1 | rfl | h1) <;> tauto
    · rw [ih]; simp only [List.mem_cons, mem_setInsert]; tauto

theorem visitCallees_snd_mem (cs s v : List Nat) (y : Nat) :
    y ∈ (visitCallees cs (s, v)).2 ↔ y ∈ v ∨ (y ∈ cs ∧ y ∉ s) := by
  induction cs generalizing s v with
  | nil => simp [visitCallees]
  | cons c cs ih =>
    unfold visitCallees
    split_ifs with h
    · rw [ih]; simp only [List.mem_cons]
      constructor
      · rintro (h1 | h1) <;> tauto
      · rintro (h1 | ⟨rfl | h1, h2⟩) <;> tauto
    · rw [ih]; simp only [List.mem_cons, mem_setInsert]
      constructor
      · rintro ((rfl | h1) | ⟨h1, h2⟩)
        · exact Or.inr ⟨Or.inl rfl, h⟩
        · exact Or.inl h1
        · exact Or.inr ⟨Or.inr h1, fun h3 => h2 (Or.inr h3)⟩
      · rintro (h1 | ⟨rfl | h1, h2⟩)
        · exact Or.inl (Or.inr h1)
        · exact Or.inl (Or.inl rfl)
        · by_cases hy : y = c
          · exact Or.inl (Or.inl hy)
          · exact Or.inr ⟨h1, fun h3 => h3.elim hy h2⟩

theorem visitCallees_sorted (cs s v : List Nat) (hs : s.Sorted (· < ·)) :
    (visitCallees cs (s, v)).1.Sorted (· < ·) := by
  induction cs generalizing s v with
  | nil => simpa [visitCallees] using hs
  | cons c cs ih =>
    unfold visitCallees
    split_ifs with h
    · exact ih s v hs
    · exact ih _ _ (setInsert_sorted c s hs)

/-- The number of functions of `u` not in the set yet, plus the length of the
vector: the quantity that every iteration of the loop decreases by one. -/
theorem visitCallees_measure (u cs s v : List Nat) (hcs : ∀ c ∈ cs, c ∈ u) :
    (u.toFinset \ (visitCallees cs (s, v)).1.toFinset).card + (visitCallees cs (s, v)).2.length
      = (u.toFinset \ s.toFinset).card + v.length := by
  induction cs generalizing s v with
  | nil => simp [visitCallees]
  | cons c cs ih =>
    have hcs2 : ∀ x ∈ cs, x ∈ u := fun x hx => hcs x (by simp [hx])
    unfold visitCallees
    split_ifs with h
    · exact ih s v hcs2
    · rw [ih _ _ hcs2]
      have hc : c ∈ u.toFinset \ s.toFinset := by
        simp [hcs c (by simp), h]
      have heq : u.toFinset \ (setInsert c s).toFinset = (u.toFinset \ s.toFinset).erase c := by
        ext y
        simp only [Finset.mem_sdiff, List.mem_toFinset, mem_setInsert, Finset.mem_erase]
        tauto
      rw [heq, Finset.card_erase_of_mem hc]
      have hpos : 0 < (u.toFinset \ s.toFinset).card := Finset.card_pos.2 ⟨c, hc⟩
      simp only [List.length_cons]
      omega

/-- Every function pointer that a call record of the graph can yield. -/
theorem calledFunctionsOf_subset (cg : CallGraph) (n : Nat) :
    ∀ c ∈ cg.calledFunctionsOf n, c ∈ 0 :: cg.nodes.map (·.F) := by
  intro c hc
  simp only [CallGraph.calledFunctionsOf, List.mem_map] at hc
  obtain ⟨m, -, rfl⟩ := hc
  unfold CallGraph.getFunction
  cases hm : cg.nodes[m]? with
  | none => simp
  | some node =>
    simp only [List.mem_cons, List.mem_map]
    exact Or.inr ⟨node, List.getElem?_mem hm, rfl⟩

theorem getCalledFunctionsLoop_isSome (cg : CallGraph) (fuel : Nat) (s v : List Nat)
    (hfuel : ((0 :: cg.nodes.map (·.F)).toFinset \ s.toFinset).card + v.length ≤ fuel) :
    (getCalledFunctionsLoop cg fuel s v).isSome = true := by
  induction fuel generalizing s v with
  | zero =>
    cases v with
    | nil => simp [getCalledFunctionsLoop]
    | cons top rest => simp at hfuel
  | succ fuel ih =>
    cases v with
    | nil => simp [getCalledFunctionsLoop]
    | cons top rest =>
      simp only [getCalledFunctionsLoop]
      apply ih
      rw [visitCallees_measure _ _ _ _ (calledFunctionsOf_subset cg _)]
      simp only [List.length_cons] at hfuel
      omega

/-- The loop of `getCalledFunctions` ends within the budget. -/
theorem getCalledFunctionsFuel_isSome (cg : CallGraph) (node : Nat) :
    (getCalledFunctionsFuel cg (cg.nodes.length + 1) node).isSome = true := by
  unfold getCalledFunctionsFuel
  apply getCalledFunctionsLoop_isSome
  set u := (0 :: cg.nodes.map (·.F)) with hu
  set s := directCallees cg node with hs
  have hsub : s.toFinset ⊆ u.toFinset := by
    intro y hy
    rw [List.mem_toFinset] at hy ⊢
    exact calledFunctionsOf_subset cg node y ((mem_directCallees cg node y).1 hy)
  have hnd : s.Nodup := (directCallees_sorted cg node).nodup
  have h1 : (u.toFinset \ s.toFinset).card = u.toFinset.card - s.toFinset.card :=
    Finset.card_sdiff hsub
  have h2 : s.toFinset.card = s.length := List.toFinset_card_of_nodup hnd
  have h3 : s.toFinset.card ≤ u.toFinset.card := Finset.card_le_card hsub
  have h4 : u.toFinset.card ≤ u.length := List.toFinset_card_le u
  have h5 : u.length = cg.nodes.length + 1 := by simp [hu]
  rw [List.length_reverse]
  omega

theorem getCalledFunctionsLoop_inv (cg : CallGraph) (seed : List Nat) (fuel : Nat)
    (s v res : List Nat) (hinv : LoopInv cg seed s v)
    (hres : getCalledFunctionsLoop cg fuel s v = some res) :
    LoopInv cg seed res [] := by
  induction fuel generalizing s v with
  | zero =>
    cases v with
    | nil =>
      simp only [getCalledFunctionsLoop, Option.some.injEq] at hres
      subst hres; exact hinv
    | cons top rest => simp [getCalledFunctionsLoop] at hres
  | succ fuel ih =>
    cases v with
    | nil =>
      simp only [getCalledFunctionsLoop, Option.some.injEq] at hres
      subst hres; exact hinv
    | cons top rest =>
      simp only [getCalledFunctionsLoop] at hres
      refine ih _ _ ?_ hres
      have htop : top ∈ s := hinv.vec_sub top (by simp)
      refine ⟨?_, ?_, ?_, ?_, visitCallees_sorted _ _ _ hinv.sorted⟩
      · intro x hx
        exact (visitCallees_fst_mem _ _ _ _).2 (Or.inl (hinv.seed_sub x hx))
      · intro y hy
        rcases (visitCallees_fst_mem _ _ _ _).1 hy with h | h
        · exact hinv.sound y h
        · obtain ⟨x, hx, hxt⟩ := hinv.sound top htop
          exact ⟨x, hx, hxt.tail h⟩
      · intro x hx hxv y hxy
        rw [visitCallees_snd_mem] at hxv
        rw [visitCallees_fst_mem] at hx ⊢
        have hxs : x ∈ s := by
          rcases hx with h | h
          · exact h
          · by_contra hns; exact hxv (Or.inr ⟨h, hns⟩)
        by_cases hxt : x = top
        · subst hxt; exact Or.inr hxy
        · refine Or.inl (hinv.closed x hxs ?_ y hxy)
          intro hmem
          rcases List.mem_cons.1 hmem with h | h
          · exact hxt h
          · exact hxv (Or.inl h)
      · intro x hx
        rw [visitCallees_snd_mem] at hx
        rw [visitCallees_fst_mem]
        rcases hx with h | ⟨h, -⟩
        · exact Or.inl (hinv.vec_sub x (by simp [h]))
        · exact Or.inr h

theorem getCalledFunctions_inv (cg : CallGraph) (node : Nat) :
    LoopInv cg (directCallees cg node) (getCalledFunctions cg node) [] := by
  have hsome := getCalledFunctionsFuel_isSome cg node
  obtain ⟨res, hres⟩ := Option.isSome_iff_exists.1 hsome
  have hget : getCalledFunctions cg node = res := by
    simp [getCalledFunctions, hres]
  rw [hget]
  unfold getCalledFunctionsFuel at hres
  refine getCalledFunctionsLoop_inv cg _ _ _ _ res ?_ hres
  refine ⟨fun x hx => hx, fun y hy => ⟨y, hy, Relation.ReflTransGen.refl⟩, ?_, ?_,
    directCallees_sorted cg node⟩
  · intro x hx hxv; exact absurd (List.mem_reverse.2 hx) hxv
  · intro x hx; exact List.mem_reverse.1 hx

/-- The result of `getCalledFunctions` is the set of function pointers that the
functions of the directly called nodes lead to, following for each function the
call records of the node registered for it. -/
theorem mem_getCalledFunctions (cg : CallGraph) (node y : Nat) :
    y ∈ getCalledFunctions cg node ↔
      ∃ x ∈ cg.calledFunctionsOf node, Relation.ReflTransGen cg.calls x y := by
  have hinv := getCalledFunctions_inv cg node
  constructor
  · intro hy
    obtain ⟨x, hx, hxy⟩ := hinv.sound y hy
    exact ⟨x, (mem_directCallees cg node x).1 hx, hxy⟩
  · rintro ⟨x, hx, hxy⟩
    have hx0 : x ∈ getCalledFunctions cg node :=
      hinv.seed_sub x ((mem_directCallees cg node x).2 hx)
    induction hxy with
    | refl => exact hx0
    | tail _ hbc ih => exact hinv.closed _ ih (by simp) _ hbc

theorem getCalledFunctions_nodup (cg : CallGraph) (node : Nat) :
    (getCalledFunctions cg node).Nodup :=
  (getCalledFunctions_inv cg node).sorted.nodup

theorem callPath_of_mem_getCalledFunctions (cg : CallGraph) (node : Nat)
    (hreg : ∀ m, CallPath cg node m →
      cg.calledFunctionsOf (cg.getOrInsertFunction (cg.getFunction m)) = cg.calledFunctionsOf m)
    (x y : Nat) (hx : ∃ m, CallPath cg node m ∧ cg.getFunction m = x)
    (hxy : Relation.ReflTransGen cg.calls x y) :
    ∃ m, CallPath cg node m ∧ cg.getFunction m = y := by
  induction hxy with
  | refl => exact hx
  | tail _ hbc ih =>
    obtain ⟨m, hm, rfl⟩ := ih
    unfold CallGraph.calls at hbc
    rw [hreg m hm] at hbc
    simp only [CallGraph.calledFunctionsOf, List.mem_map] at hbc
    obtain ⟨k, hk, rfl⟩ := hbc
    exact ⟨k, CallPath.step hm hk, rfl⟩

/-- C1 (counterexample): in `externalGraph` the node of `f` has one call edge,
to the node of the unknown callee, which has no call edge; yet
`getCalledFunctions` returns the null pointer, `f` itself and `g`: it goes on
from the null pointer to the node registered for it. So `g` is in the result
and no path of call edges leads from the node of `f` to a node of `g`. -/
theorem getCalledFunctions_not_callPath :
    getCalledFunctions externalGraph 1 = [0, 1, 2] ∧
      ¬ ∃ m, CallPath externalGraph 1 m ∧ externalGraph.getFunction m = 2 := by
  refine ⟨by decide, ?_⟩
  have hpath : ∀ m, CallPath externalGraph 1 m → m = 3 := by
    intro m hm
    induction hm with
    | edge h => simpa [CallGraph.calledNodes, externalGraph] using h
    | step _ hk ih =>
      subst ih
      simp [CallGraph.calledNodes, externalGraph] at hk
  rintro ⟨m, hm, hf⟩
  have h3 := hpath m hm
  subst h3
  simp [CallGraph.getFunction, externalGraph] at hf

/-- C1 (amended): when, for every node `m` that a path of call edges from `node`
leads to, the node registered for the function of `m` has the same called
functions as `m` itself (so in particular when every node is the one registered
for its function), `getCalledFunctions node` is a duplicate-free set whose
members are exactly the function pointers of the nodes that a path of one or
more call edges from `node` leads to. -/
theorem getCalledFunctions_eq_callPath (cg : CallGraph) (node : Nat)
    (hreg : ∀ m, CallPath cg node m →
      cg.calledFunctionsOf (cg.getOrInsertFunction (cg.getFunction m)) = cg.calledFunctionsOf m) :
    (getCalledFunctions cg node).Nodup ∧
      ∀ y, y ∈ getCalledFunctions cg node ↔
        ∃ m, CallPath cg node m ∧ cg.getFunction m = y := by
  refine ⟨getCalledFunctions_nodup cg node, fun y => ?_⟩
  rw [mem_getCalledFunctions]
  constructor
  · rintro ⟨x, hx, hxy⟩
    refine callPath_of_mem_getCalledFunctions cg node hreg x y ?_ hxy
    simp only [CallGraph.calledFunctionsOf, List.mem_map] at hx
    obtain ⟨m, hm, rfl⟩ := hx
    exact ⟨m, CallPath.edge hm, rfl⟩
  · rintro ⟨m, hm, rfl⟩
    induction hm with
    | edge h =>
      exact ⟨_, List.mem_map.2 ⟨_, h, rfl⟩, Relation.ReflTransGen.refl⟩
    | step hm hk ih =>
      obtain ⟨x, hx, hxm⟩ := ih
      refine ⟨x, hx, hxm.tail ?_⟩
      unfold CallGraph.calls
      rw [hreg _ hm]
      exact List.mem_map.2 ⟨_, hk, rfl⟩

theorem plainGraph_registered (m : Nat) :
    plainGraph.calledFunctionsOf (plainGraph.getOrInsertFunction (plainGraph.getFunction m))
      = plainGraph.calledFunctionsOf m :=
  match m with
  | 0 => by decide
  | 1 => by decide
  | 2 => by decide
  | m + 3 => by
    simp [CallGraph.calledFunctionsOf, CallGraph.calledNodes, CallGraph.getFunction,
      CallGraph.getOrInsertFunction, plainGraph, List.lookup]

/-- C1 (witness): in `plainGraph`, where `f` calls `g` and itself and `g`
calls `h`, the result for the node of `f` is `f`, `g` and `h`. -/
theorem getCalledFunctions_eq_callPath_witness :
    getCalledFunctions plainGraph 0 = [1, 2, 3] ∧
      ((getCalledFunctions plainGraph 0).Nodup ∧
        ∀ y, y ∈ getCalledFunctions plainGraph 0 ↔
          ∃ m, CallPath plainGraph 0 m ∧ plainGraph.getFunction m = y) :=
  ⟨by decide, getCalledFunctions_eq_callPath plainGraph 0 (fun m _ => plainGraph_registered m)⟩
/-! ## Theorems: the priority queue -/

theorem set_perm_cons_eraseIdx (a : List Nat) (h v : Nat) (hh : h < a.length) :
    (a.set h v).Perm (v :: a.eraseIdx h) := by
  induction a generalizing h with
  | nil => simp at hh
  | cons x xs ih =>
    cases h with
    | zero => simp
    | succ h =>
      simp only [List.set_cons_succ, List.eraseIdx_cons_succ]
      have := ih h (by simpa using hh)
      exact (List.Perm.cons x this).trans (List.Perm.swap v x _)

theorem getD_mem (a : List Nat) (i : Nat) (hi : i < a.length) : a.getD i 0 ∈ a := by
  rw [List.getD_eq_getElem _ _ hi]
  exact List.getElem_mem hi

theorem set_getD_self (a : List Nat) (i : Nat) : a.set i (a.getD i 0) = a := by
  induction a generalizing i with
  | nil => simp
  | cons x xs ih =>
    cases i with
    | zero => simp
    | succ i => simpa using ih i

theorem perm_getD_cons_eraseIdx (a : List Nat) (i : Nat) (hi : i < a.length) :
    a.Perm (a.getD i 0 :: a.eraseIdx i) := by
  have := set_perm_cons_eraseIdx a i (a.getD i 0) hi
  rwa [set_getD_self] at this

theorem getD_set (a : List Nat) (i j v : Nat) (hi : i < a.length) :
    (a.set i v).getD j 0 = if j = i then v else a.getD j 0 := by
  induction a generalizing i j with
  | nil => simp at hi
  | cons x xs ih =>
    cases i with
    | zero =>
      cases j with
      | zero => simp
      | succ j => simp
    | succ i =>
      cases j with
      | zero => simp
      | succ j =>
        simp only [List.set_cons_succ, List.getD_cons_succ]
        rw [ih i j (by simpa using hi)]
        simp

/-- Moving the element at `p` into the hole at `h` leaves a hole at `p`. -/
theorem move_into_hole_perm (a : List Nat) (h p : Nat) (hh : h < a.length) (hp : p < a.length) :
    ((a.set h (a.getD p 0)).eraseIdx p).Perm (a.eraseIdx h) := by
  set x := a.getD p 0 with hx
  have hb : (a.set h x).getD p 0 = x := by
    rw [getD_set a h p x hh]
    split_ifs <;> rfl
  have h1 : (a.set h x).Perm (x :: (a.set h x).eraseIdx p) := by
    have := perm_getD_cons_eraseIdx (a.set h x) p (by simpa using hp)
    rwa [hb] at this
  have h2 : (a.set h x).Perm (x :: a.eraseIdx h) := set_perm_cons_eraseIdx a h x hh
  exact (List.Perm.cons_inv (h1.symm.trans h2))

theorem mem_of_mem_set (a : List Nat) (i v x : Nat) (hx : x ∈ a.set i v) : x = v ∨ x ∈ a := by
  induction a generalizing i with
  | nil => simp at hx
  | cons y ys ih =>
    cases i with
    | zero =>
      simp only [List.set_cons_zero, List.mem_cons] at hx ⊢
      tauto
    | succ i =>
      simp only [List.set_cons_succ, List.mem_cons] at hx ⊢
      rcases hx with h | h
      · tauto
      · rcases ih i h with h | h <;> tauto

/-! ### `__push_heap` -/

theorem pushHeapLoop_length (comp : Nat → Nat → Bool) (top v fuel : Nat) (a : List Nat) (h : Nat) :
    (pushHeapLoop comp top v fuel a h).length = a.length := by
  induction fuel generalizing a h with
  | zero => simp [pushHeapLoop]
  | succ fuel ih =>
    simp only [pushHeapLoop]
    split_ifs
    · rw [ih]; simp
    · simp

theorem pushHeapLoop_perm (comp : Nat → Nat → Bool) (top v fuel : Nat) (a : List Nat) (h : Nat)
    (hh : h < a.length) :
    (pushHeapLoop comp top v fuel a h).Perm (v :: a.eraseIdx h) := by
  induction fuel generalizing a h with
  | zero => exact set_perm_cons_eraseIdx a h v hh
  | succ fuel ih =>
    simp only [pushHeapLoop]
    split_ifs
    · have hp : (h - 1) / 2 < a.length := by omega
      refine (ih _ _ (by simpa using hp)).trans (List.Perm.cons v ?_)
      exact move_into_hole_perm a h _ hh hp
    · exact set_perm_cons_eraseIdx a h v hh

/-- Positions behind the hole are not written. -/
theorem pushHeapLoop_getD_of_lt (comp : Nat → Nat → Bool) (top v fuel : Nat) (a : List Nat)
    (h j : Nat) (hh : h < a.length) (hj : h < j) :
    (pushHeapLoop comp top v fuel a h).getD j 0 = a.getD j 0 := by
  induction fuel generalizing a h with
  | zero =>
    simp only [pushHeapLoop]
    rw [getD_set a h j v hh, if_neg (by omega)]
  | succ fuel ih =>
    simp only [pushHeapLoop]
    split_ifs
    · rw [ih _ _ (by simp; omega) (by omega), getD_set a h j _ hh, if_neg (by omega)]
    · rw [getD_set a h j v hh, if_neg (by omega)]

/-- The bound of `pushHeapLoop` is enough: once the bound is at least the hole
index, the result is that of the loop run until its condition fails, whatever
the bound. -/
theorem pushHeapLoop_fuel (comp : Nat → Nat → Bool) (top v fuel fuel' : Nat) (a : List Nat)
    (h : Nat) (h1 : h ≤ fuel) (h2 : h ≤ fuel') :
    pushHeapLoop comp top v fuel a h = pushHeapLoop comp top v fuel' a h := by
  induction fuel generalizing fuel' a h with
  | zero =>
    have h0 : h = 0 := by omega
    subst h0
    cases fuel' with
    | zero => rfl
    | succ fuel' => simp [pushHeapLoop]
  | succ fuel ih =>
    cases fuel' with
    | zero =>
      have h0 : h = 0 := by omega
      subst h0
      simp [pushHeapLoop]
    | succ fuel' =>
      simp only [pushHeapLoop]
      split_ifs with hc
      · have hpos : h > top := by
          simp only [Bool.and_eq_true, decide_eq_true_eq] at hc
          exact hc.1
        exact ih fuel' _ _ (by omega) (by omega)
      · rfl

/-! ### `__adjust_heap` -/

/-- The bound of `adjustHeapLoop` is enough: once the bound covers the distance
of the hole from the middle of the range, the result is that of the loop run
until its condition fails, whatever the bound. -/
theorem adjustHeapLoop_fuel (comp : Nat → Nat → Bool) (len fuel fuel' : Nat) (a : List Nat)
    (h : Nat) (h1 : (len - 1) / 2 ≤ fuel + h) (h2 : (len - 1) / 2 ≤ fuel' + h) :
    adjustHeapLoop comp len fuel a h = adjustHeapLoop comp len fuel' a h := by
  induction fuel generalizing fuel' a h with
  | zero =>
    cases fuel' with
    | zero => rfl
    | succ fuel' =>
      simp only [adjustHeapLoop]
      rw [if_neg (by omega)]
  | succ fuel ih =>
    cases fuel' with
    | zero =>
      simp only [adjustHeapLoop]
      rw [if_neg (by omega)]
    | succ fuel' =>
      simp only [adjustHeapLoop]
      split_ifs with hc hcomp
      · exact ih fuel' _ _ (by omega) (by omega)
      · exact ih fuel' _ _ (by omega) (by omega)
      · rfl

/-- In `adjustHeapDescend` the loop is given the length of the range, which
covers the distance of any hole from the middle. -/
theorem adjustHeapDescend_fuel (comp : Nat → Nat → Bool) (len fuel : Nat) (a : List Nat)
    (h : Nat) (hfuel : (len - 1) / 2 ≤ fuel + h) :
    adjustHeapLoop comp len len a h = adjustHeapLoop comp len fuel a h :=
  adjustHeapLoop_fuel comp len len fuel a h (by omega) hfuel

/-- What the descent of the hole keeps: the length, the elements around the
hole, the positions from `len` on; and the hole stays inside the range. -/
theorem adjustHeapLoop_spec (comp : Nat → Nat → Bool) (len fuel : Nat) (a : List Nat) (h : Nat)
    (hlen : len ≤ a.length) (hh : h < len) :
    (adjustHeapLoop comp len fuel a h).1.length = a.length ∧
    h ≤ (adjustHeapLoop comp len fuel a h).2 ∧
    (adjustHeapLoop comp len fuel a h).2 < len ∧
    ((adjustHeapLoop comp len fuel a h).1.eraseIdx (adjustHeapLoop comp len fuel a h).2).Perm
      (a.eraseIdx h) ∧
    (∀ j, len ≤ j → (adjustHeapLoop comp len fuel a h).1.getD j 0 = a.getD j 0) ∧
    (∀ x ∈ (adjustHeapLoop comp len fuel a h).1, x ∈ a) := by
  induction fuel generalizing a h with
  | zero => simp [adjustHeapLoop, hh]
  | succ fuel ih =>
    simp only [adjustHeapLoop]
    split_ifs with hc hcmp
    · have hsc : 2 * (h + 1) - 1 < len := by omega
      obtain ⟨h1, h2, h3, h4, h5, h6⟩ :=
        ih (a.set h (a.getD (2 * (h + 1) - 1) 0)) (2 * (h + 1) - 1) (by simpa using hlen) hsc
      refine ⟨by simpa using h1, by omega, h3, ?_, ?_, ?_⟩
      · exact h4.trans (move_into_hole_perm a h _ (by omega) (by omega))
      · intro j hj
        rw [h5 j hj, getD_set a h j _ (by omega), if_neg (by omega)]
      · intro x hx
        rcases mem_of_mem_set _ _ _ _ (h6 x hx) with rfl | hx
        · exact getD_mem a _ (by omega)
        · exact hx
    · have hsc : 2 * (h + 1) < len := by omega
      obtain ⟨h1, h2, h3, h4, h5, h6⟩ :=
        ih (a.set h (a.getD (2 * (h + 1)) 0)) (2 * (h + 1)) (by simpa using hlen) hsc
      refine ⟨by simpa using h1, by omega, h3, ?_, ?_, ?_⟩
      · exact h4.trans (move_into_hole_perm a h _ (by omega) (by omega))
      · intro j hj
        rw [h5 j hj, getD_set a h j _ (by omega), if_neg (by omega)]
      · intro x hx
        rcases mem_of_mem_set _ _ _ _ (h6 x hx) with rfl | hx
        · exact getD_mem a _ (by omega)
        · exact hx
    · simp [hh]

theorem adjustHeapDescend_spec (comp : Nat → Nat → Bool) (a : List Nat) (h len : Nat)
    (hlen : len ≤ a.length) (hh : h < len) :
    (adjustHeapDescend comp a h len).1.length = a.length ∧
    h ≤ (adjustHeapDescend comp a h len).2 ∧
    (adjustHeapDescend comp a h len).2 < len ∧
    ((adjustHeapDescend comp a h len).1.eraseIdx (adjustHeapDescend comp a h len).2).Perm
      (a.eraseIdx h) ∧
    (∀ j, len ≤ j → (adjustHeapDescend comp a h len).1.getD j 0 = a.getD j 0) ∧
    (∀ x ∈ (adjustHeapDescend comp a h len).1, x ∈ a) := by
  obtain ⟨h1, h2, h3, h4, h5, h6⟩ := adjustHeapLoop_spec comp len len a h hlen hh
  unfold adjustHeapDescend
  simp only
  split_ifs with hc
  · obtain ⟨hc1, hc2, hc3⟩ := hc
    set st := adjustHeapLoop comp len len a h with hst
    have hsc : 2 * (st.2 + 1) - 1 < len := by omega
    refine ⟨by simpa using h1, by omega, hsc, ?_, ?_, ?_⟩
    · exact (move_into_hole_perm st.1 st.2 _ (by omega) (by omega)).trans h4
    · intro j hj
      rw [getD_set st.1 st.2 j _ (by omega), if_neg (by omega)]
      exact h5 j hj
    · intro x hx
      rcases mem_of_mem_set _ _ _ _ hx with rfl | hx
      · exact h6 _ (getD_mem st.1 _ (by omega))
      · exact h6 x hx
  · exact ⟨h1, h2, h3, h4, h5, h6⟩

theorem adjustHeap_spec (comp : Nat → Nat → Bool) (a : List Nat) (h len v : Nat)
    (hlen : len ≤ a.length) (hh : h < len) :
    (adjustHeap comp a h len v).length = a.length ∧
    (adjustHeap comp a h len v).Perm (v :: a.eraseIdx h) ∧
    (∀ j, len ≤ j → (adjustHeap comp a h len v).getD j 0 = a.getD j 0) := by
  obtain ⟨h1, h2, h3, h4, h5, h6⟩ := adjustHeapDescend_spec comp a h len hlen hh
  unfold adjustHeap pushHeapAt
  simp only
  refine ⟨by rw [pushHeapLoop_length, h1], ?_, ?_⟩
  · exact (pushHeapLoop_perm comp h v _ _ _ (by omega)).trans (List.Perm.cons v h4)
  · intro j hj
    rw [pushHeapLoop_getD_of_lt comp h v _ _ _ j (by omega) (by omega)]
    exact h5 j hj

/-! ### The queue operations -/

theorem getD_append_length (c : List Nat) (x : Nat) : (c ++ [x]).getD c.length 0 = x := by
  induction c with
  | nil => simp
  | cons y ys ih => simp

theorem eraseIdx_append_length (c : List Nat) (x : Nat) : (c ++ [x]).eraseIdx c.length = c := by
  induction c with
  | nil => simp
  | cons y ys ih => simp [ih]

theorem eq_dropLast_append_getD (a : List Nat) (n : Nat) (hn : a.length = n + 1) :
    a = a.dropLast ++ [a.getD n 0] := by
  induction a generalizing n with
  | nil => simp at hn
  | cons x xs ih =>
    cases xs with
    | nil =>
      have : n = 0 := by simpa using hn.symm
      subst this; simp
    | cons y ys =>
      cases n with
      | zero => simp at hn
      | succ n =>
        have := ih n (by simpa using hn)
        simp only [List.dropLast_cons₂, List.cons_append, List.getD_cons_succ]
        exact congrArg (x :: ·) this

theorem priorityQueuePush_eq (comp : Nat → Nat → Bool) (c : List Nat) (x : Nat) :
    priorityQueuePush comp c x = pushHeapLoop comp 0 x c.length (c ++ [x]) c.length := by
  simp [priorityQueuePush, pushHeap, pushHeapAt, getD_append_length]

theorem priorityQueuePush_perm (comp : Nat → Nat → Bool) (c : List Nat) (x : Nat) :
    (priorityQueuePush comp c x).Perm (x :: c) := by
  rw [priorityQueuePush_eq]
  have := pushHeapLoop_perm comp 0 x c.length (c ++ [x]) c.length (by simp)
  rwa [eraseIdx_append_length] at this

theorem popHeap_eq (comp : Nat → Nat → Bool) (c : List Nat) (hc : 2 ≤ c.length) :
    popHeap comp c =
      adjustHeap comp (c.set (c.length - 1) (c.getD 0 0)) 0 (c.length - 1)
        (c.getD (c.length - 1) 0) := by
  unfold popHeap
  rw [if_pos (by omega)]

theorem popHeap_length (comp : Nat → Nat → Bool) (c : List Nat) :
    (popHeap comp c).length = c.length := by
  by_cases hc : 2 ≤ c.length
  · rw [popHeap_eq comp c hc]
    rw [(adjustHeap_spec comp _ 0 (c.length - 1) _ (by simp) (by omega)).1]
    simp
  · unfold popHeap
    rw [if_neg (by omega)]

theorem priorityQueuePop_length (comp : Nat → Nat → Bool) (c : List Nat) :
    (priorityQueuePop comp c).length = c.length - 1 := by
  simp [priorityQueuePop, popHeap_length]

/-- After `pop_heap` the old top is in the last slot. -/
theorem popHeap_last (comp : Nat → Nat → Bool) (c : List Nat) (hc : 2 ≤ c.length) :
    (popHeap comp c).getD (c.length - 1) 0 = c.getD 0 0 := by
  rw [popHeap_eq comp c hc]
  rw [(adjustHeap_spec comp _ 0 (c.length - 1) _ (by simp) (by omega)).2.2 _ (le_refl _)]
  rw [getD_set c _ _ _ (by omega)]
  simp

theorem popHeap_perm (comp : Nat → Nat → Bool) (c : List Nat) (hc : 2 ≤ c.length) :
    (popHeap comp c).Perm c := by
  have hlast : c.length - 1 < c.length := by omega
  rw [popHeap_eq comp c hc]
  refine (adjustHeap_spec comp _ 0 (c.length - 1) _ (by simp) (by omega)).2.1.trans ?_
  set c1 := c.set (c.length - 1) (c.getD 0 0) with hc1
  have h10 : c1.getD 0 0 = c.getD 0 0 := by
    rw [hc1, getD_set c _ _ _ hlast]
    split_ifs <;> rfl
  have h1 : c1.Perm (c.getD 0 0 :: c.eraseIdx (c.length - 1)) :=
    set_perm_cons_eraseIdx c _ _ hlast
  have h2 : c1.Perm (c.getD 0 0 :: c1.eraseIdx 0) := by
    have := perm_getD_cons_eraseIdx c1 0 (by simp [hc1]; omega)
    rwa [h10] at this
  have h3 : (c1.eraseIdx 0).Perm (c.eraseIdx (c.length - 1)) :=
    List.Perm.cons_inv (h2.symm.trans h1)
  exact (List.Perm.cons _ h3).trans (perm_getD_cons_eraseIdx c _ hlast).symm

/-- The popped function and the functions left in the queue are the functions
that were in the queue. -/
theorem priorityQueuePop_perm (comp : Nat → Nat → Bool) (c : List Nat) (hc : 2 ≤ c.length) :
    (priorityQueueTop c :: priorityQueuePop comp c).Perm c := by
  unfold priorityQueueTop priorityQueuePop
  have hlen := popHeap_length comp c
  have hdec := eq_dropLast_append_getD (popHeap comp c) (c.length - 1) (by omega)
  rw [popHeap_last comp c hc] at hdec
  have hp := popHeap_perm comp c hc
  rw [hdec] at hp
  exact (List.perm_append_singleton _ _).symm.trans hp

/-! ### A root that sorts last -/

theorem setInsert_perm (x : Nat) (s : List Nat) (hx : x ∉ s) : (setInsert x s).Perm (x :: s) := by
  induction s with
  | nil => simp [setInsert]
  | cons z zs ih =>
    have hz : x ≠ z := fun h => hx (by simp [h])
    have hzs : x ∉ zs := fun h => hx (by simp [h])
    unfold setInsert
    split_ifs with h1
    · exact List.Perm.refl _
    · exact (List.Perm.cons z (ih hzs)).trans (List.Perm.swap x z zs)

/-- An invariant of the loop body is an invariant of the loop. -/
theorem scheduleLoop_induction (comp : Nat → Nat → Bool) (P : Schedule → Prop)
    (hstep : ∀ st, P st → 2 ≤ st.worklist.length → P (scheduleStep comp st))
    (fuel : Nat) (st : Schedule) (h : P st) : P (scheduleLoop comp fuel st) := by
  induction fuel generalizing st with
  | zero => exact h
  | succ fuel ih =>
    simp only [scheduleLoop]
    split_ifs with hc
    · exact ih _ (hstep st h hc)
    · exact h

/-- The loop ends with at most one function on the worklist: the budget is
enough. -/
theorem scheduleLoop_worklist_length (comp : Nat → Nat → Bool) (fuel : Nat) (st : Schedule)
    (hfuel : st.worklist.length ≤ fuel + 1) :
    (scheduleLoop comp fuel st).worklist.length ≤ 1 := by
  induction fuel generalizing st with
  | zero => simpa [scheduleLoop] using hfuel
  | succ fuel ih =>
    simp only [scheduleLoop]
    split_ifs with hc
    · apply ih
      simp only [scheduleStep, priorityQueuePop_length]
      omega
    · omega

theorem schedule_worklist_length (ai : AggressiveInline) :
    (schedule ai).worklist.length ≤ 1 :=
  scheduleLoop_worklist_length _ _ _ (by simp)

theorem makeInlinable_idem (fn : Function) : makeInlinable (makeInlinable fn) = makeInlinable fn :=
  rfl

/-- The module in the loop: the functions of the removal set are made inlinable,
everything else is as in the module the loop started from. -/
theorem scheduleStep_module (comp : Nat → Nat → Bool) (m0 : Module) (st : Schedule)
    (h : st.module.functions = m0.functions.map
        (fun fn => if fn.id ∈ st.shouldBeRemoved then makeInlinable fn else fn) ∧
      st.module.globals = m0.globals) :
    (scheduleStep comp st).module.functions = m0.functions.map
        (fun fn => if fn.id ∈ (scheduleStep comp st).shouldBeRemoved then makeInlinable fn
          else fn) ∧
      (scheduleStep comp st).module.globals = m0.globals := by
  obtain ⟨hf, hg⟩ := h
  refine ⟨?_, hg⟩
  simp only [scheduleStep, Module.updateFunction, hf, List.map_map]
  apply List.map_congr_left
  intro fn _
  simp only [Function.comp, mem_setInsert]
  by_cases h1 : fn.id ∈ st.shouldBeRemoved
  · simp only [h1, if_true, or_true]
    split_ifs
    · rfl
    · rfl
  · simp only [h1, if_false, or_false]

theorem schedule_module (ai : AggressiveInline) :
    (schedule ai).module.functions = ai.module.functions.map
        (fun fn => if fn.id ∈ (schedule ai).shouldBeRemoved then makeInlinable fn else fn) ∧
      (schedule ai).module.globals = ai.module.globals := by
  unfold schedule
  refine scheduleLoop_induction _
    (fun st => st.module.functions = ai.module.functions.map
        (fun fn => if fn.id ∈ st.shouldBeRemoved then makeInlinable fn else fn) ∧
      st.module.globals = ai.module.globals)
    (fun st h _ => scheduleStep_module _ ai.module st h) _ _ ?_
  simp

/-- The scheduling loop changes no pointer, no name and no body. -/
theorem schedule_module_frame (ai : AggressiveInline) :
    (schedule ai).module.functions.map (fun fn => (fn.id, fn.name, fn.blocks)) =
        ai.module.functions.map (fun fn => (fn.id, fn.name, fn.blocks)) ∧
      (schedule ai).module.globals = ai.module.globals := by
  obtain ⟨hf, hg⟩ := schedule_module ai
  refine ⟨?_, hg⟩
  rw [hf, List.map_map]
  apply List.map_congr_left
  intro fn _
  simp only [Function.comp]
  split_ifs <;> rfl

theorem getName_eq_of_frame (m1 m2 : Module)
    (h : m1.functions.map (fun fn => (fn.id, fn.name, fn.blocks)) =
      m2.functions.map (fun fn => (fn.id, fn.name, fn.blocks))) (f : Nat) :
    m1.getName f = m2.getName f := by
  unfold Module.getName
  generalize m1.functions = l1 at h
  generalize m2.functions = l2 at h
  induction l1 generalizing l2 with
  | nil =>
    cases l2 with
    | nil => rfl
    | cons b l2 => simp at h
  | cons a l1 ih =>
    cases l2 with
    | nil => simp at h
    | cons b l2 =>
      simp only [List.map_cons, List.cons.injEq, Prod.mk.injEq] at h
      obtain ⟨⟨hid, hname, -⟩, ht⟩ := h
      simp only [List.find?_cons, hid]
      cases hb : (b.id == f)
      · exact ih l2 ht
      · simp [hname]

theorem schedule_getName (ai : AggressiveInline) (f : Nat) :
    (schedule ai).module.getName f = ai.module.getName f :=
  getName_eq_of_frame _ _ (schedule_module_frame ai).1 f

theorem foldl_push_perm (comp : Nat → Nat → Bool) (fs : List Function) (acc : List Nat) :
    (fs.foldl (fun worklist f => priorityQueuePush comp worklist f.id) acc).Perm
      (acc ++ fs.map (·.id)) := by
  induction fs generalizing acc with
  | nil => simp
  | cons f fs ih =>
    simp only [List.foldl_cons, List.map_cons]
    refine (ih _).trans ?_
    refine (List.Perm.append_right _ (priorityQueuePush_perm comp acc f.id)).trans ?_
    simpa using (@List.perm_middle _ f.id acc (fs.map (·.id))).symm

theorem fillWorklist_perm (comp : Nat → Nat → Bool) (m : Module) :
    (fillWorklist comp m).Perm m.functionIds := by
  simpa [fillWorklist, Module.functionIds] using foldl_push_perm comp m.functions []

/-- With distinct function pointers, the removal set and the worklist together
hold every function of the module once. -/
theorem scheduleStep_perm (comp : Nat → Nat → Bool) (ids : List Nat) (hids : ids.Nodup)
    (st : Schedule)
    (h : (st.shouldBeRemoved ++ st.worklist).Perm ids ∧ st.shouldBeRemoved.Sorted (· < ·))
    (hlen : 2 ≤ st.worklist.length) :
    ((scheduleStep comp st).shouldBeRemoved ++ (scheduleStep comp st).worklist).Perm ids ∧
      (scheduleStep comp st).shouldBeRemoved.Sorted (· < ·) := by
  obtain ⟨hp, hs⟩ := h
  refine ⟨?_, setInsert_sorted _ _ hs⟩
  have hnd : (st.shouldBeRemoved ++ st.worklist).Nodup := hp.nodup_iff.2 hids
  have htop : priorityQueueTop st.worklist ∈ st.worklist := getD_mem _ 0 (by omega)
  have hnot : priorityQueueTop st.worklist ∉ st.shouldBeRemoved :=
    fun h => List.disjoint_of_nodup_append hnd h htop
  simp only [scheduleStep]
  refine ((setInsert_perm _ _ hnot).append_right _).trans ?_
  refine (List.Perm.trans ?_ ((priorityQueuePop_perm comp st.worklist hlen).append_left
    st.shouldBeRemoved)).trans hp
  simpa using (@List.perm_middle _ (priorityQueueTop st.worklist) st.shouldBeRemoved
    (priorityQueuePop comp st.worklist)).symm

theorem schedule_perm (ai : AggressiveInline) (hids : ai.module.functionIds.Nodup) :
    ((schedule ai).shouldBeRemoved ++ (schedule ai).worklist).Perm ai.module.functionIds ∧
      (schedule ai).shouldBeRemoved.Sorted (· < ·) := by
  unfold schedule
  refine scheduleLoop_induction _
    (fun st => (st.shouldBeRemoved ++ st.worklist).Perm ai.module.functionIds ∧
      st.shouldBeRemoved.Sorted (· < ·))
    (fun st h hlen => scheduleStep_perm _ _ hids st h hlen) _ _ ?_
  exact ⟨by simpa using fillWorklist_perm _ ai.module, List.sorted_nil⟩

theorem findLibraryFunction_eq_none (lib : Library) (m : Module) (removed : List Nat) :
    findLibraryFunction lib m removed = none ↔
      ∀ f ∈ removed, lib.getLibFunc (m.getName f) = false := by
  induction removed with
  | nil => simp [findLibraryFunction]
  | cons f rest ih =>
    simp only [findLibraryFunction, List.mem_cons, forall_eq_or_imp]
    split_ifs with h
    · simp [h]
    · simp only [Bool.not_eq_true] at h
      simp [h, ih]

/-- C2 (failing input): in `selfCallModule`, where `f` is pushed before `main`
and has one transitive callee against none of `main`, the loop pops `main`:
`main` is the removal set, `main` gets the always-inline attribute, and `f` is
the function left on the worklist. -/
theorem schedule_pops_main :
    selfCallModule.module.getName 2 = "main" ∧
      (schedule selfCallModule).shouldBeRemoved = [2] ∧
      (schedule selfCallModule).worklist = [1] ∧
      (schedule selfCallModule).module.functions.map (fun fn => (fn.name, fn.AlwaysInline)) =
        [("f", false), ("main", true)] := by
  decide

theorem findLibraryFunction_isSome (lib : Library) (m : Module) (removed : List Nat) :
    (∃ name, findLibraryFunction lib m removed = some name) ↔
      ∃ f ∈ removed, lib.getLibFunc (m.getName f) = true := by
  have h := findLibraryFunction_eq_none lib m removed
  cases hf : findLibraryFunction lib m removed with
  | none =>
    rw [hf] at h
    have h2 := h.1 rfl
    constructor
    · rintro ⟨name, hn⟩
      cases hn
    · rintro ⟨f, hf1, hf2⟩
      rw [h2 f hf1] at hf2
      cases hf2
  | some name =>
    rw [hf] at h
    simp only [Option.some.injEq, exists_eq', true_iff]
    by_contra hcon
    simp only [not_exists, not_and, Bool.not_eq_true] at hcon
    exact absurd (h.2 hcon) (by simp)

/-- C5: `inlineFunctions` ends in a fatal error exactly when a function of the
removal set has a name the library table knows; and the module at the moment of
the error has every function of the input module, with its name and body, and
the same globals (only the inlining attributes set by the scheduling loop
differ): neither the forced inliner nor the erasure has run. -/
theorem inlineFunctions_fatal_iff (lib : Library) (ai : AggressiveInline) :
    ((∃ msg m, inlineFunctions lib ai = .fatal msg m) ↔
        ∃ f ∈ (schedule ai).shouldBeRemoved, lib.getLibFunc (ai.module.getName f) = true) ∧
      ∀ msg m, inlineFunctions lib ai = .fatal msg m →
        m = (schedule ai).module ∧
        m.functions.map (fun fn => (fn.id, fn.name, fn.blocks)) =
          ai.module.functions.map (fun fn => (fn.id, fn.name, fn.blocks)) ∧
        m.globals = ai.module.globals := by
  constructor
  · have hiff := findLibraryFunction_isSome lib (schedule ai).module (schedule ai).shouldBeRemoved
    simp only [schedule_getName] at hiff
    rw [← hiff]
    unfold inlineFunctions inlineScheduled
    cases findLibraryFunction lib (schedule ai).module (schedule ai).shouldBeRemoved with
    | none => cases eraseScheduled lib (schedule ai) <;> simp
    | some name => simp
  · intro msg m h
    unfold inlineFunctions inlineScheduled at h
    cases hf : findLibraryFunction lib (schedule ai).module (schedule ai).shouldBeRemoved with
    | none =>
      rw [hf] at h
      cases he : eraseScheduled lib (schedule ai) <;> rw [he] at h <;> cases h
    | some name =>
      rw [hf] at h
      simp only [Outcome.fatal.injEq] at h
      obtain ⟨-, rfl⟩ := h
      exact ⟨rfl, schedule_module_frame ai⟩

/-- C5 (witness): on the fixture, whose removal set holds `printf`, the error
is raised with the five functions still in the module. -/
theorem inlineFunctions_fatal_iff_witness :
    inlineFunctions plainLibrary fixture =
        .fatal "Function printf is not available" (schedule fixture).module ∧
      (schedule fixture).module.functionIds = [1, 2, 3, 4, 5] ∧
      (((∃ msg m, inlineFunctions plainLibrary fixture = .fatal msg m) ↔
          ∃ f ∈ (schedule fixture).shouldBeRemoved,
            plainLibrary.getLibFunc (fixture.module.getName f) = true) ∧
        ∀ msg m, inlineFunctions plainLibrary fixture = .fatal msg m →
          m = (schedule fixture).module ∧
          m.functions.map (fun fn => (fn.id, fn.name, fn.blocks)) =
            fixture.module.functions.map (fun fn => (fn.id, fn.name, fn.blocks)) ∧
          m.globals = fixture.module.globals) :=
  ⟨by decide, by decide, inlineFunctions_fatal_iff plainLibrary fixture⟩
/-! ## Theorems: `getGlobalUser` -/

/-- C7 (failing input): `ownedGlobal` has one instruction user, in function 1,
and a constant expression after it in the use list; `getGlobalUser` returns the
null pointer, and `inlineGlobalVars` on a module with this global ends in the
error "has no function user". With the constant expression first, function 1 is
returned. -/
theorem getGlobalUser_loses_owner :
    getGlobalUser ownedGlobal = .ok 0 ∧
      inlineGlobalVars ownedGlobalModule =
        .fatal "Global variable g has no function user" ownedGlobalModule ∧
      getGlobalUser ownedGlobalReversed = .ok 1 := by
  decide
/-! ## Theorems: `removeUndefCalls` -/

theorem filterInstructions_instructions (keep : Instruction → Bool) (m : Module) :
    (m.filterInstructions keep).instructions = m.instructions.filter keep := by
  unfold Module.filterInstructions Module.instructions
  generalize m.functions = fs
  induction fs with
  | nil => rfl
  | cons fn fs ih =>
    simp only [List.map_cons, List.flatMap_cons, List.filter_append, ih]
    congr 1
    generalize fn.blocks = bs
    induction bs with
    | nil => rfl
    | cons b bs ihb => simp only [List.map_cons, List.flatten_cons, List.filter_append, ihb]

theorem filterInstructions_congr (p q : Instruction → Bool) (m : Module)
    (h : ∀ i ∈ m.instructions, p i = q i) :
    m.filterInstructions p = m.filterInstructions q := by
  unfold Module.filterInstructions
  congr 1
  apply List.map_congr_left
  intro fn hfn
  congr 1
  apply List.map_congr_left
  intro bb hbb
  apply List.filter_congr
  intro i hi
  apply h
  unfold Module.instructions
  rw [List.mem_flatMap]
  exact ⟨fn, hfn, List.mem_flatten.2 ⟨bb, hbb, hi⟩⟩

theorem filterInstructions_filterInstructions (p q : Instruction → Bool) (m : Module) :
    (m.filterInstructions q).filterInstructions p =
      m.filterInstructions (fun i => q i && p i) := by
  simp only [Module.filterInstructions, List.map_map]
  congr 1
  apply List.map_congr_left
  intro fn _
  simp only [Function.comp, List.map_map]
  congr 1
  apply List.map_congr_left
  intro bb _
  simp only [Function.comp, List.filter_filter]
  apply List.filter_congr
  intro i _
  rw [Bool.and_comm]

theorem filterInstructions_true (m : Module) :
    m.filterInstructions (fun _ => true) = m := by
  cases m with
  | mk fs gs =>
    simp only [Module.filterInstructions, List.filter_true, List.map_id', Module.mk.injEq,
      and_true]

theorem eraseInstruction_eq (m : Module) (id : Nat) :
    m.eraseInstruction id = m.filterInstructions (fun i => i.id != id) := rfl

theorem findInstruction_eq_some (m : Module) (id : Nat) (i : Instruction)
    (h : m.findInstruction id = some i) : i ∈ m.instructions ∧ i.id = id := by
  unfold Module.findInstruction at h
  refine ⟨List.mem_of_find?_eq_some h, ?_⟩
  simpa using List.find?_some h

theorem findInstruction_eq_none (m : Module) (id : Nat) (h : m.findInstruction id = none) :
    ∀ i ∈ m.instructions, i.id ≠ id := by
  unfold Module.findInstruction at h
  intro i hi
  have := List.find?_eq_none.1 h i hi
  simpa using this

/-- With distinct instruction pointers, one step of the sweep removes the call
with that pointer when its callee is poison and nothing else. -/
theorem removeIfPoison_eq (m : Module) (c : Nat)
    (hnd : (m.instructions.map Instruction.id).Nodup) :
    removeIfPoison m c =
      m.filterInstructions (fun i => !(i.isPoisonCall && i.id == c)) := by
  have hinj : ∀ i ∈ m.instructions, ∀ j ∈ m.instructions, i.id = j.id → i = j :=
    fun i hi j hj h => List.inj_on_of_nodup_map hnd hi hj h
  unfold removeIfPoison
  cases hf : m.findInstruction c with
  | none =>
    have hne := findInstruction_eq_none m c hf
    simp only
    conv_lhs => rw [← filterInstructions_true m]
    apply filterInstructions_congr
    intro i hi
    have : (i.id == c) = false := by simpa using hne i hi
    simp [this]
  | some i0 =>
    obtain ⟨hi0, hid⟩ := findInstruction_eq_some m c i0 hf
    by_cases hp : i0.isPoisonCall = true
    · have hmatch : (match some i0 with
          | some (.call _ (.constant .poison) _) => m.eraseInstruction c
          | _ => m) = m.eraseInstruction c := by
        cases i0 with
        | call id callee args =>
          cases callee with
          | constant k => cases k <;> simp_all [Instruction.isPoisonCall]
          | instruction _ => simp [Instruction.isPoisonCall] at hp
          | argument _ => simp [Instruction.isPoisonCall] at hp
        | alloca _ _ _ _ _ => simp [Instruction.isPoisonCall] at hp
        | store _ _ _ => simp [Instruction.isPoisonCall] at hp
        | getelementptr _ _ _ _ => simp [Instruction.isPoisonCall] at hp
        | other _ _ _ => simp [Instruction.isPoisonCall] at hp
      rw [hmatch, eraseInstruction_eq]
      apply filterInstructions_congr
      intro i hi
      by_cases hic : i.id = c
      · have : i = i0 := hinj i hi i0 hi0 (hic.trans hid.symm)
        subst this
        simp [hp, hic]
      · have hb : (i.id == c) = false := by simpa using hic
        simp [hb, bne]
    · have hmatch : (match some i0 with
          | some (.call _ (.constant .poison) _) => m.eraseInstruction c
          | _ => m) = m := by
        cases i0 with
        | call id callee args =>
          cases callee with
          | constant k => cases k <;> simp_all [Instruction.isPoisonCall]
          | instruction _ => rfl
          | argument _ => rfl
        | alloca _ _ _ _ _ => rfl
        | store _ _ _ => rfl
        | getelementptr _ _ _ _ => rfl
        | other _ _ _ => rfl
      rw [hmatch]
      conv_lhs => rw [← filterInstructions_true m]
      apply filterInstructions_congr
      intro i hi
      by_cases hic : i.id = c
      · have : i = i0 := hinj i hi i0 hi0 (hic.trans hid.symm)
        subst this
        simp [hp]
      · simp [hic]

theorem foldl_removeIfPoison_eq (cs : List Nat) (m : Module)
    (hnd : (m.instructions.map Instruction.id).Nodup) :
    cs.foldl removeIfPoison m =
      m.filterInstructions (fun i => !(i.isPoisonCall && decide (i.id ∈ cs))) := by
  induction cs generalizing m with
  | nil =>
    simp only [List.foldl_nil, List.not_mem_nil, decide_False, Bool.and_false, Bool.not_false]
    exact (filterInstructions_true m).symm
  | cons c cs ih =>
    simp only [List.foldl_cons]
    have hnd' : ((removeIfPoison m c).instructions.map Instruction.id).Nodup := by
      rw [removeIfPoison_eq m c hnd, filterInstructions_instructions]
      exact hnd.sublist ((List.filter_sublist _).map _)
    rw [ih _ hnd', removeIfPoison_eq m c hnd, filterInstructions_filterInstructions]
    apply filterInstructions_congr
    intro i _
    by_cases h1 : i.id = c <;> by_cases h2 : i.id ∈ cs <;> cases i.isPoisonCall <;>
      simp [h1, h2]

theorem subset_collectCalls (bb : List Instruction) (s : List Nat) :
    ∀ c ∈ s, c ∈ collectCalls bb s := by
  unfold collectCalls
  induction bb generalizing s with
  | nil => intro c hc; simpa using hc
  | cons i bb ih =>
    intro c hc
    simp only [List.foldl_cons]
    apply ih
    cases i <;> simp only [collectCall, mem_setInsert, hc, or_true]

theorem isPoisonCall_iff (i : Instruction) :
    i.isPoisonCall = true ↔ ∃ id args, i = .call id (.constant .poison) args := by
  constructor
  · intro hp
    cases i with
    | call id callee args =>
      cases callee with
      | constant k =>
        cases k <;> simp [Instruction.isPoisonCall] at hp
        exact ⟨id, args, rfl⟩
      | instruction _ => simp [Instruction.isPoisonCall] at hp
      | argument _ => simp [Instruction.isPoisonCall] at hp
    | alloca _ _ _ _ _ => simp [Instruction.isPoisonCall] at hp
    | store _ _ _ => simp [Instruction.isPoisonCall] at hp
    | getelementptr _ _ _ _ => simp [Instruction.isPoisonCall] at hp
    | other _ _ _ => simp [Instruction.isPoisonCall] at hp
  · rintro ⟨id, args, rfl⟩
    rfl

theorem mem_collectCalls_of_isPoisonCall (bb : List Instruction) (s : List Nat)
    (i : Instruction) (hi : i ∈ bb) (hp : i.isPoisonCall = true) :
    i.id ∈ collectCalls bb s := by
  obtain ⟨id, args, rfl⟩ := (isPoisonCall_iff i).1 hp
  induction bb generalizing s with
  | nil => simp at hi
  | cons j bb ih =>
    rcases List.mem_cons.1 hi with hij | hi
    · subst hij
      exact subset_collectCalls bb (setInsert id s) id (by simp [mem_setInsert])
    · exact ih (collectCall s j) hi

theorem subset_foldl_collectCalls (bs : List (List Instruction)) (s : List Nat) :
    ∀ c ∈ s, c ∈ bs.foldl (fun s bb => collectCalls bb s) s := by
  induction bs generalizing s with
  | nil => intro c hc; simpa using hc
  | cons b bs ih =>
    intro c hc
    simp only [List.foldl_cons]
    exact ih _ c (subset_collectCalls b s c hc)

theorem mem_foldl_collectCalls (bs : List (List Instruction)) (s : List Nat)
    (i : Instruction) (hi : i ∈ bs.flatten) (hp : i.isPoisonCall = true) :
    i.id ∈ bs.foldl (fun s bb => collectCalls bb s) s := by
  induction bs generalizing s with
  | nil => simp at hi
  | cons b bs ih =>
    simp only [List.flatten_cons, List.mem_append] at hi
    simp only [List.foldl_cons]
    rcases hi with hi | hi
    · exact subset_foldl_collectCalls bs _ _ (mem_collectCalls_of_isPoisonCall b s i hi hp)
    · exact ih _ hi

theorem mem_callInstrs_of_isPoisonCall (m : Module) (i : Instruction)
    (hi : i ∈ m.instructions) (hp : i.isPoisonCall = true) : i.id ∈ m.callInstrs := by
  unfold Module.callInstrs
  unfold Module.instructions at hi
  generalize m.functions = fs at hi
  generalize ([] : List Nat) = s
  induction fs generalizing s with
  | nil => simp at hi
  | cons fn fs ih =>
    simp only [List.flatMap_cons, List.mem_append] at hi
    simp only [List.foldl_cons]
    rcases hi with hi | hi
    · have h1 := mem_foldl_collectCalls fn.blocks s i hi hp
      generalize fn.blocks.foldl (fun s bb => collectCalls bb s) s = s1 at h1
      clear ih hi
      induction fs generalizing s1 with
      | nil => simpa using h1
      | cons g gs ihg =>
        simp only [List.foldl_cons]
        exact ihg _ (subset_foldl_collectCalls g.blocks s1 _ h1)
    · exact ih hi _

/-- C9: in a module whose instructions have distinct pointers,
`removeUndefCalls` leaves every function with every block cut down to the
instructions that are not calls of a poison callee, in their order (nothing else
changes); so no call of a poison callee remains, and every other instruction is
still there, in its block and in the same relative order. -/
theorem removeUndefCalls_eq (m : Module)
    (hnd : (m.instructions.map Instruction.id).Nodup) :
    (removeUndefCalls m).functions = m.functions.map (fun fn =>
        { fn with blocks := fn.blocks.map (fun bb => bb.filter (fun i => !i.isPoisonCall)) }) ∧
      (removeUndefCalls m).globals = m.globals ∧
      (∀ i ∈ (removeUndefCalls m).instructions, i.isPoisonCall = false) ∧
      (removeUndefCalls m).instructions = m.instructions.filter (fun i => !i.isPoisonCall) := by
  have h : removeUndefCalls m = m.filterInstructions (fun i => !i.isPoisonCall) := by
    unfold removeUndefCalls
    rw [foldl_removeIfPoison_eq _ m hnd]
    apply filterInstructions_congr
    intro i hi
    cases hp : i.isPoisonCall with
    | false => simp
    | true => simp [mem_callInstrs_of_isPoisonCall m i hi hp]
  rw [h]
  refine ⟨rfl, rfl, ?_, filterInstructions_instructions _ m⟩
  intro i hi
  rw [filterInstructions_instructions, List.mem_filter] at hi
  simpa using hi.2

/-- C9 (witness): `sweptModule` loses its three calls of poison and nothing
else; the call of function 3 with a poison argument stays. -/
theorem removeUndefCalls_eq_witness :
    (removeUndefCalls sweptModule).functions.map
        (fun fn => fn.blocks.map (List.map Instruction.id)) = [[[11, 12, 14]], [[20], [22]]] ∧
      ((removeUndefCalls sweptModule).functions = sweptModule.functions.map (fun fn =>
          { fn with blocks := fn.blocks.map (fun bb => bb.filter (fun i => !i.isPoisonCall)) }) ∧
        (removeUndefCalls sweptModule).globals = sweptModule.globals ∧
        (∀ i ∈ (removeUndefCalls sweptModule).instructions, i.isPoisonCall = false) ∧
        (removeUndefCalls sweptModule).instructions =
          sweptModule.instructions.filter (fun i => !i.isPoisonCall)) :=
  ⟨by decide, removeUndefCalls_eq sweptModule (by decide)⟩
/-! ## Theorems: `disaggregateVars` -/

theorem emitAfter_split (a : Nat) (gep store S : Instruction) (pre R : List Instruction)
    (hpre : ∀ i ∈ pre, i.id ≠ a) (hS : S.id = a) (hR : R ≠ []) :
    emitAfter a gep store (pre ++ S :: R) = pre ++ S :: gep :: store :: R := by
  induction pre with
  | nil =>
    cases R with
    | nil => exact absurd rfl hR
    | cons x xs => simp [emitAfter, hS]
  | cons p pre ih =>
    have hp : p.id ≠ a := hpre p (by simp)
    have ih' := ih (fun i hi => hpre i (by simp [hi]))
    show emitAfter a gep store (p :: (pre ++ S :: R)) = p :: (pre ++ S :: gep :: store :: R)
    simp only [emitAfter, hp, if_false]
    exact congrArg (p :: ·) ih'

theorem emittedPairs_append (val : Value) (n : Nat) (l1 l2 : List (List Nat × Constant)) :
    emittedPairs val n (l1 ++ l2) =
      emittedPairs val (n + 2 * l1.length) l2 ++ emittedPairs val n l1 := by
  induction l1 generalizing n with
  | nil => simp [emittedPairs]
  | cons x xs ih =>
    have hn : n + 2 + 2 * xs.length = n + 2 * (xs.length + 1) := by omega
    show emittedPairs val (n + 2) (xs ++ l2) ++ leafPair val n x =
      emittedPairs val (n + 2 * (xs.length + 1)) l2 ++
        (emittedPairs val (n + 2) xs ++ leafPair val n x)
    rw [ih, hn, List.append_assoc]

theorem indexValue_path (path : List Nat) (i : Nat) :
    (0 :: path).map indexValue ++ [Value.constant (.int 32 i)] =
      (0 :: (path ++ [i])).map indexValue := by
  simp [indexValue]

mutual
/-- What the loop body does: the pairs of the elements that `emittedLeaves`
lists come to stand right after the store, before what stood there; the changes
of constants and `vars_to_undef` are those of `emittedLeaves`. -/
theorem disaggregateElement_block (a : Nat) (val : Value) (vars : List Nat)
    (pre : List Instruction) (S : Instruction) (hpre : ∀ i ∈ pre, i.id ≠ a) (hS : S.id = a) :
    ∀ (c : Constant) (path : List Nat) (replaced : List Constant) (R : List Instruction)
      (n : Nat) (changed : List (Constant × List Constant)) (undef : List Constant), R ≠ [] →
      disaggregateElement a val vars ((0 :: path).map indexValue) replaced c
          ⟨pre ++ S :: R, n, changed⟩ undef =
        (⟨pre ++ S :: (emittedPairs val n (emittedLeaves vars path replaced c changed undef).1
            ++ R),
          n + 2 * (emittedLeaves vars path replaced c changed undef).1.length,
          (emittedLeaves vars path replaced c changed undef).2.1⟩,
          (emittedLeaves vars path replaced c changed undef).2.2)
  | .aggregate inner, path, replaced, R, n, changed, undef, hR => by
    simp only [disaggregateElement, emittedLeaves]
    rw [disaggregateLoop_block a val vars pre S hpre hS inner path _ 0 R n changed [] hR]
    simp only [handleOperandChanges]
    split_ifs <;> rfl
  | .expr opcode ops, path, replaced, R, n, changed, undef, hR => by
    simp only [disaggregateElement, emittedLeaves, isDisaggregated, if_true]
    split_ifs
    · simp [emittedPairs]
    · rw [emitAfter_split a _ _ S pre R hpre hS hR]
      simp [emittedPairs, leafPair]
  | .globalVariable g, path, replaced, R, n, changed, undef, hR => by
    simp only [disaggregateElement, emittedLeaves]
    split_ifs
    · simp [emittedPairs]
    · rw [emitAfter_split a _ _ S pre R hpre hS hR]
      simp [emittedPairs, leafPair]
    · simp [emittedPairs]
  | .function f, path, replaced, R, n, changed, undef, hR => by
    simp only [disaggregateElement, emittedLeaves, isDisaggregated, Bool.false_eq_true,
      if_false]
    split_ifs <;> simp [emittedPairs]
  | .int w v, path, replaced, R, n, changed, undef, hR => by
    simp only [disaggregateElement, emittedLeaves, isDisaggregated, Bool.false_eq_true,
      if_false]
    split_ifs <;> simp [emittedPairs]
  | .undef, path, replaced, R, n, changed, undef, hR => by
    simp only [disaggregateElement, emittedLeaves, isDisaggregated, Bool.false_eq_true,
      if_false]
    split_ifs <;> simp [emittedPairs]
  | .poison, path, replaced, R, n, changed, undef, hR => by
    simp only [disaggregateElement, emittedLeaves, isDisaggregated, Bool.false_eq_true,
      if_false]
    split_ifs <;> simp [emittedPairs]
  | .data d, path, replaced, R, n, changed, undef, hR => by
    simp only [disaggregateElement, emittedLeaves, isDisaggregated, Bool.false_eq_true,
      if_false]
    split_ifs <;> simp [emittedPairs]
/-- What the loop does, from element `i` on. -/
theorem disaggregateLoop_block (a : Nat) (val : Value) (vars : List Nat)
    (pre : List Instruction) (S : Instruction) (hpre : ∀ i ∈ pre, i.id ≠ a) (hS : S.id = a) :
    ∀ (cs : List Constant) (path : List Nat) (replaced : List Constant) (i : Nat)
      (R : List Instruction) (n : Nat) (changed : List (Constant × List Constant))
      (undef : List Constant), R ≠ [] →
      disaggregateLoop a val vars ((0 :: path).map indexValue) replaced i cs
          ⟨pre ++ S :: R, n, changed⟩ undef =
        (⟨pre ++ S :: (emittedPairs val n
              (emittedLeavesList vars path replaced i cs changed undef).1 ++ R),
          n + 2 * (emittedLeavesList vars path replaced i cs changed undef).1.length,
          (emittedLeavesList vars path replaced i cs changed undef).2.1⟩,
          (emittedLeavesList vars path replaced i cs changed undef).2.2)
  | [], path, replaced, i, R, n, changed, undef, hR => by
    simp [disaggregateLoop, emittedLeavesList, emittedPairs]
  | c :: rest, path, replaced, i, R, n, changed, undef, hR => by
    simp only [disaggregateLoop, emittedLeavesList]
    rw [indexValue_path]
    rw [disaggregateElement_block a val vars pre S hpre hS c (path ++ [i]) replaced R n changed
      undef hR]
    have hR' : emittedPairs val n (emittedLeaves vars (path ++ [i]) replaced c changed undef).1
        ++ R ≠ [] := by
      simp [hR]
    rw [disaggregateLoop_block a val vars pre S hpre hS rest path replaced (i + 1) _ _ _ _ hR']
    rw [emittedPairs_append]
    simp only [List.append_assoc, List.length_append, Prod.mk.injEq, Emit.mk.injEq, true_and,
      and_true]
    omega
end

theorem emittedPairs_id_ge (val : Value) (n : Nat) (l : List (List Nat × Constant)) :
    ∀ i ∈ emittedPairs val n l, n ≤ i.id := by
  induction l generalizing n with
  | nil => simp [emittedPairs]
  | cons x xs ih =>
    intro i hi
    simp only [emittedPairs, List.mem_append] at hi
    rcases hi with hi | hi
    · have := ih (n + 2) i hi
      omega
    · simp only [leafPair, List.mem_cons, List.mem_singleton, List.not_mem_nil, or_false] at hi
      rcases hi with rfl | rfl <;> simp [Instruction.id]

theorem find?_append_store (inst : Nat) (S : Instruction) (pre R : List Instruction)
    (hpre : ∀ i ∈ pre, i.id ≠ inst) (hS : S.id = inst) :
    (pre ++ S :: R).find? (fun i => decide (i.id = inst)) = some S := by
  induction pre with
  | nil => simp [hS]
  | cons p pre ih =>
    have hp : p.id ≠ inst := hpre p (by simp)
    simp only [List.cons_append, List.find?_cons, hp, decide_False]
    exact ih (fun i hi => hpre i (by simp [hi]))

/-- C10 (failing input): `repeatedElementModule`, whose function `main` owns
`table`, an array of the two equal structures `{@buf, 5}`, and `buf`. The leaves
of the initialiser of `table` at the element paths `0, 0` and `1, 0` are
references to the tracked global `buf`, and `getGlobalUser` finds `main` for
both globals. `run` ends normally, and the entry block of `main` holds one
address computation and store for the initialiser, with the index list
`0, 0, 0`: no pair is emitted for the leaf at `1, 0`, whose place in the stored
aggregate is undef; the address of `buf` is stored to the first structure
only. -/
theorem run_repeated_element :
    (Constant.aggregate repeatedAggregate).elementAt [0, 0] = some (.globalVariable 7) ∧
      (Constant.aggregate repeatedAggregate).elementAt [1, 0] = some (.globalVariable 7) ∧
      isDisaggregated [8, 7] (.globalVariable 7) = true ∧
      repeatedElementModule.globals.map getGlobalUser = [.ok 1, .ok 1] ∧
      run plainLibrary repeatedElementProgram =
        .ok { functions := [⟨1, "main", false, false, false,
                [[.alloca 13 100 0 8 "table", .alloca 17 101 0 1 "buf",
                  .store 14 (.constant (.aggregate
                    [.aggregate [.undef, .int 32 5], .aggregate [.undef, .int 32 5]]))
                    (.instruction 13),
                  .getelementptr 15 true (.instruction 13)
                    [indexValue 0, indexValue 0, indexValue 0],
                  .store 16 (.instruction 17) (.instruction 15),
                  .other 10 5 [.instruction 13],
                  .other 11 6 [.instruction 17],
                  .other 12 1 []]]⟩],
              globals := [] } := by
  decide
/-! ## Theorems: `run` on the fixture -/

/-- C4 (counterexample): on the fixture, with a library table that knows
`printf`, `run` does not complete: it ends in the fatal error of the library
check of `inlineFunctions`, because the declared `printf` is a function of the
module, is pushed on the worklist like the others and so is in the removal
set. -/
theorem run_fixture_fatal :
    (schedule fixture).shouldBeRemoved = [1, 2, 3, 5] ∧
      run plainLibrary fixture =
        .fatal "Function printf is not available" (schedule fixture).module := by
  decide

/-- C4 (amended): on the fixture, for every library whose table knows `printf`
and none of `_strcpy`, `_strlen`, `_copier`, `run` ends in the fatal error
"Function printf is not available", raised by `inlineFunctions`; at that moment
the module has its five functions, each with its name and body, and its
globals: nothing has been inlined or erased, and `main` still holds its calls of
`_copier` and `printf`. -/
theorem run_fixture_fatal_of_printf (lib : Library)
    (hprintf : lib.getLibFunc "printf" = true)
    (hhelpers : lib.getLibFunc "_strcpy" = false ∧ lib.getLibFunc "_strlen" = false ∧
      lib.getLibFunc "_copier" = false) :
    run lib fixture = .fatal "Function printf is not available" (schedule fixture).module ∧
      (schedule fixture).module.functions.map (fun fn => (fn.id, fn.name, fn.blocks)) =
        fixture.module.functions.map (fun fn => (fn.id, fn.name, fn.blocks)) ∧
      (schedule fixture).module.globals = fixture.module.globals := by
  refine ⟨?_, schedule_module_frame fixture⟩
  have hrem : (schedule fixture).shouldBeRemoved = [1, 2, 3, 5] := by decide
  have h1 : (schedule fixture).module.getName 1 = "_strcpy" := by decide
  have h2 : (schedule fixture).module.getName 2 = "_strlen" := by decide
  have h3 : (schedule fixture).module.getName 3 = "_copier" := by decide
  have h5 : (schedule fixture).module.getName 5 = "printf" := by decide
  have hfind : findLibraryFunction lib (schedule fixture).module (schedule fixture).shouldBeRemoved
      = some "printf" := by
    rw [hrem]
    simp [findLibraryFunction, h1, h2, h3, h5, hprintf, hhelpers.1, hhelpers.2.1, hhelpers.2.2]
  unfold run inlineFunctions inlineScheduled
  rw [hfind]
  simp only [Outcome.fatal.injEq, and_true]
  decide

/-- C4 (witness): the library `plainLibrary`, which knows `printf` only. -/
theorem run_fixture_fatal_of_printf_witness :
    run plainLibrary fixture =
        .fatal "Function printf is not available" (schedule fixture).module ∧
      (schedule fixture).module.functions.map (fun fn => (fn.id, fn.name, fn.blocks)) =
        fixture.module.functions.map (fun fn => (fn.id, fn.name, fn.blocks)) ∧
      (schedule fixture).module.globals = fixture.module.globals :=
  run_fixture_fatal_of_printf plainLibrary (by decide) (by decide)
/-! ## Theorems: `inlineGlobalsIntoFunction` -/

theorem insertBefore_split (pos : Nat) (new x : Instruction) (pre post : List Instruction)
    (hpre : ∀ i ∈ pre, i.id ≠ pos) (hx : x.id = pos) :
    insertBefore pos new (pre ++ x :: post) = pre ++ new :: x :: post := by
  induction pre with
  | nil => simp [insertBefore, hx]
  | cons p pre ih =>
    have hp : p.id ≠ pos := hpre p (by simp)
    have ih' := ih (fun i hi => hpre i (by simp [hi]))
    show insertBefore pos new (p :: (pre ++ x :: post)) = p :: (pre ++ new :: x :: post)
    simp only [insertBefore, hp, if_false]
    exact congrArg (p :: ·) ih'

theorem mapOperands_id (F : Value → Value) (i : Instruction) : (i.mapOperands F).id = i.id := by
  cases i <;> rfl

theorem mapOperands_id_fun' (i : Instruction) : i.mapOperands (fun v => v) = i := by
  cases i <;> simp [Instruction.mapOperands]

theorem mapOperands_isAlloca (F : Value → Value) (i : Instruction) :
    (i.mapOperands F).isAlloca = i.isAlloca := by
  cases i <;> rfl

theorem mapOperands_of_isAlloca (F : Value → Value) (i : Instruction)
    (h : i.isAlloca = true) : i.mapOperands F = i := by
  cases i <;> first | rfl | simp [Instruction.isAlloca] at h

theorem mapOperands_mapOperands (F G : Value → Value) (i : Instruction) :
    (i.mapOperands F).mapOperands G = i.mapOperands (G ∘ F) := by
  cases i <;> simp [Instruction.mapOperands]

theorem operands_of_isAlloca (i : Instruction) (h : i.isAlloca = true) : i.operands = [] := by
  cases i <;> first | rfl | simp [Instruction.isAlloca] at h

theorem emittedPairs_id_lt (val : Value) (n : Nat) (l : List (List Nat × Constant)) :
    ∀ i ∈ emittedPairs val n l, i.id < n + 2 * l.length := by
  induction l generalizing n with
  | nil => simp [emittedPairs]
  | cons x xs ih =>
    intro i hi
    simp only [emittedPairs, List.mem_append] at hi
    simp only [List.length_cons]
    rcases hi with hi | hi
    · have := ih (n + 2) i hi
      omega
    · simp only [leafPair, List.mem_cons, List.mem_singleton, List.not_mem_nil, or_false] at hi
      rcases hi with rfl | rfl
      · simp only [Instruction.id]; omega
      · simp only [Instruction.id]; omega

theorem emittedPairs_not_alloca (val : Value) (n : Nat) (l : List (List Nat × Constant)) :
    ∀ i ∈ emittedPairs val n l, i.isAlloca = false := by
  induction l generalizing n with
  | nil => simp [emittedPairs]
  | cons x xs ih =>
    intro i hi
    simp only [emittedPairs, List.mem_append] at hi
    rcases hi with hi | hi
    · exact ih (n + 2) i hi
    · simp only [leafPair, List.mem_cons, List.mem_singleton, List.not_mem_nil, or_false] at hi
      rcases hi with rfl | rfl <;> rfl

theorem operandsChanged_nil (a : Constant) : operandsChanged [] a = [] := rfl

mutual
/-- Without changes a constant is read as it is. -/
theorem Constant.current_nil : ∀ c : Constant, c.current [] = c
  | .aggregate elems => by
    simp only [Constant.current, operandsChanged_nil]
    rw [Constant.currentList_nil elems]
  | .expr opcode ops => by
    simp only [Constant.current]
    rw [Constant.currentList_nil ops]
  | .globalVariable g => rfl
  | .function f => rfl
  | .int w v => rfl
  | .undef => rfl
  | .poison => rfl
  | .data d => rfl
theorem Constant.currentList_nil : ∀ cs : List Constant, Constant.currentList [] [] cs = cs
  | [] => rfl
  | c :: cs => by
    simp only [Constant.currentList, List.not_mem_nil, if_false]
    rw [Constant.current_nil c, Constant.currentList_nil cs]
end

theorem Value.current_of_nil (v : Value) : v.current [] = v := by
  cases v with
  | constant c => simp [Value.current, Constant.current_nil]
  | instruction x => rfl
  | argument n => rfl

theorem mapOperands_current_nil (l : List Instruction) :
    l.map (Instruction.mapOperands (Value.current [])) = l := by
  have : Value.current [] = fun v => v := funext Value.current_of_nil
  rw [this]
  induction l with
  | nil => rfl
  | cons x xs ih =>
    rw [List.map_cons, ih]
    congr 1
    cases x <;> simp [Instruction.mapOperands]

/-- The shape of the block after `extractValuesFromStore`, whatever the stored
constant: the store keeps its place; new instructions, none of them an
allocation, follow it; and every instruction has its constants as they are after
the changes. -/
theorem extractValuesFromStore_shape (inst : Nat) (vars : List Nat)
    (pre post : List Instruction) (c : Constant) (pointer : Value) (n : Nat)
    (hpre : ∀ i ∈ pre, i.id ≠ inst) (hne : post ≠ []) :
    ∃ (E : List Instruction) (n' : Nat) (changed : List (Constant × List Constant)),
      extractValuesFromStore inst vars
          ⟨pre ++ .store inst (.constant c) pointer :: post, n, []⟩ =
        ⟨(pre ++ .store inst (.constant c) pointer :: (E ++ post)).map
            (Instruction.mapOperands (Value.current changed)), n', changed⟩ ∧
      n ≤ n' ∧ (∀ i ∈ E, i.isAlloca = false) ∧ (∀ i ∈ E, n ≤ i.id ∧ i.id < n') := by
  have hfind := find?_append_store inst (.store inst (.constant c) pointer) pre post hpre rfl
  have hother : extractValuesFromStore inst vars
        ⟨pre ++ .store inst (.constant c) pointer :: post, n, []⟩ =
      ⟨pre ++ .store inst (.constant c) pointer :: post, n, []⟩ →
      ∃ (E : List Instruction) (n' : Nat) (changed : List (Constant × List Constant)),
        extractValuesFromStore inst vars
            ⟨pre ++ .store inst (.constant c) pointer :: post, n, []⟩ =
          ⟨(pre ++ .store inst (.constant c) pointer :: (E ++ post)).map
              (Instruction.mapOperands (Value.current changed)), n', changed⟩ ∧
        n ≤ n' ∧ (∀ i ∈ E, i.isAlloca = false) ∧ (∀ i ∈ E, n ≤ i.id ∧ i.id < n') := by
    intro h
    refine ⟨[], n, [], ?_, le_refl _, by simp, by simp⟩
    rw [h, mapOperands_current_nil, List.nil_append]
  cases c with
  | aggregate elems =>
    have hblock := disaggregateElement_block inst pointer vars pre
      (.store inst (.constant (.aggregate elems)) pointer) hpre rfl (.aggregate elems) [] []
      post n [] [] hne
    refine ⟨emittedPairs pointer n (emittedLeaves vars [] [] (.aggregate elems) [] []).1,
      n + 2 * (emittedLeaves vars [] [] (.aggregate elems) [] []).1.length,
      (emittedLeaves vars [] [] (.aggregate elems) [] []).2.1, ?_, by omega,
      emittedPairs_not_alloca _ _ _,
      fun i hi => ⟨emittedPairs_id_ge _ _ _ i hi, emittedPairs_id_lt _ _ _ i hi⟩⟩
    unfold extractValuesFromStore
    simp only
    rw [hfind]
    simp only [disaggregateVars]
    have hidx : [Value.constant (.int 32 0)] = (0 :: ([] : List Nat)).map indexValue := rfl
    rw [hidx, hblock]
  | expr o ops =>
    apply hother
    unfold extractValuesFromStore
    simp only [hfind]
  | globalVariable g =>
    apply hother
    unfold extractValuesFromStore
    simp only [hfind]
  | function g =>
    apply hother
    unfold extractValuesFromStore
    simp only [hfind]
  | int w v =>
    apply hother
    unfold extractValuesFromStore
    simp only [hfind]
  | undef =>
    apply hother
    unfold extractValuesFromStore
    simp only [hfind]
  | poison =>
    apply hother
    unfold extractValuesFromStore
    simp only [hfind]
  | data d =>
    apply hother
    unfold extractValuesFromStore
    simp only [hfind]

/-! ### Lists in order, with instructions in between -/

theorem sublistForall₂_prepend {α : Type} {R : α → Instruction → Prop}
    (A : List Instruction) (l : List α) (L : List Instruction)
    (h : List.SublistForall₂ R l L) : List.SublistForall₂ R l (A ++ L) := by
  induction A with
  | nil => exact h
  | cons a A ih => exact List.SublistForall₂.cons_right ih

theorem sublistForall₂_cons_split {α : Type} {R : α → Instruction → Prop}
    (a : α) (l : List α) (L : List Instruction) (h : List.SublistForall₂ R (a :: l) L) :
    ∃ A a' L2, L = A ++ a' :: L2 ∧ R a a' ∧ List.SublistForall₂ R l L2 := by
  induction L with
  | nil => cases h
  | cons b L ih =>
    cases h with
    | cons hr hrest => exact ⟨[], b, L, rfl, hr, hrest⟩
    | cons_right hrest =>
      obtain ⟨A, a', L2, hL, hr, h2⟩ := ih hrest
      exact ⟨b :: A, a', L2, by rw [hL]; rfl, hr, h2⟩

theorem sublistForall₂_append_split {α : Type} {R : α → Instruction → Prop}
    (l1 l2 : List α) :
    ∀ L : List Instruction, List.SublistForall₂ R (l1 ++ l2) L →
      ∃ L1 L2, L = L1 ++ L2 ∧ List.SublistForall₂ R l1 L1 ∧ List.SublistForall₂ R l2 L2 := by
  induction l1 with
  | nil => intro L h; exact ⟨[], L, rfl, List.SublistForall₂.nil, h⟩
  | cons a l1 ih =>
    intro L h
    obtain ⟨A, a', L2, hL, hr, h2⟩ := sublistForall₂_cons_split a (l1 ++ l2) L h
    obtain ⟨M1, M2, hM, hm1, hm2⟩ := ih L2 h2
    refine ⟨A ++ a' :: M1, M2, by rw [hL, hM]; simp, ?_, hm2⟩
    exact sublistForall₂_prepend A _ _ (List.SublistForall₂.cons hr hm1)

theorem sublistForall₂_map_right {α : Type} {R : α → Instruction → Prop}
    (h : Instruction → Instruction) (hR : ∀ x y, R x y → R x (h y))
    (l : List α) (L : List Instruction) (hl : List.SublistForall₂ R l L) :
    List.SublistForall₂ R l (L.map h) := by
  induction hl with
  | nil => exact List.SublistForall₂.nil
  | cons hr _ ih => exact List.SublistForall₂.cons (hR _ _ hr) ih
  | cons_right _ ih => exact List.SublistForall₂.cons_right ih

theorem sublistForall₂_append_right {α : Type} {R : α → Instruction → Prop}
    (l : List α) (L B : List Instruction) (hl : List.SublistForall₂ R l L) :
    List.SublistForall₂ R l (L ++ B) := by
  induction hl with
  | nil => exact List.SublistForall₂.nil
  | cons hr _ ih => exact List.SublistForall₂.cons hr ih
  | cons_right _ ih => exact List.SublistForall₂.cons_right ih

/-- A list in order in `L`, and `L` in order in `L2` with its instructions
changed: the list is in order in `L2`. -/
theorem sublistForall₂_comp {α : Type} {R T : α → Instruction → Prop}
    {Q : Instruction → Instruction → Prop} (hRQ : ∀ x y z, R x y → Q y z → T x z)
    (l : List α) (L L2 : List Instruction) (h1 : List.SublistForall₂ R l L)
    (h2 : List.SublistForall₂ Q L L2) : List.SublistForall₂ T l L2 := by
  induction h2 generalizing l with
  | nil =>
    cases h1
    exact List.SublistForall₂.nil
  | @cons y z L L2 hq _ ih =>
    cases h1 with
    | nil => exact List.SublistForall₂.nil
    | cons hr hrest => exact List.SublistForall₂.cons (hRQ _ _ _ hr hq) (ih _ hrest)
    | cons_right hrest => exact List.SublistForall₂.cons_right (ih _ hrest)
  | cons_right _ ih => exact List.SublistForall₂.cons_right (ih _ h1)

theorem sublistForall₂_mem {α : Type} {R : α → Instruction → Prop} (l : List α)
    (L : List Instruction) (h : List.SublistForall₂ R l L) : ∀ x ∈ l, ∃ x' ∈ L, R x x' := by
  induction h with
  | nil => intro x hx; simp at hx
  | cons hr _ ih =>
    intro x hx
    rcases List.mem_cons.1 hx with rfl | hx
    · exact ⟨_, by simp, hr⟩
    · obtain ⟨x', hx', hR⟩ := ih x hx
      exact ⟨x', List.mem_cons_of_mem _ hx', hR⟩
  | cons_right _ ih =>
    intro x hx
    obtain ⟨x', hx', hR⟩ := ih x hx
    exact ⟨x', List.mem_cons_of_mem _ hx', hR⟩

theorem mapVectorSet_of_not_mem (key value : Nat) (l : List (Nat × Nat))
    (h : key ∉ l.map Prod.fst) : mapVectorSet key value l = l ++ [(key, value)] := by
  induction l with
  | nil => rfl
  | cons p l ih =>
    obtain ⟨k, v⟩ := p
    have hk : k ≠ key := fun e => h (by simp [e])
    have hl : key ∉ l.map Prod.fst := fun e => h (by simp [e])
    simp only [mapVectorSet, hk, if_false, List.cons_append, ih hl]

theorem find?_updateGlobal_of_ne (g h : Nat) (change : GlobalVariable → GlobalVariable)
    (hid : ∀ gv, (change gv).id = gv.id) (gvs : List GlobalVariable) (hne : h ≠ g) :
    (updateGlobal g change gvs).find? (fun gv => decide (gv.id = h)) =
      gvs.find? (fun gv => decide (gv.id = h)) := by
  induction gvs with
  | nil => rfl
  | cons x xs ih =>
    simp only [updateGlobal, List.map_cons, List.find?_cons] at ih ⊢
    by_cases hx : x.id = g
    · have hxh : x.id ≠ h := fun e => hne (e.symm.trans hx)
      have hgh : g ≠ h := fun e => hne e.symm
      simp only [hx, if_true, hid, hgh, decide_False]
      exact ih
    · simp only [hx, if_false]
      cases hd : decide (x.id = h)
      · exact ih
      · rfl

theorem updateGlobal_ids (g : Nat) (change : GlobalVariable → GlobalVariable)
    (hid : ∀ gv, (change gv).id = gv.id) (gvs : List GlobalVariable) :
    (updateGlobal g change gvs).map (·.id) = gvs.map (·.id) := by
  simp only [updateGlobal, List.map_map]
  apply List.map_congr_left
  intro gv _
  simp only [Function.comp]
  split_ifs
  · exact hid gv
  · rfl

theorem allocaFor_id (m : Module) (g id : Nat) : (m.allocaFor g id).id = id := by
  unfold Module.allocaFor
  cases m.globals.find? (fun gv => decide (gv.id = g)) <;> rfl

theorem allocaFor_isAlloca (m : Module) (g id : Nat) : (m.allocaFor g id).isAlloca = true := by
  unfold Module.allocaFor
  cases m.globals.find? (fun gv => decide (gv.id = g)) <;> rfl

theorem zip_append_singleton (done ids : List Nat) (g a : Nat) (h : ids.length = done.length) :
    (done ++ [g]).zip (ids ++ [a]) = done.zip ids ++ [(g, a)] := by
  rw [List.zip_append h.symm]
  rfl

theorem mem_allocas_id (m : Module) (done ids : List Nat) (i : Instruction)
    (hi : i ∈ (done.zip ids).map (fun p => m.allocaFor p.1 p.2)) : i.id ∈ ids := by
  rw [List.mem_map] at hi
  obtain ⟨p, hp, rfl⟩ := hi
  rw [allocaFor_id]
  exact (List.of_mem_zip hp).2

theorem keys_zip (done ids : List Nat) (g : Nat) (hg : g ∉ done) :
    g ∉ (done.zip ids).map Prod.fst := by
  intro h
  rw [List.mem_map] at h
  obtain ⟨p, hp, rfl⟩ := h
  exact hg (List.of_mem_zip hp).1

theorem Value.currentAll_append (cs : List (List (Constant × List Constant)))
    (ch : List (Constant × List Constant)) (v : Value) :
    Value.currentAll (cs ++ [ch]) v = Value.current ch (Value.currentAll cs v) := by
  simp [Value.currentAll, List.foldl_append]

theorem Value.currentAll_instruction (cs : List (List (Constant × List Constant))) (x : Nat) :
    Value.currentAll cs (.instruction x) = .instruction x := by
  induction cs with
  | nil => rfl
  | cons c cs ih => simpa [Value.currentAll, Value.current] using ih

theorem Value.currentAll_int (cs : List (List (Constant × List Constant))) (w v : Nat) :
    Value.currentAll cs (.constant (.int w v)) = .constant (.int w v) := by
  induction cs with
  | nil => rfl
  | cons c cs ih => simpa [Value.currentAll, Value.current, Constant.current] using ih

theorem foldl_current_globalVariable (cs : List (List (Constant × List Constant))) (g : Nat) :
    cs.foldl (fun c changed => Constant.current changed c) (.globalVariable g) =
      .globalVariable g := by
  induction cs with
  | nil => rfl
  | cons c cs ih => simpa [Constant.current] using ih

theorem map_mapOperands_allocas (m : Module) (F : Value → Value) (l : List (Nat × Nat)) :
    (l.map (fun p => m.allocaFor p.1 p.2)).map (Instruction.mapOperands F) =
      l.map (fun p => m.allocaFor p.1 p.2) := by
  rw [List.map_map]
  apply List.map_congr_left
  intro p _
  exact mapOperands_of_isAlloca F _ (allocaFor_isAlloca m p.1 p.2)

theorem isInitializerStore_current (m : Module) (ch : List (Constant × List Constant))
    (p : Nat × Nat) (i : Instruction) (h : IsInitializerStore m p i) :
    IsInitializerStore m p (i.mapOperands (Value.current ch)) := by
  obtain ⟨c', rfl, hc⟩ := h
  refine ⟨c'.current ch, rfl, ?_⟩
  intro g hg
  rw [hc g hg]
  rfl

/-- One global more: the first loop keeps `AllocInv`. -/
theorem allocateGlobal_inv (m : Module) (orig : List Instruction) (vars done ids : List Nat)
    (chunk : List Instruction) (st : GlobalsState) (g : Nat) (gv : GlobalVariable)
    (hinv : AllocInv m orig done ids chunk st) (hg : g ∉ done)
    (hfound : m.globals.find? (fun x => x.id = g) = some gv) (horig : orig ≠ []) :
    ∃ chunk', AllocInv m orig (done ++ [g]) (ids ++ [st.next]) chunk'
        (allocateGlobal vars st g) ∧
      st.next ≤ (allocateGlobal vars st g).next := by
  have hfind : st.globals.find? (fun x => decide (x.id = g)) =
      some { gv with initializer := gv.initializer.map (fun c =>
        st.changed.foldl (fun c changed => c.current changed) c) } := by
    rw [hinv.globals g hg, hfound]
    rfl
  have halloc : Instruction.alloca st.next gv.valueType gv.addressSpace (gv.align.getD 1) gv.name
      = m.allocaFor g st.next := by
    unfold Module.allocaFor
    rw [hfound]
  have horigV : orig.map (Instruction.mapOperands (Value.currentAll st.changed)) ≠ [] := by
    simpa using horig
  obtain ⟨x, post, htail⟩ : ∃ x post,
      chunk ++ orig.map (Instruction.mapOperands (Value.currentAll st.changed)) = x :: post := by
    cases hco : chunk ++ orig.map (Instruction.mapOperands (Value.currentAll st.changed)) with
    | nil => simp [horig] at hco
    | cons x post => exact ⟨x, post, rfl⟩
  have hx : x.id = st.insertion_point := by
    have := hinv.point
    rw [htail] at this
    simpa using this
  have hmem_tail : ∀ i ∈ x :: post, ∃ i0 ∈ chunk ++ orig, i0.id = i.id := by
    intro i hi
    rw [← htail] at hi
    rcases List.mem_append.1 hi with h | h
    · exact ⟨i, List.mem_append_left _ h, rfl⟩
    · obtain ⟨i0, hi0, rfl⟩ := List.mem_map.1 h
      exact ⟨i0, List.mem_append_right _ hi0, (mapOperands_id _ _).symm⟩
  have htail_lt : ∀ i ∈ x :: post, i.id < st.next := by
    intro i hi
    obtain ⟨i0, hi0, hid⟩ := hmem_tail i hi
    rw [← hid]
    rcases List.mem_append.1 hi0 with h | h
    · exact hinv.chunk_lt i0 h
    · exact hinv.orig_lt i0 h
  have hpoint_lt : st.insertion_point < st.next := hx ▸ htail_lt x (by simp)
  have hallocs_ne : ∀ i ∈ (done.zip ids).map (fun p => m.allocaFor p.1 p.2),
      i.id ≠ st.insertion_point := by
    intro i hi heq
    have hmem := mem_allocas_id m done ids i hi
    obtain ⟨i0, hi0, hid⟩ := hmem_tail x (by simp)
    exact hinv.ids_ne _ hmem i0 hi0 (hid.trans (hx.trans heq.symm))
  have hallocs_lt : ∀ i ∈ (done.zip ids).map (fun p => m.allocaFor p.1 p.2),
      i.id < st.next := fun i hi => hinv.ids_lt _ (mem_allocas_id m done ids i hi)
  have hentry1 : insertBefore st.insertion_point (m.allocaFor g st.next) st.entry =
      ((done ++ [g]).zip (ids ++ [st.next])).map (fun p => m.allocaFor p.1 p.2) ++ x :: post := by
    rw [hinv.entry, htail, insertBefore_split _ _ x _ post hallocs_ne hx,
      zip_append_singleton done ids g st.next hinv.length]
    simp
  have hmap : mapVectorSet g st.next st.global_to_instruction =
      (done ++ [g]).zip (ids ++ [st.next]) := by
    rw [hinv.map, mapVectorSet_of_not_mem _ _ _ (keys_zip done ids g hg),
      zip_append_singleton done ids g st.next hinv.length]
  have hsorted : (ids ++ [st.next]).Sorted (· < ·) := by
    rw [List.Sorted, List.pairwise_append]
    refine ⟨hinv.ids_sorted, List.pairwise_singleton _ _, ?_⟩
    intro a ha b hb
    rw [List.mem_singleton.1 hb]
    exact hinv.ids_lt a ha
  have hidsne : ∀ a ∈ ids ++ [st.next], ∀ i ∈ chunk ++ orig, i.id ≠ a := by
    intro a ha i hi
    rcases List.mem_append.1 ha with h | h
    · exact hinv.ids_ne a h i hi
    · rw [List.mem_singleton.1 h]
      have : i.id < st.next := by
        rcases List.mem_append.1 hi with h | h
        · exact hinv.chunk_lt i h
        · exact hinv.orig_lt i h
      omega
  have hfilter : ∀ b : Bool,
      ((m.globals.find? (fun gv => decide (gv.id = g))).bind
        (fun gv => gv.initializer)).isSome = b →
      (((done ++ [g]).zip (ids ++ [st.next])).filter (fun p =>
        ((m.globals.find? (fun gv => decide (gv.id = p.1))).bind
          (fun gv => gv.initializer)).isSome)).reverse =
      (if b then [(g, st.next)] else []) ++
        ((done.zip ids).filter (fun p =>
          ((m.globals.find? (fun gv => decide (gv.id = p.1))).bind
            (fun gv => gv.initializer)).isSome)).reverse := by
    intro b hb
    rw [zip_append_singleton done ids g st.next hinv.length, List.filter_append,
      List.reverse_append]
    congr 1
    cases b <;> simp [List.filter, hb]
  have hglobals1 : ∀ (change : GlobalVariable → GlobalVariable)
      (_ : ∀ y, (change y).id = y.id) (gvs : List GlobalVariable) (h : Nat),
      h ∉ done ++ [g] →
      (updateGlobal g change gvs).find? (fun y => decide (y.id = h)) =
        gvs.find? (fun y => decide (y.id = h)) := by
    intro change hid gvs h hh
    have hne : h ≠ g := fun e => hh (by simp [e])
    rw [find?_updateGlobal_of_ne g h change hid gvs hne]
  unfold allocateGlobal
  simp only [hfind, halloc]
  cases hinit : gv.initializer with
  | none =>
    simp only [Option.map_none']
    refine ⟨chunk, ⟨?_, ?_, ?_, ?_, ?_, ?_, ?_, ?_, ?_, ?_, ?_, ?_, ?_, ?_⟩, ?_⟩
    · show insertBefore st.insertion_point (m.allocaFor g st.next) st.entry = _
      rw [hentry1, htail]
    · simp [hinv.length]
    · exact hmap
    · intro a ha
      show a < st.next + 1
      rcases List.mem_append.1 ha with h | h
      · have := hinv.ids_lt a h; omega
      · rw [List.mem_singleton.1 h]; omega
    · exact hsorted
    · intro i hi
      show i.id < st.next + 1
      have := hinv.chunk_lt i hi; omega
    · exact hinv.chunk_alloca
    · exact hinv.chunk_new
    · intro i hi
      show i.id < st.next + 1
      have := hinv.orig_lt i hi; omega
    · exact hinv.point
    · exact hidsne
    · intro h hh
      show (updateGlobal g _ st.globals).find? _ = _
      rw [hglobals1 (fun gv => { gv with name := "" }) (fun _ => rfl) st.globals h hh]
      exact hinv.globals h (fun e => hh (by simp [e]))
    · exact (updateGlobal_ids g (fun gv => { gv with name := "" }) (fun _ => rfl)
        st.globals).trans hinv.global_ids
    · rw [hfilter false (by rw [hfound]; simp [hinit])]
      exact hinv.stores
    · show st.next ≤ st.next + 1
      omega
  | some c0 =>
    simp only [Option.map_some']
    have hpre2 : ∀ i ∈ ((done ++ [g]).zip (ids ++ [st.next])).map
        (fun p => m.allocaFor p.1 p.2), i.id ≠ st.insertion_point ∧ i.id < st.next + 1 := by
      intro i hi
      rw [zip_append_singleton done ids g st.next hinv.length, List.map_append] at hi
      rcases List.mem_append.1 hi with h | h
      · exact ⟨hallocs_ne i h, by have := hallocs_lt i h; omega⟩
      · simp only [List.map_cons, List.map_nil, List.mem_singleton] at h
        rw [h, allocaFor_id]
        exact ⟨by omega, by omega⟩
    generalize hgi : st.changed.foldl (fun c changed => Constant.current changed c) c0 =
      global_init
    have hentry2 : insertBefore st.insertion_point
        (.store (st.next + 1) (.constant global_init) (.instruction st.next))
        (insertBefore st.insertion_point (m.allocaFor g st.next) st.entry) =
        ((done ++ [g]).zip (ids ++ [st.next])).map (fun p => m.allocaFor p.1 p.2) ++
          .store (st.next + 1) (.constant global_init) (.instruction st.next) :: x :: post := by
      rw [hentry1, insertBefore_split _ _ x _ post (fun i hi => (hpre2 i hi).1) hx]
    obtain ⟨E, n', ch, hext, hn', hEa, hEl⟩ := extractValuesFromStore_shape (st.next + 1) vars
      (((done ++ [g]).zip (ids ++ [st.next])).map (fun p => m.allocaFor p.1 p.2)) (x :: post)
      global_init (.instruction st.next) (st.next + 2)
      (fun i hi => by have := (hpre2 i hi).2; omega) (by simp)
    simp only [hentry2, hext]
    refine ⟨(.store (st.next + 1) (.constant global_init) (.instruction st.next) ::
        (E ++ chunk)).map (Instruction.mapOperands (Value.current ch)),
      ⟨?_, ?_, ?_, ?_, ?_, ?_, ?_, ?_, ?_, ?_, ?_, ?_, ?_, ?_⟩, ?_⟩
    · show List.map _ _ = _
      rw [List.map_append, map_mapOperands_allocas, ← htail]
      congr 1
      simp only [List.map_cons, List.map_append, List.cons_append, List.append_assoc,
        List.map_map]
      congr 3
      apply List.map_congr_left
      intro i _
      simp only [Function.comp, mapOperands_mapOperands]
      congr 1
      funext v
      exact (Value.currentAll_append st.changed ch v).symm
    · simp [hinv.length]
    · exact hmap
    · intro a ha
      show a < n'
      rcases List.mem_append.1 ha with h | h
      · have := hinv.ids_lt a h; omega
      · rw [List.mem_singleton.1 h]; omega
    · exact hsorted
    · intro i hi
      show i.id < n'
      obtain ⟨i0, hi0, rfl⟩ := List.mem_map.1 hi
      rw [mapOperands_id]
      rcases List.mem_cons.1 hi0 with h | h
      · rw [h]; simp only [Instruction.id]; omega
      · rcases List.mem_append.1 h with h | h
        · exact (hEl i0 h).2
        · have := hinv.chunk_lt i0 h; omega
    · intro i hi
      obtain ⟨i0, hi0, rfl⟩ := List.mem_map.1 hi
      rw [mapOperands_isAlloca]
      rcases List.mem_cons.1 hi0 with h | h
      · rw [h]; rfl
      · rcases List.mem_append.1 h with h | h
        · exact hEa i0 h
        · exact hinv.chunk_alloca i0 h
    · intro i hi o ho
      obtain ⟨i0, hi0, rfl⟩ := List.mem_map.1 hi
      rw [mapOperands_id]
      have hlt := hinv.orig_lt o ho
      rcases List.mem_cons.1 hi0 with h | h
      · rw [h]
        show o.id < st.next + 1
        omega
      · rcases List.mem_append.1 h with h | h
        · have := (hEl i0 h).1; omega
        · exact hinv.chunk_new i0 h o ho
    · intro i hi
      show i.id < n'
      have := hinv.orig_lt i hi; omega
    · simp [Instruction.id, Instruction.mapOperands]
    · intro a ha i hi
      rcases List.mem_append.1 hi with hc | ho
      · obtain ⟨i0, hi0, rfl⟩ := List.mem_map.1 hc
        rw [mapOperands_id]
        have ha' : a < st.next + 1 := by
          rcases List.mem_append.1 ha with h | h
          · have := hinv.ids_lt a h; omega
          · rw [List.mem_singleton.1 h]; omega
        rcases List.mem_cons.1 hi0 with h | h
        · rw [h]; simp only [Instruction.id]; omega
        · rcases List.mem_append.1 h with h | h
          · have := (hEl i0 h).1; omega
          · exact hidsne a ha i0 (List.mem_append_left _ h)
      · exact hidsne a ha i (List.mem_append_right _ ho)
    · intro h hh
      show (List.map (GlobalVariable.current ch) _).find? _ = _
      rw [List.find?_map]
      have hcomp : ((fun gv : GlobalVariable => decide (gv.id = h)) ∘ GlobalVariable.current ch) =
          fun gv => decide (gv.id = h) := rfl
      rw [hcomp, hglobals1 (fun gv => { gv with initializer := none }) (fun _ => rfl) _ h hh,
        hglobals1 (fun gv => { gv with name := "" }) (fun _ => rfl) st.globals h hh,
        hinv.globals h (fun e => hh (by simp [e]))]
      cases m.globals.find? (fun gv => decide (gv.id = h)) with
      | none => rfl
      | some gv' =>
        simp only [Option.map_some', GlobalVariable.current, Option.map_map, List.foldl_append,
          List.foldl_cons, List.foldl_nil]
        rfl
    · show (List.map (GlobalVariable.current ch) _).map _ = _
      rw [List.map_map]
      have hcomp : ((fun gv : GlobalVariable => gv.id) ∘ GlobalVariable.current ch) =
          fun gv => gv.id := rfl
      rw [hcomp]
      exact ((updateGlobal_ids g (fun gv => { gv with initializer := none }) (fun _ => rfl)
        _).trans (updateGlobal_ids g (fun gv => { gv with name := "" }) (fun _ => rfl)
        st.globals)).trans hinv.global_ids
    · rw [hfilter true (by rw [hfound]; simp [hinit])]
      simp only [if_true, List.singleton_append, List.map_cons, List.map_append]
      refine List.SublistForall₂.cons ?_ (sublistForall₂_prepend _ _ _
        (sublistForall₂_map_right _ (isInitializerStore_current m ch) _ _ hinv.stores))
      refine ⟨global_init.current ch, rfl, ?_⟩
      intro h hh
      rw [hfound] at hh
      have hh' : gv.initializer = some (.globalVariable h) := hh
      rw [hinit, Option.some.injEq] at hh'
      rw [← hgi, hh', foldl_current_globalVariable]
      rfl
    · show st.next ≤ n'
      omega

theorem foldl_allocateGlobal_inv (m : Module) (orig : List Instruction) (vars : List Nat)
    (horig : orig ≠ []) :
    ∀ (gs done ids : List Nat) (chunk : List Instruction) (st : GlobalsState),
      AllocInv m orig done ids chunk st → (done ++ gs).Nodup →
      (∀ g ∈ gs, ∃ gv, m.globals.find? (fun x => x.id = g) = some gv) →
      ∃ ids' chunk', AllocInv m orig (done ++ gs) ids' chunk'
          (gs.foldl (allocateGlobal vars) st) ∧
        (∀ a ∈ ids', a ∈ ids ∨ st.next ≤ a) := by
  intro gs
  induction gs with
  | nil =>
    intro done ids chunk st hinv _ _
    exact ⟨ids, chunk, by simpa using hinv, fun a ha => Or.inl ha⟩
  | cons g gs ih =>
    intro done ids chunk st hinv hnd hfound
    have hg : g ∉ done := by
      intro h
      exact (List.disjoint_of_nodup_append hnd h) (by simp)
    obtain ⟨gv, hgv⟩ := hfound g (by simp)
    obtain ⟨chunk1, hinv1, hnext1⟩ :=
      allocateGlobal_inv m orig vars done ids chunk st g gv hinv hg hgv horig
    have hnd1 : ((done ++ [g]) ++ gs).Nodup := by simpa using hnd
    obtain ⟨ids', chunk', hinv', hids'⟩ :=
      ih (done ++ [g]) (ids ++ [st.next]) chunk1 _ hinv1 hnd1
        (fun h hh => hfound h (by simp [hh]))
    refine ⟨ids', chunk', by simpa using hinv', ?_⟩
    intro a ha
    rcases hids' a ha with h | h
    · rcases List.mem_append.1 h with h | h
      · exact Or.inl h
      · rw [List.mem_singleton.1 h]; exact Or.inr (le_refl _)
    · exact Or.inr (by omega)

/-- The first loop of `inlineGlobalsIntoFunction`: the entry block gets one
allocation for each global, in front, then the initialiser stores and what
disaggregation added, then the block as it was. -/
theorem allocateGlobals_spec (m : Module) (globals : List Nat) (e0 : Instruction)
    (rest : List Instruction) (next : Nat) (hnd : globals.Nodup)
    (hfound : ∀ g ∈ globals, ∃ gv, m.globals.find? (fun x => x.id = g) = some gv)
    (hfresh : ∀ i ∈ e0 :: rest, i.id < next) :
    ∃ ids chunk, AllocInv m (e0 :: rest) globals ids chunk
        (allocateGlobals globals (e0 :: rest) e0.id m.globals next) ∧
      (∀ a ∈ ids, next ≤ a) := by
  have hinit : AllocInv m (e0 :: rest) [] [] []
      ⟨e0 :: rest, next, e0.id, [], m.globals, []⟩ := by
    refine ⟨?_, rfl, rfl, by simp, List.sorted_nil, by simp, by simp, by simp, hfresh, ?_,
      by simp, ?_, rfl, ?_⟩
    · have hid : (e0 :: rest).map (Instruction.mapOperands (Value.currentAll [])) =
          e0 :: rest :=
        (List.map_congr_left (fun i _ => mapOperands_id_fun' i)).trans (List.map_id _)
      simp only [List.zip_nil_left, List.map_nil, List.nil_append]
      exact hid.symm
    · simp [mapOperands_id]
    · intro g _
      cases m.globals.find? (fun gv => decide (gv.id = g)) with
      | none => rfl
      | some gv =>
        cases gv with
        | mk id name vt asp al init users => cases init <;> rfl
    · simp only [List.zip_nil_left, List.filter_nil, List.reverse_nil]
      exact List.SublistForall₂.nil
  obtain ⟨ids, chunk, hinv, hids⟩ :=
    foldl_allocateGlobal_inv m (e0 :: rest) globals (by simp)
      globals [] [] [] _ hinit (by simpa using hnd) hfound
  refine ⟨ids, chunk, by simpa [allocateGlobals] using hinv, ?_⟩
  intro a ha
  rcases hids a ha with h | h
  · simp at h
  · exact h

/-! ### The second loop: uses of the globals -/

theorem constantExprUses_spec (g : Nat) (i : Instruction) :
    ∀ u ∈ constantExprUses g i, ∃ opcode ops, u = .expr opcode ops ∧
      Constant.globalVariable g ∈ ops := by
  intro u hu
  unfold constantExprUses at hu
  rw [List.mem_filterMap] at hu
  obtain ⟨v, -, hv⟩ := hu
  cases v with
  | constant c =>
    cases c with
    | expr opcode ops =>
      simp only at hv
      split_ifs at hv with h
      · simp only [Option.some.injEq] at hv
        exact ⟨opcode, ops, hv.symm, h⟩
    | aggregate _ => simp at hv
    | globalVariable _ => simp at hv
    | function _ => simp at hv
    | int _ _ => simp at hv
    | undef => simp at hv
    | poison => simp at hv
    | data _ => simp at hv
  | instruction _ => simp at hv
  | argument _ => simp at hv

/-- What `materializeUses` does to the instruction: an operand is changed only
when it is one of the expressions `us`. -/
theorem materializeUses_instr (us : List Constant) (i : Instruction) (n : Nat) :
    ∃ F : Value → Value, (materializeUses us i n).2.1 = i.mapOperands F ∧
      (∀ v, (∀ u ∈ us, v ≠ .constant u) → F v = v) := by
  induction us generalizing i n with
  | nil =>
    refine ⟨id, ?_, fun _ _ => rfl⟩
    cases i <;> simp [materializeUses, Instruction.mapOperands]
  | cons u us ih =>
    obtain ⟨F, hF, hfix⟩ := ih
      (i.mapOperands (fun v => if v = .constant u then .instruction n else v)) (n + 1)
    refine ⟨F ∘ (fun v => if v = .constant u then .instruction n else v), ?_, ?_⟩
    · simp only [materializeUses]
      rw [hF, mapOperands_mapOperands]
    · intro v hv
      have h1 : v ≠ .constant u := hv u (by simp)
      simp only [Function.comp, h1, if_false]
      exact hfix v (fun u' hu' => hv u' (by simp [hu']))

theorem materializeUses_new (us : List Constant) (i : Instruction) (n : Nat) :
    ∀ j ∈ (materializeUses us i n).1, j.isAlloca = false := by
  induction us generalizing i n with
  | nil => simp [materializeUses]
  | cons u us ih =>
    intro j hj
    simp only [materializeUses, List.mem_cons] at hj
    rcases hj with rfl | hj
    · cases u <;> rfl
    · exact ih _ _ j hj

/-- `materializeUses` for the global `g` leaves every operand that is not a
constant expression with `g` as an operand. -/
theorem materialize_fix (g : Nat) (i : Instruction) (n : Nat) :
    ∃ F : Value → Value,
      (materializeUses (constantExprUses g i) i n).2.1 = i.mapOperands F ∧
      (∀ v, (∀ opcode ops, v = Value.constant (.expr opcode ops) →
        Constant.globalVariable g ∉ ops) → F v = v) := by
  obtain ⟨F, hF, hfix⟩ := materializeUses_instr (constantExprUses g i) i n
  refine ⟨F, hF, ?_⟩
  intro v hv
  apply hfix
  intro u hu heq
  obtain ⟨opcode, ops, rfl, hmem⟩ := constantExprUses_spec g i u hu
  exact hv opcode ops heq hmem

theorem materializeBlock_allocas (g : Nat) (allocs tail : List Instruction) (n : Nat)
    (h : ∀ a ∈ allocs, a.isAlloca = true) :
    materializeBlock g (allocs ++ tail) n =
      (allocs ++ (materializeBlock g tail n).1, (materializeBlock g tail n).2) := by
  induction allocs with
  | nil => simp
  | cons a allocs ih =>
    have ha : a.isAlloca = true := h a (by simp)
    have hus : constantExprUses g a = [] := by
      simp [constantExprUses, operands_of_isAlloca a ha]
    have ih' := ih (fun x hx => h x (by simp [hx]))
    show materializeBlock g (a :: (allocs ++ tail)) n = _
    simp only [materializeBlock, hus, materializeUses, ih', List.nil_append, List.cons_append]

theorem materializeBlock_filter (g : Nat) (bb : List Instruction) (n : Nat) :
    (materializeBlock g bb n).1.filter Instruction.isAlloca = bb.filter Instruction.isAlloca := by
  induction bb generalizing n with
  | nil => rfl
  | cons b bb ih =>
    simp only [materializeBlock, List.filter_append]
    have hnew : (materializeUses (constantExprUses g b) b n).1.filter Instruction.isAlloca
        = [] := by
      rw [List.filter_eq_nil_iff]
      intro j hj
      simp [materializeUses_new _ _ _ j hj]
    rw [hnew, List.nil_append]
    obtain ⟨F, hF, -⟩ := materializeUses_instr (constantExprUses g b) b n
    rw [hF]
    simp only [List.filter_cons, mapOperands_isAlloca, ih]
    split_ifs with hb
    · rw [mapOperands_of_isAlloca F b hb]
    · rfl

theorem convertBlock_allocas (m : Module) (g alloc : Nat) (done ids : List Nat)
    (tail : List Instruction) (n : Nat) :
    convertBlock g alloc ((done.zip ids).map (fun p => m.allocaFor p.1 p.2) ++ tail) n =
      (done.zip ids).map (fun p => m.allocaFor p.1 p.2) ++ convertBlock g alloc tail n := by
  have hall : ∀ a ∈ (done.zip ids).map (fun p => m.allocaFor p.1 p.2), a.isAlloca = true := by
    intro a ha
    rw [List.mem_map] at ha
    obtain ⟨p, -, rfl⟩ := ha
    exact allocaFor_isAlloca m _ _
  unfold convertBlock
  rw [materializeBlock_allocas g _ tail n hall]
  simp only [List.map_append]
  congr 1
  conv_rhs => rw [← List.map_id ((done.zip ids).map (fun p => m.allocaFor p.1 p.2))]
  apply List.map_congr_left
  intro a ha
  exact mapOperands_of_isAlloca _ a (hall a ha)

theorem convertBlock_filter (g alloc : Nat) (bb : List Instruction) (n : Nat) :
    (convertBlock g alloc bb n).filter Instruction.isAlloca = bb.filter Instruction.isAlloca := by
  unfold convertBlock
  rw [← materializeBlock_filter g bb n]
  generalize (materializeBlock g bb n).1 = l
  induction l with
  | nil => rfl
  | cons x xs ih =>
    simp only [List.map_cons, List.filter_cons, mapOperands_isAlloca, ih]
    split_ifs with hx
    · rw [mapOperands_of_isAlloca _ x hx]
    · rfl

theorem materializeFunctions_entry (g a f : Nat) :
    ∀ (fs : List Function) (n : Nat) (bb : List Instruction),
      (match fs.find? (fun fn => decide (fn.id = f)) with
        | some fn => fn.blocks.head?
        | none => none) = some bb →
      ∃ n', (match ((materializeFunctions g fs n).1.map (fun fn : Function =>
            { fn with blocks := fn.blocks.map (fun bb : List Instruction =>
                bb.map (Instruction.mapOperands (Value.replaceGlobal g a))) })).find?
            (fun fn => decide (fn.id = f)) with
        | some fn => fn.blocks.head?
        | none => none) = some (convertBlock g a bb n') := by
  intro fs
  induction fs with
  | nil => intro n bb h; simp at h
  | cons fn fs ih =>
    intro n bb h
    simp only [materializeFunctions, List.map_cons, List.find?_cons] at h ⊢
    by_cases hf : fn.id = f
    · simp only [hf, decide_True] at h ⊢
      cases hb : fn.blocks with
      | nil => rw [hb] at h; simp at h
      | cons b bs =>
        rw [hb] at h
        simp only [List.head?_cons, Option.some.injEq] at h
        subst h
        exact ⟨n, by simp [materializeBlocks, convertBlock]⟩
    · simp only [hf, decide_False] at h ⊢
      exact ih _ bb h

theorem convertGlobal_entry (m : Module) (n g a f : Nat) (bb : List Instruction)
    (h : m.entryBlock f = some bb) :
    ∃ n', (convertGlobal (m, n) (g, a)).1.entryBlock f = some (convertBlock g a bb n') :=
  materializeFunctions_entry g a f m.functions n bb h

theorem foldl_convertGlobal_entry (mod : Module) (done ids : List Nat) (f : Nat)
    (L : List (Nat × Nat)) :
    ∀ (m : Module) (n : Nat) (tail : List Instruction),
      m.entryBlock f = some ((done.zip ids).map (fun p => mod.allocaFor p.1 p.2) ++ tail) →
      ∃ tail', (L.foldl convertGlobal (m, n)).1.entryBlock f =
          some ((done.zip ids).map (fun p => mod.allocaFor p.1 p.2) ++ tail') ∧
        tail'.filter Instruction.isAlloca = tail.filter Instruction.isAlloca := by
  induction L with
  | nil => intro m n tail h; exact ⟨tail, h, rfl⟩
  | cons p L ih =>
    intro m n tail h
    obtain ⟨g, a⟩ := p
    obtain ⟨n', hn'⟩ := convertGlobal_entry m n g a f _ h
    rw [convertBlock_allocas] at hn'
    obtain ⟨tail', h1, h2⟩ := ih (convertGlobal (m, n) (g, a)).1 (convertGlobal (m, n) (g, a)).2
      (convertBlock g a tail n') hn'
    exact ⟨tail', h1, h2.trans (convertBlock_filter g a tail n')⟩

theorem entryBlock_setEntryBlock (m : Module) (f : Nat) (bb entry : List Instruction)
    (gvs : List GlobalVariable) (h : m.entryBlock f = some bb) :
    Module.entryBlock { (m.setEntryBlock f entry) with globals := gvs } f = some entry := by
  unfold Module.entryBlock Module.setEntryBlock at *
  simp only at h ⊢
  generalize m.functions = fs at h
  induction fs with
  | nil => simp at h
  | cons fn fs ih =>
    simp only [List.map_cons, List.find?_cons] at h ⊢
    by_cases hf : fn.id = f
    · simp [hf]
    · simp only [hf, decide_False, if_false] at h ⊢
      exact ih h

/-- C15: for every two functions `f` and `g`, distinct or not, neither of which
is named `main`, `callsSortKey f g` and `callsSortKey g f` are both true,
whatever their numbers of transitive callees; so the comparator is not
asymmetric and is no strict ordering of these functions. -/
theorem callsSortKey_both_true (ai : AggressiveInline) (f g : Nat)
    (hf : ai.module.getName f ≠ "main") (hg : ai.module.getName g ≠ "main") :
    callsSortKey ai f g = true ∧ callsSortKey ai g f = true := by
  unfold callsSortKey
  simp [hf, hg]

/-- C15 (witness): `helper` and `leaf` of `helpersModule`, with one transitive
callee and none. -/
theorem callsSortKey_both_true_witness :
    (getCalledFunctions helpersModule.call_graph 1).length = 1 ∧
      (getCalledFunctions helpersModule.call_graph 2).length = 0 ∧
      callsSortKey helpersModule 1 2 = true ∧ callsSortKey helpersModule 2 1 = true :=
  ⟨by decide, by decide, callsSortKey_both_true helpersModule 1 2 (by decide) (by decide)⟩

/-- The worklist is never emptied by the loop. -/
theorem schedule_worklist_pos (ai : AggressiveInline) (hn : 1 ≤ ai.module.functions.length) :
    1 ≤ (schedule ai).worklist.length := by
  unfold schedule
  refine scheduleLoop_induction _ (fun st => 1 ≤ st.worklist.length) ?_ _ _ ?_
  · intro st _ hlen
    simp only [scheduleStep, priorityQueuePop_length]
    omega
  · have := (fillWorklist_perm (callsSortKey ai) ai.module).length_eq
    simp only [Module.functionIds, List.length_map] at this
    show 1 ≤ (fillWorklist (callsSortKey ai) ai.module).length
    omega

/-- C16: for a module of `n ≥ 1` functions with distinct pointers, after the
scheduling loop every member of the removal set is a function of the module
that has the always-inline attribute and neither the no-inline nor the
optimize-none attribute; the removal set has `n - 1` members; and one function is
left on the worklist, which is not in the removal set and is in the module as
it was before the loop, attributes included. -/
theorem schedule_attributes (ai : AggressiveInline) (hids : ai.module.functionIds.Nodup)
    (hn : 1 ≤ ai.module.functions.length) :
    (∀ f ∈ (schedule ai).shouldBeRemoved,
        (∃ fn ∈ (schedule ai).module.functions, fn.id = f) ∧
        ∀ fn ∈ (schedule ai).module.functions, fn.id = f →
          fn.AlwaysInline = true ∧ fn.NoInline = false ∧ fn.OptimizeNone = false) ∧
      (schedule ai).shouldBeRemoved.Nodup ∧
      (schedule ai).shouldBeRemoved.length + 1 = ai.module.functions.length ∧
      ∃ last, (schedule ai).worklist = [last] ∧ last ∉ (schedule ai).shouldBeRemoved ∧
        (∃ fn ∈ ai.module.functions, fn.id = last) ∧
        (∀ fn ∈ ai.module.functions, fn.id = last → fn ∈ (schedule ai).module.functions) ∧
        (∀ fn ∈ (schedule ai).module.functions, fn.id = last → fn ∈ ai.module.functions) := by
  obtain ⟨hperm, hsorted⟩ := schedule_perm ai hids
  obtain ⟨hfun, -⟩ := schedule_module ai
  have hnd : ((schedule ai).shouldBeRemoved ++ (schedule ai).worklist).Nodup :=
    hperm.nodup_iff.2 hids
  have hlen1 := schedule_worklist_length ai
  have hlen2 := schedule_worklist_pos ai hn
  obtain ⟨last, hlast⟩ : ∃ last, (schedule ai).worklist = [last] := by
    cases hw : (schedule ai).worklist with
    | nil => rw [hw] at hlen2; simp at hlen2
    | cons x xs =>
      cases xs with
      | nil => exact ⟨x, rfl⟩
      | cons y ys => rw [hw] at hlen1; simp at hlen1
  have hlastnot : last ∉ (schedule ai).shouldBeRemoved := fun h =>
    List.disjoint_of_nodup_append hnd h (by rw [hlast]; simp)
  have hmemids : ∀ x, x ∈ (schedule ai).shouldBeRemoved ++ (schedule ai).worklist ↔
      x ∈ ai.module.functionIds := fun x => hperm.mem_iff
  refine ⟨?_, hsorted.nodup, ?_, last, hlast, hlastnot, ?_, ?_, ?_⟩
  · intro f hf
    constructor
    · have hfid : f ∈ ai.module.functionIds := (hmemids f).1 (List.mem_append_left _ hf)
      simp only [Module.functionIds, List.mem_map] at hfid
      obtain ⟨fn, hfn, hid⟩ := hfid
      refine ⟨if fn.id ∈ (schedule ai).shouldBeRemoved then makeInlinable fn else fn, ?_, ?_⟩
      · rw [hfun]
        exact List.mem_map.2 ⟨fn, hfn, rfl⟩
      · split_ifs <;> simpa [makeInlinable] using hid
    · intro fn hfn hid
      rw [hfun] at hfn
      obtain ⟨fn0, -, rfl⟩ := List.mem_map.1 hfn
      by_cases hmem : fn0.id ∈ (schedule ai).shouldBeRemoved
      · simp [hmem, makeInlinable]
      · rw [if_neg hmem] at hid
        exact absurd (hid ▸ hf) hmem
  · have := hperm.length_eq
    rw [List.length_append, hlast] at this
    simpa [Module.functionIds] using this
  · have : last ∈ ai.module.functionIds :=
      (hmemids last).1 (List.mem_append_right _ (by rw [hlast]; simp))
    simpa [Module.functionIds] using this
  · intro fn hfn hid
    rw [hfun]
    refine List.mem_map.2 ⟨fn, hfn, ?_⟩
    rw [if_neg (by rw [hid]; exact hlastnot)]
  · intro fn hfn hid
    rw [hfun] at hfn
    obtain ⟨fn0, hfn0, rfl⟩ := List.mem_map.1 hfn
    by_cases hmem : fn0.id ∈ (schedule ai).shouldBeRemoved
    · rw [if_pos hmem] at hid
      exact absurd (by simpa [makeInlinable] using hid ▸ hmem) hlastnot
    · rw [if_neg hmem]
      exact hfn0

/-- C16 (witness): `helpersModule`, whose three functions all bear the
no-inline attribute and two the optimize-none attribute before the loop. -/
theorem schedule_attributes_witness :
    (schedule helpersModule).module.functions.map
        (fun fn => (fn.name, fn.NoInline, fn.OptimizeNone, fn.AlwaysInline)) =
      [("helper", false, false, true), ("leaf", false, false, true),
        ("main", true, true, false)] ∧
    ((∀ f ∈ (schedule helpersModule).shouldBeRemoved,
        (∃ fn ∈ (schedule helpersModule).module.functions, fn.id = f) ∧
        ∀ fn ∈ (schedule helpersModule).module.functions, fn.id = f →
          fn.AlwaysInline = true ∧ fn.NoInline = false ∧ fn.OptimizeNone = false) ∧
      (schedule helpersModule).shouldBeRemoved.Nodup ∧
      (schedule helpersModule).shouldBeRemoved.length + 1 =
        helpersModule.module.functions.length ∧
      ∃ last, (schedule helpersModule).worklist = [last] ∧
        last ∉ (schedule helpersModule).shouldBeRemoved ∧
        (∃ fn ∈ helpersModule.module.functions, fn.id = last) ∧
        (∀ fn ∈ helpersModule.module.functions, fn.id = last →
          fn ∈ (schedule helpersModule).module.functions) ∧
        (∀ fn ∈ (schedule helpersModule).module.functions, fn.id = last →
          fn ∈ helpersModule.module.functions)) :=
  ⟨by decide, schedule_attributes helpersModule (by decide) (by decide)⟩
/-! ## Theorems: `inlineGlobalVars` and ownership errors -/

/-- The ownership loop fails exactly when `getGlobalUser` fails for a global or
finds no owner for it, and the message is that of such a global. -/
theorem collectOwners_error (gs : List GlobalVariable) (acc : List (Nat × List Nat)) :
    ((∃ msg, collectOwners gs acc = .error msg) ↔
        ∃ g ∈ gs, (∃ msg, getGlobalUser g = .error msg) ∨ getGlobalUser g = .ok 0) ∧
      ∀ msg, collectOwners gs acc = .error msg →
        ∃ g ∈ gs, getGlobalUser g = .error msg ∨
          (getGlobalUser g = .ok 0 ∧
            msg = "Global variable " ++ g.name ++ " has no function user") := by
  induction gs generalizing acc with
  | nil => simp [collectOwners]
  | cons g rest ih =>
    cases hg : getGlobalUser g with
    | error e =>
      simp only [collectOwners, hg]
      refine ⟨⟨fun _ => ⟨g, by simp, Or.inl ⟨e, hg⟩⟩, fun _ => ⟨e, rfl⟩⟩, ?_⟩
      intro msg hmsg
      refine ⟨g, by simp, Or.inl ?_⟩
      simp only [Except.error.injEq] at hmsg
      rw [hg, hmsg]
    | ok f =>
      by_cases hf : f = 0
      · subst hf
        simp only [collectOwners, hg, ↓reduceIte]
        refine ⟨⟨fun _ => ⟨g, by simp, Or.inr hg⟩, fun _ => ⟨_, rfl⟩⟩, ?_⟩
        intro msg hmsg
        refine ⟨g, by simp, Or.inr ⟨hg, ?_⟩⟩
        simp only [Except.error.injEq] at hmsg
        exact hmsg.symm
      · simp only [collectOwners, hg, if_neg hf]
        obtain ⟨ih1, ih2⟩ := ih (groupInsert f g.id acc)
        constructor
        · rw [ih1]
          constructor
          · rintro ⟨g', hg', h⟩
            exact ⟨g', List.mem_cons_of_mem _ hg', h⟩
          · rintro ⟨g', hg', h⟩
            rcases List.mem_cons.1 hg' with rfl | hg'
            · rcases h with ⟨msg, h⟩ | h
              · rw [hg] at h; cases h
              · rw [hg] at h
                simp only [Except.ok.injEq] at h
                exact absurd h hf
            · exact ⟨g', hg', h⟩
        · intro msg hmsg
          obtain ⟨g', hg', h⟩ := ih2 msg hmsg
          exact ⟨g', List.mem_cons_of_mem _ hg', h⟩

/-- C18: `inlineGlobalVars` ends in a fatal error exactly when, for some global
of the module, `getGlobalUser` fails or finds no owner; the error is then the
one of such a global, and the module at the moment of the error is the module
as it was given: the same functions with the same blocks and the same globals
with their initialisers, so nothing has been inserted, cleared or erased. -/
theorem inlineGlobalVars_atomic (m : Module) :
    ((∃ msg m', inlineGlobalVars m = .fatal msg m') ↔
        ∃ g ∈ m.globals, (∃ msg, getGlobalUser g = .error msg) ∨ getGlobalUser g = .ok 0) ∧
      ∀ msg m', inlineGlobalVars m = .fatal msg m' →
        m' = m ∧
        ∃ g ∈ m.globals, getGlobalUser g = .error msg ∨
          (getGlobalUser g = .ok 0 ∧
            msg = "Global variable " ++ g.name ++ " has no function user") := by
  obtain ⟨h1, h2⟩ := collectOwners_error m.globals []
  unfold inlineGlobalVars
  cases hc : collectOwners m.globals [] with
  | error e =>
    rw [hc] at h1 h2
    constructor
    · exact ⟨fun _ => h1.1 ⟨e, rfl⟩, fun _ => ⟨e, m, rfl⟩⟩
    · intro msg m' h
      simp only [Outcome.fatal.injEq] at h
      obtain ⟨rfl, rfl⟩ := h
      exact ⟨rfl, h2 e rfl⟩
  | ok groups =>
    rw [hc] at h1
    have hno : ∀ msg m', (match inlineGroups groups (m, m.freshPointer) with
        | some st => Outcome.ok st.1
        | none => Outcome.undefined) ≠ .fatal msg m' := by
      intro msg m' h
      cases hg : inlineGroups groups (m, m.freshPointer) <;> rw [hg] at h <;> cases h
    constructor
    · constructor
      · rintro ⟨msg, m', h⟩
        exact absurd h (hno msg m')
      · intro h
        obtain ⟨msg, hmsg⟩ := h1.2 h
        cases hmsg
    · intro msg m' h
      exact absurd h (hno msg m')

/-- C18 (witness): in `sharedGlobalModule` the first global has its owner and
the second is used by two functions; the error is raised with the module as it
was, the first global not converted. -/
theorem inlineGlobalVars_atomic_witness :
    getGlobalUser ⟨8, "a", 0, 0, some 4, some (.int 32 1), [.instruction 11 1]⟩ = .ok 1 ∧
      inlineGlobalVars sharedGlobalModule =
        .fatal "Global variable g must be used by only one function" sharedGlobalModule ∧
      (((∃ msg m', inlineGlobalVars sharedGlobalModule = .fatal msg m') ↔
          ∃ g ∈ sharedGlobalModule.globals,
            (∃ msg, getGlobalUser g = .error msg) ∨ getGlobalUser g = .ok 0) ∧
        ∀ msg m', inlineGlobalVars sharedGlobalModule = .fatal msg m' →
          m' = sharedGlobalModule ∧
          ∃ g ∈ sharedGlobalModule.globals, getGlobalUser g = .error msg ∨
            (getGlobalUser g = .ok 0 ∧
              msg = "Global variable " ++ g.name ++ " has no function user")) :=
  ⟨by decide, by decide, inlineGlobalVars_atomic sharedGlobalModule⟩
/-! ## Theorems: the iterations of `getCalledFunctions` -/

/-- The recorded loop returns the set of the loop. -/
theorem getCalledFunctionsTrace_fst (cg : CallGraph) (fuel : Nat) (s v : List Nat) :
    (getCalledFunctionsTrace cg fuel s v).map Prod.fst = getCalledFunctionsLoop cg fuel s v := by
  induction fuel generalizing s v with
  | zero =>
    cases v with
    | nil => simp [getCalledFunctionsTrace, getCalledFunctionsLoop]
    | cons top rest => simp [getCalledFunctionsTrace, getCalledFunctionsLoop]
  | succ fuel ih =>
    cases v with
    | nil => simp [getCalledFunctionsTrace, getCalledFunctionsLoop]
    | cons top rest =>
      simp only [getCalledFunctionsTrace, getCalledFunctionsLoop, Option.map_map]
      rw [← ih]
      rfl

theorem visitCallees_snd_nodup (cs s v : List Nat) (hv : v.Nodup) (hsub : ∀ x ∈ v, x ∈ s) :
    (visitCallees cs (s, v)).2.Nodup ∧
      ∀ x ∈ (visitCallees cs (s, v)).2, x ∈ (visitCallees cs (s, v)).1 := by
  induction cs generalizing s v with
  | nil => exact ⟨hv, hsub⟩
  | cons c cs ih =>
    unfold visitCallees
    split_ifs with h
    · exact ih s v hv hsub
    · apply ih
      · exact List.nodup_cons.2 ⟨fun hc => h (hsub c hc), hv⟩
      · intro x hx
        rw [mem_setInsert]
        rcases List.mem_cons.1 hx with rfl | hx
        · exact Or.inl rfl
        · exact Or.inr (hsub x hx)

/-- Every function is taken off the vector at most once: the functions taken
off are those on the vector at the start and those the loop adds to the set. -/
theorem getCalledFunctionsTrace_tops (cg : CallGraph) (fuel : Nat) (s v res tops : List Nat)
    (hv : v.Nodup) (hsub : ∀ x ∈ v, x ∈ s)
    (h : getCalledFunctionsTrace cg fuel s v = some (res, tops)) :
    tops.Nodup ∧ (∀ x ∈ s, x ∈ res) ∧ ∀ x, x ∈ tops ↔ x ∈ v ∨ (x ∈ res ∧ x ∉ s) := by
  induction fuel generalizing s v res tops with
  | zero =>
    cases v with
    | nil =>
      simp only [getCalledFunctionsTrace, Option.some.injEq, Prod.mk.injEq] at h
      obtain ⟨rfl, rfl⟩ := h
      simp
    | cons top rest => simp [getCalledFunctionsTrace] at h
  | succ fuel ih =>
    cases v with
    | nil =>
      simp only [getCalledFunctionsTrace, Option.some.injEq, Prod.mk.injEq] at h
      obtain ⟨rfl, rfl⟩ := h
      simp
    | cons top rest =>
      simp only [getCalledFunctionsTrace, Option.map_eq_some', Prod.mk.injEq] at h
      obtain ⟨⟨res', tops'⟩, hrec, rfl, rfl⟩ := h
      have hrest : rest.Nodup := (List.nodup_cons.1 hv).2
      have htop : top ∉ rest := (List.nodup_cons.1 hv).1
      have hsub' : ∀ x ∈ rest, x ∈ s := fun x hx => hsub x (List.mem_cons_of_mem _ hx)
      obtain ⟨hnd2, hsub2⟩ := visitCallees_snd_nodup
        (cg.calledFunctionsOf (cg.getOrInsertFunction top)) s rest hrest hsub'
      obtain ⟨ih1, ih2, ih3⟩ := ih _ _ _ _ hnd2 hsub2 hrec
      have htops : top ∈ s := hsub top (by simp)
      have hmono : ∀ x ∈ s, x ∈ res' := fun x hx =>
        ih2 x ((visitCallees_fst_mem _ _ _ _).2 (Or.inl hx))
      refine ⟨List.nodup_cons.2 ⟨?_, ih1⟩, hmono, ?_⟩
      · intro hmem
        rcases (ih3 top).1 hmem with h1 | h1
        · rcases (visitCallees_snd_mem _ _ _ _).1 h1 with h2 | h2
          · exact htop h2
          · exact h2.2 htops
        · exact h1.2 ((visitCallees_fst_mem _ _ _ _).2 (Or.inl htops))
      · intro x
        simp only [List.mem_cons, ih3, visitCallees_snd_mem, visitCallees_fst_mem]
        constructor
        · rintro (h1 | (h1 | h1) | h1)
          · exact Or.inl (Or.inl h1)
          · exact Or.inl (Or.inr h1)
          · refine Or.inr ⟨ih2 x ((visitCallees_fst_mem _ _ _ _).2 (Or.inr h1.1)), h1.2⟩
          · exact Or.inr ⟨h1.1, fun hx => h1.2 (Or.inl hx)⟩
        · rintro ((h1 | h1) | h1)
          · exact Or.inl h1
          · exact Or.inr (Or.inl (Or.inl h1))
          · by_cases hc : x ∈ cg.calledFunctionsOf (cg.getOrInsertFunction top)
            · exact Or.inr (Or.inl (Or.inr ⟨hc, h1.2⟩))
            · exact Or.inr (Or.inr ⟨h1.1, fun hx => hx.elim h1.2 hc⟩)

/-- The set that `getCalledFunctions` returns holds function pointers of nodes
of the graph, and the null pointer at most. -/
theorem getCalledFunctions_subset_functions (cg : CallGraph) (node : Nat) :
    ∀ y ∈ getCalledFunctions cg node, y ∈ 0 :: cg.functions := by
  intro y hy
  have hy0 : y ∈ 0 :: cg.nodes.map (·.F) := by
    rw [mem_getCalledFunctions] at hy
    obtain ⟨x, hx, hxy⟩ := hy
    rcases Relation.ReflTransGen.cases_tail hxy with h | ⟨z, -, hz⟩
    · rw [h]
      exact calledFunctionsOf_subset cg node x hx
    · exact calledFunctionsOf_subset cg _ y hz
  by_cases h0 : y = 0
  · simp [h0]
  · simp only [List.mem_cons, h0, false_or] at hy0
    simp only [CallGraph.functions, List.mem_cons, h0, false_or, List.mem_dedup, List.mem_filter]
    exact ⟨hy0, by simpa using h0⟩

/-- C14 (counterexample): in `externalGraph`, whose functions are `f` and `g`,
the loop of `getCalledFunctions` on the node of `f` makes three iterations: for
the null pointer of the unknown callee, for `g` and for `f`. -/
theorem getCalledFunctions_iterations_exceed :
    externalGraph.functions = [1, 2] ∧
      getCalledFunctionsIterations externalGraph 1 = some ([0, 1, 2], [0, 2, 1]) := by
  decide

/-- C14 (amended): on every call graph and node the loop of `getCalledFunctions`
ends; no function pointer is taken off the vector twice, so none is put on it
twice, seeding included; the pointers taken off are the members of the set
returned, one iteration for each; and the number of iterations is at most the
number of functions of the graph plus one, for the null pointer. -/
theorem getCalledFunctions_iterations (cg : CallGraph) (node : Nat) :
    ∃ tops, getCalledFunctionsIterations cg node = some (getCalledFunctions cg node, tops) ∧
      tops.Nodup ∧ tops.Perm (getCalledFunctions cg node) ∧
      tops.length = (getCalledFunctions cg node).length ∧
      tops.length ≤ cg.functions.length + 1 := by
  obtain ⟨res, hres⟩ := Option.isSome_iff_exists.1 (getCalledFunctionsFuel_isSome cg node)
  have hget : getCalledFunctions cg node = res := by
    simp [getCalledFunctions, hres]
  have hfst := getCalledFunctionsTrace_fst cg (cg.nodes.length + 1) (directCallees cg node)
    (directCallees cg node).reverse
  unfold getCalledFunctionsFuel at hres
  rw [hres] at hfst
  obtain ⟨⟨res', tops⟩, htrace, hres'⟩ := Option.map_eq_some'.1 hfst
  simp only at hres'
  subst hres'
  have hnd : (directCallees cg node).reverse.Nodup :=
    List.nodup_reverse.2 (directCallees_sorted cg node).nodup
  obtain ⟨h1, h2, h3⟩ := getCalledFunctionsTrace_tops cg _ _ _ _ _ hnd
    (fun x hx => List.mem_reverse.1 hx) htrace
  have hmem : ∀ x, x ∈ tops ↔ x ∈ res' := by
    intro x
    rw [h3, List.mem_reverse]
    constructor
    · rintro (h | h)
      · exact h2 x h
      · exact h.1
    · intro h
      by_cases hx : x ∈ directCallees cg node
      · exact Or.inl hx
      · exact Or.inr ⟨h, hx⟩
  have hresnd : res'.Nodup := hget ▸ getCalledFunctions_nodup cg node
  have hperm : tops.Perm res' := (List.perm_ext_iff_of_nodup h1 hresnd).2 hmem
  refine ⟨tops, ?_, h1, hget ▸ hperm, ?_, ?_⟩
  · rw [hget]
    exact htrace
  · rw [hget]
    exact hperm.length_eq
  · rw [hperm.length_eq]
    have hsub : ∀ y ∈ res', y ∈ 0 :: cg.functions :=
      hget ▸ getCalledFunctions_subset_functions cg node
    simpa using (hresnd.subperm hsub).length_le

/-- C14 (example): in `cyclicGraph`, with a self-call and a cycle through its
three functions, the loop on the node of `f` makes three iterations. -/
theorem getCalledFunctions_iterations_witness :
    getCalledFunctionsIterations cyclicGraph 0 = some ([1, 2, 3], [2, 3, 1]) ∧
      ∃ tops, getCalledFunctionsIterations cyclicGraph 0 =
          some (getCalledFunctions cyclicGraph 0, tops) ∧
        tops.Nodup ∧ tops.Perm (getCalledFunctions cyclicGraph 0) ∧
        tops.length = (getCalledFunctions cyclicGraph 0).length ∧
        tops.length ≤ cyclicGraph.functions.length + 1 :=
  ⟨by decide, getCalledFunctions_iterations cyclicGraph 0⟩
/-! ## Theorems: the order of the emitted pairs and the aggregate left behind -/

mutual
/-- What the walk lists: elements that pass the test of lines 200-202, at
paths below `path`, in the depth-first order of the paths. -/
theorem emittedLeaves_sorted (vars : List Nat) :
    ∀ (c : Constant) (path : List Nat) (replaced : List Constant)
      (changed : List (Constant × List Constant)) (undef : List Constant),
      (∀ x ∈ (emittedLeaves vars path replaced c changed undef).1,
        (∃ s, x.1 = path ++ s) ∧ isDisaggregated vars x.2 = true) ∧
      ((emittedLeaves vars path replaced c changed undef).1.map Prod.fst).Pairwise
        (List.Lex (· < ·))
  | .aggregate inner, path, replaced, changed, undef => by
    simp only [emittedLeaves]
    obtain ⟨h1, h2⟩ := emittedLeavesList_sorted vars inner path
      (operandsChanged changed (.aggregate inner)) 0 changed []
    refine ⟨fun x hx => ?_, h2⟩
    obtain ⟨⟨j, s, -, hs⟩, hq⟩ := h1 x hx
    exact ⟨⟨j :: s, hs⟩, hq⟩
  | .expr opcode ops, path, replaced, changed, undef => by
    simp only [emittedLeaves, isDisaggregated, if_true]
    split_ifs
    · simp
    · simp [isDisaggregated]
  | .globalVariable g, path, replaced, changed, undef => by
    simp only [emittedLeaves]
    split_ifs with h1 h2
    · simp
    · simp [h2]
    · simp
  | .function f, path, replaced, changed, undef => by
    simp only [emittedLeaves, isDisaggregated, Bool.false_eq_true, if_false]
    split_ifs <;> simp
  | .int w v, path, replaced, changed, undef => by
    simp only [emittedLeaves, isDisaggregated, Bool.false_eq_true, if_false]
    split_ifs <;> simp
  | .undef, path, replaced, changed, undef => by
    simp only [emittedLeaves, isDisaggregated, Bool.false_eq_true, if_false]
    split_ifs <;> simp
  | .poison, path, replaced, changed, undef => by
    simp only [emittedLeaves, isDisaggregated, Bool.false_eq_true, if_false]
    split_ifs <;> simp
  | .data d, path, replaced, changed, undef => by
    simp only [emittedLeaves, isDisaggregated, Bool.false_eq_true, if_false]
    split_ifs <;> simp
/-- What the walk lists from element `i` on: elements that pass the test, at
paths `path, j, ...` with `j` from `i` on, in the depth-first order of the
paths. -/
theorem emittedLeavesList_sorted (vars : List Nat) :
    ∀ (cs : List Constant) (path : List Nat) (replaced : List Constant) (i : Nat)
      (changed : List (Constant × List Constant)) (undef : List Constant),
      (∀ x ∈ (emittedLeavesList vars path replaced i cs changed undef).1,
        (∃ j s, i ≤ j ∧ x.1 = path ++ j :: s) ∧ isDisaggregated vars x.2 = true) ∧
      ((emittedLeavesList vars path replaced i cs changed undef).1.map Prod.fst).Pairwise
        (List.Lex (· < ·))
  | [], path, replaced, i, changed, undef => by
    simp [emittedLeavesList]
  | c :: rest, path, replaced, i, changed, undef => by
    simp only [emittedLeavesList]
    obtain ⟨h1, h2⟩ := emittedLeaves_sorted vars c (path ++ [i]) replaced changed undef
    obtain ⟨h3, h4⟩ := emittedLeavesList_sorted vars rest path replaced (i + 1)
      (emittedLeaves vars (path ++ [i]) replaced c changed undef).2.1
      (emittedLeaves vars (path ++ [i]) replaced c changed undef).2.2
    constructor
    · intro x hx
      rcases List.mem_append.1 hx with hx | hx
      · obtain ⟨⟨s, hs⟩, hq⟩ := h1 x hx
        exact ⟨⟨i, s, le_refl _, by rw [hs]; simp⟩, hq⟩
      · obtain ⟨⟨j, s, hj, hs⟩, hq⟩ := h3 x hx
        exact ⟨⟨j, s, by omega, hs⟩, hq⟩
    · rw [List.map_append, List.pairwise_append]
      refine ⟨h2, h4, ?_⟩
      intro p hp q hq
      obtain ⟨x, hx, rfl⟩ := List.mem_map.1 hp
      obtain ⟨y, hy, rfl⟩ := List.mem_map.1 hq
      obtain ⟨⟨s, hs⟩, -⟩ := h1 x hx
      obtain ⟨⟨j, t, hj, ht⟩, -⟩ := h3 y hy
      rw [hs, ht, List.append_assoc]
      apply List.Lex.append_left
      exact List.Lex.rel (by omega)
end

/-- C13 (failing input): the store 14 of `repeatedAggregate`, the array of two
equal structures `{@7, 5}`, with the global 7 tracked. The elements at the
paths `0, 0` and `1, 0` are references to the global 7. One pair is emitted,
for the element at `0, 0`; the aggregate the store holds afterwards has the
undefined placeholder at `0, 0` and also at `1, 0`, for which no pair was
emitted: the change made to the first structure is a change of the second one
too, the two being one constant. -/
theorem extractValuesFromStore_undef_without_pair :
    (Constant.aggregate repeatedAggregate).elementAt [0, 0] = some (.globalVariable 7) ∧
      (Constant.aggregate repeatedAggregate).elementAt [1, 0] = some (.globalVariable 7) ∧
      (emittedLeaves [8, 7] [] [] (.aggregate repeatedAggregate) [] []).1 =
        [([0, 0], .globalVariable 7)] ∧
      (extractValuesFromStore 14 [8, 7]
          ⟨[.alloca 13 100 0 8 "table",
            .store 14 (.constant (.aggregate repeatedAggregate)) (.instruction 13),
            .other 10 5 [.constant (.globalVariable 8)]], 15, []⟩).block =
        [.alloca 13 100 0 8 "table",
         .store 14 (.constant (.aggregate
            [.aggregate [.undef, .int 32 5], .aggregate [.undef, .int 32 5]]))
            (.instruction 13),
         .getelementptr 15 true (.instruction 13) [indexValue 0, indexValue 0, indexValue 0],
         .store 16 (.constant (.globalVariable 7)) (.instruction 15),
         .other 10 5 [.constant (.globalVariable 8)]] ∧
      (Constant.aggregate [.aggregate [.undef, .int 32 5],
          .aggregate [.undef, .int 32 5]]).elementAt [1, 0] = some .undef := by
  decide
/-! ## Theorems: the order of the instructions in the entry block -/

theorem convertedBy_nil_refl (i : Instruction) : i.ConvertedBy [] i :=
  ⟨fun v => v, (mapOperands_id_fun' i).symm, fun _ => rfl, fun _ _ => rfl, fun _ => rfl⟩

/-- A step of the second loop for `(g, a)`, then the loop over `L`. -/
theorem convertedBy_cons (g a : Nat) (L : List (Nat × Nat)) (i j k : Instruction)
    (hij : i.ConvertedBy [(g, a)] j) (hjk : j.ConvertedBy L k) :
    i.ConvertedBy ((g, a) :: L) k := by
  obtain ⟨F, rfl, hF1, hF2, hF3⟩ := hij
  obtain ⟨G, rfl, hG1, hG2, hG3⟩ := hjk
  refine ⟨G ∘ F, mapOperands_mapOperands F G i, ?_, ?_, ?_⟩
  · intro x
    simp [Function.comp, hF1, hG1]
  · intro w v
    simp [Function.comp, hF2, hG2]
  · intro h
    simp only [Function.comp, hF3, List.lookup]
    by_cases hg : h = g
    · subst hg
      simp [hG1]
    · have hb : (h == g) = false := by simpa using hg
      simp only [hb, hG3]

/-- A store to the result of an instruction keeps its pointer and its address;
a stored global of the loop becomes its allocation. -/
theorem convertedBy_store (L : List (Nat × Nat)) (id a : Nat) (v : Value) (i' : Instruction)
    (h : Instruction.ConvertedBy L (.store id v (.instruction a)) i') :
    ∃ v', i' = .store id v' (.instruction a) ∧
      ∀ g b, v = .constant (.globalVariable g) → L.lookup g = some b → v' = .instruction b := by
  obtain ⟨F, rfl, hF1, -, hF3⟩ := h
  refine ⟨F v, by simp [Instruction.mapOperands, hF1], ?_⟩
  intro g b hv hb
  rw [hv, hF3, hb]

theorem sublistForall₂_convertedBy_refl (l : List Instruction) :
    List.SublistForall₂ (Instruction.ConvertedBy []) l l := by
  induction l with
  | nil => exact List.SublistForall₂.nil
  | cons x xs ih => exact List.SublistForall₂.cons (convertedBy_nil_refl x) ih

/-- `makeAllConstantUsesInstructions` in a block keeps the instructions of the
block in their order; the new instructions come in between. -/
theorem materializeBlock_order (g : Nat) (bb : List Instruction) (n : Nat) :
    List.SublistForall₂ (Instruction.ConvertedBy []) bb (materializeBlock g bb n).1 := by
  induction bb generalizing n with
  | nil => exact List.SublistForall₂.nil
  | cons b bb ih =>
    simp only [materializeBlock]
    apply sublistForall₂_prepend
    refine List.SublistForall₂.cons ?_ (ih _)
    obtain ⟨F, hF, hfix⟩ := materialize_fix g b n
    refine ⟨F, hF, ?_, ?_, ?_⟩
    · intro x
      exact hfix _ (fun _ _ h => by cases h)
    · intro w v
      exact hfix _ (fun _ _ h => by cases h)
    · intro h
      exact hfix _ (fun _ _ h => by cases h)

/-- One step of the second loop keeps the instructions of a block in their
order. -/
theorem convertBlock_order (g alloc : Nat) (bb : List Instruction) (n : Nat) :
    List.SublistForall₂ (Instruction.ConvertedBy [(g, alloc)]) bb
      (convertBlock g alloc bb n) := by
  unfold convertBlock
  have h := materializeBlock_order g bb n
  generalize (materializeBlock g bb n).1 = L at h
  induction h with
  | nil => exact List.SublistForall₂.nil
  | @cons x y l L hr _ ih =>
    rw [List.map_cons]
    refine List.SublistForall₂.cons ?_ ih
    obtain ⟨F, rfl, hF1, hF2, hF3⟩ := hr
    refine ⟨Value.replaceGlobal g alloc ∘ F, mapOperands_mapOperands F _ x, ?_, ?_, ?_⟩
    · intro z
      simp [Function.comp, hF1, Value.replaceGlobal]
    · intro w v
      simp [Function.comp, hF2, Value.replaceGlobal]
    · intro h
      simp only [Function.comp, hF3, List.lookup, Value.replaceGlobal]
      by_cases hg : h = g
      · subst hg
        simp
      · have hb : (h == g) = false := by simpa using hg
        simp [hb, hg]
  | cons_right _ ih =>
    rw [List.map_cons]
    exact List.SublistForall₂.cons_right ih

/-- The second loop and the entry block: the new allocations stay in front, no
allocation is added behind them, and the instructions behind them keep their
order. -/
theorem foldl_convertGlobal_entry_order (mod : Module) (done ids : List Nat) (f : Nat)
    (L : List (Nat × Nat)) :
    ∀ (m : Module) (n : Nat) (tail : List Instruction),
      m.entryBlock f = some ((done.zip ids).map (fun p => mod.allocaFor p.1 p.2) ++ tail) →
      ∃ tail', (L.foldl convertGlobal (m, n)).1.entryBlock f =
          some ((done.zip ids).map (fun p => mod.allocaFor p.1 p.2) ++ tail') ∧
        tail'.filter Instruction.isAlloca = tail.filter Instruction.isAlloca ∧
        List.SublistForall₂ (Instruction.ConvertedBy L) tail tail' := by
  induction L with
  | nil =>
    intro m n tail h
    exact ⟨tail, h, rfl, sublistForall₂_convertedBy_refl tail⟩
  | cons p L ih =>
    intro m n tail h
    obtain ⟨g, a⟩ := p
    obtain ⟨n', hn'⟩ := convertGlobal_entry m n g a f _ h
    rw [convertBlock_allocas] at hn'
    obtain ⟨tail', h1, h2, h3⟩ := ih (convertGlobal (m, n) (g, a)).1
      (convertGlobal (m, n) (g, a)).2 (convertBlock g a tail n') hn'
    exact ⟨tail', h1, h2.trans (convertBlock_filter g a tail n'),
      sublistForall₂_comp (convertedBy_cons g a L) _ _ _ (convertBlock_order g a tail n') h3⟩

theorem entryBlock_current (changes : List (List (Constant × List Constant))) (m : Module)
    (f : Nat) (bb : List Instruction) (h : m.entryBlock f = some bb) :
    (m.current changes).entryBlock f =
      some (bb.map (Instruction.mapOperands (Value.currentAll changes))) := by
  unfold Module.entryBlock at h ⊢
  unfold Module.current
  simp only [List.find?_map]
  have hcomp : ((fun fn : Function => decide (fn.id = f)) ∘ fun fn : Function =>
      { fn with blocks := fn.blocks.map (fun bb =>
          bb.map (Instruction.mapOperands (Value.currentAll changes))) }) =
      fun fn => decide (fn.id = f) := rfl
  rw [hcomp]
  cases hfind : m.functions.find? (fun fn => decide (fn.id = f)) with
  | none => rw [hfind] at h; cases h
  | some fn =>
    rw [hfind] at h
    have h' : fn.blocks.head? = some bb := h
    simp only [Option.map_some']
    cases hb : fn.blocks with
    | nil => rw [hb] at h'; cases h'
    | cons b bs =>
      rw [hb] at h'
      simp only [List.head?_cons, Option.some.injEq] at h'
      simp [h']

theorem filter_isAlloca_map (F : Value → Value) (l : List Instruction) :
    (l.map (Instruction.mapOperands F)).filter Instruction.isAlloca =
      l.filter Instruction.isAlloca := by
  induction l with
  | nil => rfl
  | cons x xs ih =>
    simp only [List.map_cons, List.filter_cons, mapOperands_isAlloca, ih]
    split_ifs with hx
    · rw [mapOperands_of_isAlloca F x hx]
    · rfl

/-- What `inlineGlobalsIntoFunction` computes, by its two loops. -/
theorem inlineGlobalsIntoFunction_eq (globals : List Nat) (f : Nat) (m : Module)
    (next : Nat) (e0 : Instruction) (rest : List Instruction)
    (hentry : m.entryBlock f = some (e0 :: rest)) (ids : List Nat) (chunk : List Instruction)
    (hinv : AllocInv m (e0 :: rest) globals ids chunk
      (allocateGlobals globals (e0 :: rest) e0.id m.globals next)) :
    inlineGlobalsIntoFunction globals f m next =
      (globals.zip ids).foldl convertGlobal
        ((allocateGlobals globals (e0 :: rest) e0.id m.globals next).module f m,
          (allocateGlobals globals (e0 :: rest) e0.id m.globals next).next) := by
  unfold inlineGlobalsIntoFunction
  rw [hentry]
  simp only [hinv.map]

theorem entryBlock_module (globals : List Nat) (f : Nat) (m : Module)
    (next : Nat) (e0 : Instruction) (rest : List Instruction)
    (hentry : m.entryBlock f = some (e0 :: rest)) :
    ((allocateGlobals globals (e0 :: rest) e0.id m.globals next).module f m).entryBlock f =
      some (allocateGlobals globals (e0 :: rest) e0.id m.globals next).entry :=
  entryBlock_setEntryBlock _ f _ _ _ (entryBlock_current _ m f _ hentry)

/-- The entry block after `inlineGlobalsIntoFunction`: the new allocations in
front, one for each global; behind them no new allocation, and, in this order
and with operands converted, the initialiser stores and pairs as the first
loop left them (`chunk`) and the instructions the block had. -/
theorem inlineGlobalsIntoFunction_entry (globals : List Nat) (f : Nat) (m : Module)
    (next : Nat) (e0 : Instruction) (rest : List Instruction)
    (hentry : m.entryBlock f = some (e0 :: rest)) (hnd : globals.Nodup)
    (hfound : ∀ g ∈ globals, (m.globals.find? (fun x => x.id = g)).isSome = true)
    (hfresh : ∀ i ∈ e0 :: rest, i.id < next) :
    ∃ (ids : List Nat) (chunk tail : List Instruction),
      AllocInv m (e0 :: rest) globals ids chunk
        (allocateGlobals globals (e0 :: rest) e0.id m.globals next) ∧
      (∀ a ∈ ids, next ≤ a) ∧
      (inlineGlobalsIntoFunction globals f m next).1.entryBlock f =
        some ((globals.zip ids).map (fun p => m.allocaFor p.1 p.2) ++ tail) ∧
      tail.filter Instruction.isAlloca = (e0 :: rest).filter Instruction.isAlloca ∧
      List.SublistForall₂ (Instruction.ConvertedBy (globals.zip ids))
        (chunk ++ (e0 :: rest).map (Instruction.mapOperands (Value.currentAll
          (allocateGlobals globals (e0 :: rest) e0.id m.globals next).changed))) tail := by
  obtain ⟨ids, chunk, hinv, hids⟩ := allocateGlobals_spec m globals e0 rest next hnd
    (fun g hg => Option.isSome_iff_exists.1 (hfound g hg)) hfresh
  rw [inlineGlobalsIntoFunction_eq globals f m next e0 rest hentry ids chunk hinv]
  have h2 := (entryBlock_module globals f m next e0 rest hentry).trans
    (congrArg some hinv.entry)
  obtain ⟨tail', ht1, ht2, ht3⟩ := foldl_convertGlobal_entry_order m globals ids f
    (globals.zip ids) _ (allocateGlobals globals (e0 :: rest) e0.id m.globals next).next _ h2
  refine ⟨ids, chunk, tail', hinv, hids, ht1, ?_, ht3⟩
  refine ht2.trans ?_
  rw [List.filter_append, filter_isAlloca_map]
  have : chunk.filter Instruction.isAlloca = [] := by
    rw [List.filter_eq_nil_iff]
    intro i hi
    simp [hinv.chunk_alloca i hi]
  rw [this, List.nil_append]

theorem getElem?_split {α : Type} (l : List α) (i : Nat) (a : α) (h : l[i]? = some a) :
    ∃ l1 l2, l = l1 ++ a :: l2 ∧ l1.length = i := by
  induction l generalizing i with
  | nil => simp at h
  | cons x xs ih =>
    cases i with
    | zero =>
      simp only [List.getElem?_cons_zero, Option.some.injEq] at h
      exact ⟨[], xs, by rw [h]; rfl, rfl⟩
    | succ i =>
      simp only [List.getElem?_cons_succ] at h
      obtain ⟨l1, l2, hl, hlen⟩ := ih i h
      exact ⟨x :: l1, l2, by rw [hl]; rfl, by simp [hlen]⟩

theorem getElem?_split_two {α : Type} (l : List α) (i j : Nat) (a b : α) (hij : i < j)
    (hi : l[i]? = some a) (hj : l[j]? = some b) :
    ∃ l1 l2 l3, l = l1 ++ a :: (l2 ++ b :: l3) := by
  obtain ⟨l1, r, hl, hlen⟩ := getElem?_split l i a hi
  have hr : r[j - i - 1]? = some b := by
    rw [hl, List.getElem?_append_right (by omega)] at hj
    have e : j - l1.length = (j - i - 1) + 1 := by omega
    rw [e, List.getElem?_cons_succ] at hj
    exact hj
  obtain ⟨l2, l3, hr2, -⟩ := getElem?_split r _ b hr
  exact ⟨l1, l2, l3, by rw [hl, hr2]⟩

/-- The initialiser stores in the entry block after the two loops: each is a
store to its allocation, and they stand in the order opposite to that of the
globals. -/
theorem inlineGlobalsIntoFunction_stores (m : Module) (L : List (Nat × Nat))
    (chunk rest tail : List Instruction)
    (hstores : List.SublistForall₂ (IsInitializerStore m)
      (L.filter (fun p =>
        ((m.globals.find? (fun gv => gv.id = p.1)).bind (fun gv => gv.initializer)).isSome)).reverse
      chunk)
    (hsub : List.SublistForall₂ (Instruction.ConvertedBy L) (chunk ++ rest) tail) :
    List.SublistForall₂
      (fun (p : Nat × Nat) (i : Instruction) => ∃ v, i = .store (p.2 + 1) v (.instruction p.2) ∧
        ∀ g b, m.initializerOf p.1 = some (.globalVariable g) → L.lookup g = some b →
          v = .instruction b)
      (L.filter (fun p => (m.initializerOf p.1).isSome)).reverse tail := by
  refine sublistForall₂_comp ?_ _ _ _ (sublistForall₂_append_right _ _ rest hstores) hsub
  intro p y z hpy hyz
  obtain ⟨c', rfl, hc⟩ := hpy
  obtain ⟨v', rfl, hv⟩ := convertedBy_store _ _ _ _ _ hyz
  refine ⟨v', rfl, ?_⟩
  intro g b hg hb
  exact hv g b (by rw [hc g hg]) hb
/-! ## Theorems: initialiser stores and allocations in the entry block -/

/-- C12 (counterexample): `initializedGlobalsModule`, whose function owns `g1`
and `g2` in this order, both with an initialiser: in the entry block the store
of the initialiser of `g2` (pointer 16, to the allocation 15) stands before the
store of the initialiser of `g1` (pointer 14, to the allocation 13). -/
theorem inlineGlobalsIntoFunction_second_store_first :
    (inlineGlobalsIntoFunction [8, 9] 1 initializedGlobalsModule 13).1.entryBlock 1 =
      some [.alloca 13 100 0 4 "g1", .alloca 15 100 0 4 "g2",
        .store 16 (.constant (.int 32 2)) (.instruction 15),
        .store 14 (.constant (.int 32 1)) (.instruction 13),
        .other 10 5 [.instruction 13], .other 11 6 [.instruction 15], .other 12 1 []] := by
  decide

/-- C12 (amended): let `f` have an entry block with a first instruction, the
globals of `globals` be distinct globals of the module, and `next` be above the
pointers of the entry block. After `inlineGlobalsIntoFunction globals f` the
entry block is the new allocations, one for each global and in the order of
`globals`, followed by `tail`; and for two globals that both have an
initialiser, the store of the initialiser of the later one (the store to its
allocation, with the pointer after that of the allocation) stands in `tail`
before the store of the initialiser of the earlier one. The values stored are
the initialisers as the two loops leave them. -/
theorem inlineGlobalsIntoFunction_stores_reversed (globals : List Nat) (f : Nat) (m : Module)
    (next : Nat) (e0 : Instruction) (rest : List Instruction)
    (hentry : m.entryBlock f = some (e0 :: rest)) (hnd : globals.Nodup)
    (hfound : ∀ g ∈ globals, (m.globals.find? (fun x => x.id = g)).isSome = true)
    (hfresh : ∀ i ∈ e0 :: rest, i.id < next) :
    ∃ (ids : List Nat) (tail : List Instruction), ids.length = globals.length ∧
      (inlineGlobalsIntoFunction globals f m next).1.entryBlock f =
        some ((globals.zip ids).map (fun p => m.allocaFor p.1 p.2) ++ tail) ∧
      ∀ (i j gi gj ai aj : Nat) (ci cj : Constant), i < j →
        (globals.zip ids)[i]? = some (gi, ai) → (globals.zip ids)[j]? = some (gj, aj) →
        m.initializerOf gi = some ci → m.initializerOf gj = some cj →
        ∃ (P Q S : List Instruction) (vi vj : Value),
          tail = P ++ .store (aj + 1) vj (.instruction aj) ::
            (Q ++ .store (ai + 1) vi (.instruction ai) :: S) := by
  obtain ⟨ids, chunk, tail, hinv, -, hblock, -, hsub⟩ :=
    inlineGlobalsIntoFunction_entry globals f m next e0 rest hentry hnd hfound hfresh
  refine ⟨ids, tail, hinv.length, hblock, ?_⟩
  intro i j gi gj ai aj ci cj hij hi hj hci hcj
  have hst := inlineGlobalsIntoFunction_stores m (globals.zip ids) chunk _ tail hinv.stores hsub
  obtain ⟨l1, l2, l3, hzip⟩ := getElem?_split_two (globals.zip ids) i j (gi, ai) (gj, aj) hij hi hj
  have hrev : ((globals.zip ids).filter (fun p => (m.initializerOf p.1).isSome)).reverse =
      (l3.filter (fun p => (m.initializerOf p.1).isSome)).reverse ++
        (gj, aj) :: ((l2.filter (fun p => (m.initializerOf p.1).isSome)).reverse ++
          (gi, ai) :: (l1.filter (fun p => (m.initializerOf p.1).isSome)).reverse) := by
    rw [hzip]
    simp [List.filter_append, List.filter_cons, hci, hcj]
  rw [hrev] at hst
  obtain ⟨L1, L2, hL, -, hL2⟩ := sublistForall₂_append_split _ _ tail hst
  obtain ⟨A, sj, L3, hL3, hsj, hrest⟩ := sublistForall₂_cons_split _ _ L2 hL2
  obtain ⟨M1, M2, hM, -, hM2⟩ := sublistForall₂_append_split _ _ L3 hrest
  obtain ⟨B, si, M3, hM3, hsi, -⟩ := sublistForall₂_cons_split _ _ M2 hM2
  obtain ⟨vj, rfl, -⟩ := hsj
  obtain ⟨vi, rfl, -⟩ := hsi
  refine ⟨L1 ++ A, M1 ++ B, M3, vi, vj, ?_⟩
  rw [hL, hL3, hM, hM3]
  simp

/-- C12 (witness): `globalsModule`, where `g1` and `g2` have an initialiser and
`g3` has none. -/
theorem inlineGlobalsIntoFunction_stores_reversed_witness :
    ((inlineGlobalsIntoFunction [8, 9, 7] 1 globalsModule 13).1.entryBlock 1).map
        (List.map Instruction.id) =
      some [13, 17, 19, 18, 14, 15, 16, 10, 20, 21, 11, 12] ∧
    ∃ (ids : List Nat) (tail : List Instruction), ids.length = [8, 9, 7].length ∧
      (inlineGlobalsIntoFunction [8, 9, 7] 1 globalsModule 13).1.entryBlock 1 =
        some (([8, 9, 7].zip ids).map (fun p => globalsModule.allocaFor p.1 p.2) ++ tail) ∧
      ∀ (i j gi gj ai aj : Nat) (ci cj : Constant), i < j →
        ([8, 9, 7].zip ids)[i]? = some (gi, ai) → ([8, 9, 7].zip ids)[j]? = some (gj, aj) →
        globalsModule.initializerOf gi = some ci → globalsModule.initializerOf gj = some cj →
        ∃ (P Q S : List Instruction) (vi vj : Value),
          tail = P ++ .store (aj + 1) vj (.instruction aj) ::
            (Q ++ .store (ai + 1) vi (.instruction ai) :: S) :=
  ⟨by decide,
    inlineGlobalsIntoFunction_stores_reversed [8, 9, 7] 1 globalsModule 13
      (.other 10 5 [.constant (.globalVariable 8)])
      [.other 11 6 [.constant (.expr 3 [.globalVariable 9, .int 32 1]),
          .constant (.expr 3 [.globalVariable 9, .int 32 1]), .constant (.globalVariable 7)],
        .other 12 1 []]
      (by decide) (by decide) (by decide) (by decide)⟩

/-- C17: let `f` have an entry block with a first instruction, the globals of
`globals` be distinct globals of the module, and `next` be above the pointers
of the entry block. The first loop of `inlineGlobalsIntoFunction globals f`
leaves the entry block as the new allocations, one for each global, then
`chunk`, then the instructions the block had: `chunk` is everything else the
loop has inserted, that is the initialiser stores and the address computations
and stores of disaggregation, none of them an allocation. After the call the
entry block is the same new allocations followed by `tail`, and everything else
is in `tail`: an allocation in `tail` is one the block had before; `tail`
holds, in their order and with the globals among their operands replaced by the
allocations, the instructions of `chunk` and then the instructions the block
had; in particular the store of the initialiser of every global that has one
is in `tail`, behind every new allocation. -/
theorem inlineGlobalsIntoFunction_allocas_first (globals : List Nat) (f : Nat) (m : Module)
    (next : Nat) (e0 : Instruction) (rest : List Instruction)
    (hentry : m.entryBlock f = some (e0 :: rest)) (hnd : globals.Nodup)
    (hfound : ∀ g ∈ globals, (m.globals.find? (fun x => x.id = g)).isSome = true)
    (hfresh : ∀ i ∈ e0 :: rest, i.id < next) :
    ∃ (ids : List Nat) (chunk tail : List Instruction),
      ids.length = globals.length ∧ ids.Nodup ∧ (∀ a ∈ ids, next ≤ a) ∧
      (allocateGlobals globals (e0 :: rest) e0.id m.globals next).entry =
        (globals.zip ids).map (fun p => m.allocaFor p.1 p.2) ++
          (chunk ++ (e0 :: rest).map (Instruction.mapOperands (Value.currentAll
            (allocateGlobals globals (e0 :: rest) e0.id m.globals next).changed))) ∧
      (∀ i ∈ chunk, i.isAlloca = false ∧ ∀ o ∈ e0 :: rest, o.id < i.id) ∧
      (inlineGlobalsIntoFunction globals f m next).1.entryBlock f =
        some ((globals.zip ids).map (fun p => m.allocaFor p.1 p.2) ++ tail) ∧
      (∀ i ∈ tail, i.isAlloca = true → i ∈ e0 :: rest) ∧
      List.SublistForall₂ (Instruction.ConvertedBy (globals.zip ids))
        (chunk ++ (e0 :: rest).map (Instruction.mapOperands (Value.currentAll
          (allocateGlobals globals (e0 :: rest) e0.id m.globals next).changed))) tail ∧
      ∀ (g a : Nat) (c : Constant), (g, a) ∈ globals.zip ids → m.initializerOf g = some c →
        ∃ (P S : List Instruction) (v : Value),
          tail = P ++ .store (a + 1) v (.instruction a) :: S := by
  obtain ⟨ids, chunk, tail, hinv, hge, hblock, hfilter, hsub⟩ :=
    inlineGlobalsIntoFunction_entry globals f m next e0 rest hentry hnd hfound hfresh
  refine ⟨ids, chunk, tail, hinv.length, hinv.ids_sorted.nodup, hge, hinv.entry,
    fun i hi => ⟨hinv.chunk_alloca i hi, hinv.chunk_new i hi⟩, hblock, ?_, hsub, ?_⟩
  · intro i hi ha
    have h1 : i ∈ tail.filter Instruction.isAlloca := List.mem_filter.2 ⟨hi, ha⟩
    rw [hfilter] at h1
    exact (List.mem_filter.1 h1).1
  · intro g a c hmem hc
    have hst := inlineGlobalsIntoFunction_stores m (globals.zip ids) chunk _ tail hinv.stores
      hsub
    obtain ⟨x', hx', v, rfl, -⟩ := sublistForall₂_mem _ _ hst (g, a)
      (List.mem_reverse.2 (List.mem_filter.2 ⟨hmem, by simp [hc]⟩))
    obtain ⟨P, S, hPS⟩ := List.append_of_mem hx'
    exact ⟨P, S, v, hPS⟩

/-- C17 (witness): `globalsModule`; the allocations 13, 17 and 19 stand before
the initialiser stores 18 and 14 and the pair 15, 16 emitted for the reference
to `g2` in the initialiser of `g1`. -/
theorem inlineGlobalsIntoFunction_allocas_first_witness :
    (inlineGlobalsIntoFunction [8, 9, 7] 1 globalsModule 13).1.entryBlock 1 =
      some [.alloca 13 100 0 8 "g1", .alloca 17 101 0 1 "g2", .alloca 19 101 0 1 "g3",
        .store 18 (.constant (.int 32 7)) (.instruction 17),
        .store 14 (.constant (.aggregate [.undef, .int 32 5])) (.instruction 13),
        .getelementptr 15 true (.instruction 13) [indexValue 0, indexValue 0],
        .store 16 (.instruction 17) (.instruction 15),
        .other 10 5 [.instruction 13],
        .other 20 3 [.instruction 17, .constant (.int 32 1)],
        .other 21 3 [.instruction 17, .constant (.int 32 1)],
        .other 11 6 [.instruction 20, .instruction 20, .instruction 19],
        .other 12 1 []] ∧
    ∃ (ids : List Nat) (chunk tail : List Instruction),
      ids.length = [8, 9, 7].length ∧ ids.Nodup ∧ (∀ a ∈ ids, 13 ≤ a) ∧
      (allocateGlobals [8, 9, 7]
          (Instruction.other 10 5 [.constant (.globalVariable 8)] ::
            [.other 11 6 [.constant (.expr 3 [.globalVariable 9, .int 32 1]),
                .constant (.expr 3 [.globalVariable 9, .int 32 1]),
                .constant (.globalVariable 7)],
              .other 12 1 []])
          (Instruction.other 10 5 [.constant (.globalVariable 8)]).id
          globalsModule.globals 13).entry =
        ([8, 9, 7].zip ids).map (fun p => globalsModule.allocaFor p.1 p.2) ++
          (chunk ++ (Instruction.other 10 5 [.constant (.globalVariable 8)] ::
            [.other 11 6 [.constant (.expr 3 [.globalVariable 9, .int 32 1]),
                .constant (.expr 3 [.globalVariable 9, .int 32 1]),
                .constant (.globalVariable 7)],
              .other 12 1 []]).map (Instruction.mapOperands (Value.currentAll
            (allocateGlobals [8, 9, 7]
              (Instruction.other 10 5 [.constant (.globalVariable 8)] ::
                [.other 11 6 [.constant (.expr 3 [.globalVariable 9, .int 32 1]),
                    .constant (.expr 3 [.globalVariable 9, .int 32 1]),
                    .constant (.globalVariable 7)],
                  .other 12 1 []])
              (Instruction.other 10 5 [.constant (.globalVariable 8)]).id
              globalsModule.globals 13).changed))) ∧
      (∀ i ∈ chunk, i.isAlloca = false ∧
        ∀ o ∈ Instruction.other 10 5 [.constant (.globalVariable 8)] ::
            [.other 11 6 [.constant (.expr 3 [.globalVariable 9, .int 32 1]),
                .constant (.expr 3 [.globalVariable 9, .int 32 1]),
                .constant (.globalVariable 7)],
              .other 12 1 []], o.id < i.id) ∧
      (inlineGlobalsIntoFunction [8, 9, 7] 1 globalsModule 13).1.entryBlock 1 =
        some (([8, 9, 7].zip ids).map (fun p => globalsModule.allocaFor p.1 p.2) ++ tail) ∧
      (∀ i ∈ tail, i.isAlloca = true →
        i ∈ Instruction.other 10 5 [.constant (.globalVariable 8)] ::
          [.other 11 6 [.constant (.expr 3 [.globalVariable 9, .int 32 1]),
              .constant (.expr 3 [.globalVariable 9, .int 32 1]),
              .constant (.globalVariable 7)],
            .other 12 1 []]) ∧
      List.SublistForall₂ (Instruction.ConvertedBy ([8, 9, 7].zip ids))
        (chunk ++ (Instruction.other 10 5 [.constant (.globalVariable 8)] ::
            [.other 11 6 [.constant (.expr 3 [.globalVariable 9, .int 32 1]),
                .constant (.expr 3 [.globalVariable 9, .int 32 1]),
                .constant (.globalVariable 7)],
              .other 12 1 []]).map (Instruction.mapOperands (Value.currentAll
            (allocateGlobals [8, 9, 7]
              (Instruction.other 10 5 [.constant (.globalVariable 8)] ::
                [.other 11 6 [.constant (.expr 3 [.globalVariable 9, .int 32 1]),
                    .constant (.expr 3 [.globalVariable 9, .int 32 1]),
                    .constant (.globalVariable 7)],
                  .other 12 1 []])
              (Instruction.other 10 5 [.constant (.globalVariable 8)]).id
              globalsModule.globals 13).changed))) tail ∧
      ∀ (g a : Nat) (c : Constant), (g, a) ∈ [8, 9, 7].zip ids →
        globalsModule.initializerOf g = some c →
        ∃ (P S : List Instruction) (v : Value),
          tail = P ++ .store (a + 1) v (.instruction a) :: S :=
  ⟨by decide,
    inlineGlobalsIntoFunction_allocas_first [8, 9, 7] 1 globalsModule 13
      (.other 10 5 [.constant (.globalVariable 8)])
      [.other 11 6 [.constant (.expr 3 [.globalVariable 9, .int 32 1]),
          .constant (.expr 3 [.globalVariable 9, .int 32 1]), .constant (.globalVariable 7)],
        .other 12 1 []]
      (by decide) (by decide) (by decide) (by decide)⟩
/-! ## Theorems: what is left of the uses of the globals -/

end Squishy
